import Mathlib

/-!
# Pythoript/email-scraper: a shallow embedding of `extractor.go`, `main.go` and `validate.go`

Go strings are byte sequences, so a string is a `List Nat` of bytes here. The functions of
package `regexp`, `strings` and `utf8` that the program calls read such a string one UTF-8
code point at a time, a byte that starts no valid encoding counting as U+FFFD of width one;
`decodeRune` and `encodeRune` follow package `utf8` for that.

What the program takes from tables of the Go standard library (the entity table of package
`html`, the case tables of package `unicode` above Latin-1) is a field of `Stdlib`, so every
theorem holds for whatever those tables contain. The browser, the HTML parser and URL
resolution are the fields of `World`, address parsing and the mail-exchange lookup those of
`Net`.

Regular expressions run on a backtracking matcher (`Re.run`) that follows the order of
preference of package `regexp`; `Derives` is the relation of a match without that order, and
every match the matcher finds is one (`run_sound`), and where a match exists the matcher
finds one (`run_complete`).
-/

namespace EmailScraper

/-- A Go string: its bytes. -/
abbrev Str := List Nat

/-- Bytes of the UTF-8 encoding of a code point, as `utf8.AppendRune` writes them: a surrogate
or a value above U+10FFFF is written as U+FFFD. -/
def encodeRune (r : Nat) : Str :=
  if r ≤ 0x7F then [r]
  else if r ≤ 0x7FF then [0xC0 + r / 64, 0x80 + r % 64]
  else if 0x10FFFF < r ∨ (0xD800 ≤ r ∧ r ≤ 0xDFFF) then [0xEF, 0xBF, 0xBD]
  else if r ≤ 0xFFFF then [0xE0 + r / 4096, 0x80 + r / 64 % 64, 0x80 + r % 64]
  else [0xF0 + r / 262144, 0x80 + r / 4096 % 64, 0x80 + r / 64 % 64, 0x80 + r % 64]

/-- The bytes of a string literal. -/
def bytes (s : String) : Str :=
  s.toList.foldr (fun c acc => encodeRune c.toNat ++ acc) []

/-- A continuation byte of UTF-8 within the bounds `lo..hi`. -/
def inRange (lo hi b : Nat) : Bool := decide (lo ≤ b) && decide (b ≤ hi)

/-- The first code point of a string and its width in bytes, as `utf8.DecodeRuneInString`
returns them: `(0xFFFD, 1)` for a byte that starts no valid encoding, `(0xFFFD, 0)` for the
empty string. -/
def decodeRune : Str → Nat × Nat
  | [] => (0xFFFD, 0)
  | b0 :: t =>
    if b0 < 0x80 then (b0, 1)
    else if b0 < 0xC2 then (0xFFFD, 1)
    else if b0 < 0xE0 then
      match t with
      | b1 :: _ =>
        if inRange 0x80 0xBF b1 then (b0 % 32 * 64 + b1 % 64, 2) else (0xFFFD, 1)
      | [] => (0xFFFD, 1)
    else if b0 < 0xF0 then
      match t with
      | b1 :: b2 :: _ =>
        if inRange (if b0 = 0xE0 then 0xA0 else 0x80) (if b0 = 0xED then 0x9F else 0xBF) b1
            && inRange 0x80 0xBF b2 then
          (b0 % 16 * 4096 + b1 % 64 * 64 + b2 % 64, 3)
        else (0xFFFD, 1)
      | _ => (0xFFFD, 1)
    else if b0 < 0xF5 then
      match t with
      | b1 :: b2 :: b3 :: _ =>
        if inRange (if b0 = 0xF0 then 0x90 else 0x80) (if b0 = 0xF4 then 0x8F else 0xBF) b1
            && inRange 0x80 0xBF b2 && inRange 0x80 0xBF b3 then
          (b0 % 8 * 262144 + b1 % 64 * 4096 + b2 % 64 * 64 + b3 % 64, 4)
        else (0xFFFD, 1)
      | _ => (0xFFFD, 1)
    else (0xFFFD, 1)

/-- The code points of a string in order, the loop `for _, c := range s`; `skip` counts the
bytes of the code point just read that are still to be passed over. -/
def runesSkip : Nat → Str → List Nat
  | _, [] => []
  | 0, b :: t => (decodeRune (b :: t)).1 :: runesSkip ((decodeRune (b :: t)).2 - 1) t
  | skip + 1, _ :: t => runesSkip skip t

/-- The conversion `[]rune(s)`. -/
def runes (s : Str) : List Nat := runesSkip 0 s

/-- The conversion `string(runes)`. -/
def ofRunes (rs : List Nat) : Str := rs.foldr (fun r acc => encodeRune r ++ acc) []

/-- Go's `strings.Map` for a mapping that drops no character: every code point of the string
is replaced by the encoding of its image. -/
def stringsMap (f : Nat → Nat) (s : Str) : Str := ofRunes ((runes s).map f)

/-- Go's `strings.Join`. -/
def stringsJoin : List Str → Str → Str
  | [], _ => []
  | [a], _ => a
  | a :: b :: t, sep => a ++ sep ++ stringsJoin (b :: t) sep

/-- Go's `strings.HasPrefix`. -/
def hasPrefix (s pre : Str) : Bool := pre.isPrefixOf s

/-- Go's `strings.Contains` for a one-byte needle. -/
def containsByte (s : Str) (b : Nat) : Bool := s.contains b

/-! ## Package `regexp`

Go's `regexp` returns the leftmost match and, among the matches that start there, the one a
backtracking search finds first. `Re.run` is that backtracking search, written with a
continuation: the continuation is what has to match after the expression. -/

/-- The regular expressions the program compiles. -/
inductive Re where
  | empty : Re
  | cls (neg : Bool) (ranges : List (Nat × Nat)) : Re
  | seq (a b : Re) : Re
  | alt (a b : Re) : Re
  | star (greedy : Bool) (a : Re) : Re
  | group (i : Nat) (a : Re) : Re
  | bot : Re
  | eot : Re
  | wordBoundary : Re

/-- A position of the text a regular expression runs on: the byte before it, the text after
it, and the capture groups closed so far (the latest first). -/
structure Pos where
  prev : Option Nat
  rest : Str
  caps : List (Nat × Str)

/-- The start of a text. -/
def Pos.start (s : Str) : Pos := ⟨none, s, []⟩

/-- The position `w` bytes further on (`0 < w ≤` the length of the text left). -/
def Pos.advance (p : Pos) (w : Nat) : Pos :=
  ⟨(p.rest.take w).getLast?, p.rest.drop w, p.caps⟩

/-- Membership of a code point in a character class given by its ranges. -/
def inClass (neg : Bool) (ranges : List (Nat × Nat)) (r : Nat) : Bool :=
  neg != ranges.any (fun lh => decide (lh.1 ≤ r) && decide (r ≤ lh.2))

/-- The word characters of `\b`, `\w` and `\W`: ASCII letters, digits and the underscore. -/
def wordRanges : List (Nat × Nat) := [(48, 57), (65, 90), (95, 95), (97, 122)]

/-- Whether a byte is a word character, `syntax.IsWordChar`. -/
def isWordByte (b : Option Nat) : Bool :=
  match b with
  | none => false
  | some c => inClass false wordRanges c

/-- One round of a repetition: `m` is the matcher of the repeated expression. A round that
consumes nothing ends the repetition. -/
def starLoop (m : Pos → (Pos → Option Pos) → Option Pos) (greedy : Bool) :
    Nat → Pos → (Pos → Option Pos) → Option Pos
  | 0, p, k => k p
  | n + 1, p, k =>
    if greedy then
      match m p (fun q => if q.rest.length < p.rest.length then starLoop m greedy n q k
          else none) with
      | some r => some r
      | none => k p
    else
      match k p with
      | some r => some r
      | none => m p (fun q => if q.rest.length < p.rest.length then starLoop m greedy n q k
          else none)

/-- The backtracking matcher: `re.run p k` is the end of the first match of `re` at `p` that
the continuation `k` accepts. -/
def Re.run : Re → Pos → (Pos → Option Pos) → Option Pos
  | .empty, p, k => k p
  | .cls neg ranges, p, k =>
    match p.rest with
    | [] => none
    | b :: t =>
      let d := decodeRune (b :: t)
      if inClass neg ranges d.1 then k (p.advance d.2) else none
  | .seq a b, p, k => a.run p (fun q => b.run q k)
  | .alt a b, p, k =>
    match a.run p k with
    | some r => some r
    | none => b.run p k
  | .star greedy a, p, k => starLoop a.run greedy p.rest.length p k
  | .group i a, p, k =>
    a.run p (fun q =>
      k ⟨q.prev, q.rest, (i, p.rest.take (p.rest.length - q.rest.length)) :: q.caps⟩)
  | .bot, p, k => if p.prev.isNone then k p else none
  | .eot, p, k => if p.rest.isEmpty then k p else none
  | .wordBoundary, p, k =>
    if isWordByte p.prev != isWordByte p.rest.head? then k p else none

/-- A match: the text before it (from where the search began), the matched text, the position
after it and the capture groups. -/
structure Match where
  before : Str
  text : Str
  stop : Pos

/-- The text of capture group `i` of a match, empty when the group took no part. -/
def Match.cap (m : Match) (i : Nat) : Str :=
  match m.stop.caps.find? (fun c => c.1 == i) with
  | some c => c.2
  | none => []

/-- The leftmost match at or after a position, the search going on one code point at a time
(fuel: the length of the text left, plus one). `skipped` is the text passed so far. -/
def Re.search (re : Re) : Nat → Str → Pos → Option Match
  | 0, _, _ => none
  | n + 1, skipped, p =>
    match re.run ⟨p.prev, p.rest, []⟩ some with
    | some q => some ⟨skipped, p.rest.take (p.rest.length - q.rest.length), q⟩
    | none =>
      match p.rest with
      | [] => none
      | b :: t =>
        let w := (decodeRune (b :: t)).2
        re.search n (skipped ++ (b :: t).take w) (p.advance w)

/-- Go's `MatchString`. -/
def Re.matchString (re : Re) (s : Str) : Bool :=
  (re.search (s.length + 1) [] (Pos.start s)).isSome

/-- The loop of `allMatches` behind `FindAllString(s, -1)`: `afterMatch` says that the last
match ended at this position, where an empty match is not delivered. -/
def Re.findAllLoop (re : Re) : Nat → Bool → Pos → List Str
  | 0, _, _ => []
  | n + 1, afterMatch, p =>
    match re.search (p.rest.length + 1) [] p with
    | none => []
    | some m =>
      if m.stop.rest.length < p.rest.length then
        m.text :: re.findAllLoop n true m.stop
      else
        let found := if afterMatch then [] else [m.text]
        match p.rest with
        | [] => found
        | b :: t => found ++ re.findAllLoop n false (p.advance (decodeRune (b :: t)).2)

/-- Go's `FindAllString(s, -1)`. -/
def Re.findAllString (re : Re) (s : Str) : List Str :=
  re.findAllLoop (s.length + 1) false (Pos.start s)

/-- The loop of `replaceAll`: `pending` is the text between the end of the last match and
the position the search goes on from, `first` holds in the first round. -/
def Re.replaceAllLoop (re : Re) (repl : Match → Str) : Nat → Bool → Str → Pos → Str
  | 0, _, pending, p => pending ++ p.rest
  | n + 1, first, pending, p =>
    match re.search (p.rest.length + 1) [] p with
    | none => pending ++ p.rest
    | some m =>
      let put := first || !(pending.isEmpty && m.before.isEmpty && m.text.isEmpty)
      let out := pending ++ m.before ++ (if put then repl m else [])
      if m.stop.rest.length < p.rest.length then
        out ++ re.replaceAllLoop repl n false [] m.stop
      else
        match p.rest with
        | [] => out
        | b :: t =>
          let w := (decodeRune (b :: t)).2
          out ++ re.replaceAllLoop repl n false ((b :: t).take w) (p.advance w)

/-- Go's `ReplaceAllStringFunc`: the replacement is computed from the matched text. -/
def Re.replaceAllStringFunc (re : Re) (s : Str) (f : Str → Str) : Str :=
  re.replaceAllLoop (fun m => f m.text) (s.length + 1) true [] (Pos.start s)

/-- A piece of a replacement template: literal text or `$i`. -/
inductive Piece where
  | lit (s : Str) : Piece
  | grp (i : Nat) : Piece

/-- The expansion of a replacement template at a match, `Regexp.expand`. -/
def expand (tpl : List Piece) (m : Match) : Str :=
  tpl.foldr (fun pc acc =>
    match pc with
    | .lit s => s ++ acc
    | .grp i => m.cap i ++ acc) []

/-- Go's `ReplaceAllString` with the template already split into its pieces. -/
def Re.replaceAllString (re : Re) (s : Str) (tpl : List Piece) : Str :=
  re.replaceAllLoop (expand tpl) (s.length + 1) true [] (Pos.start s)

/-! ### Writing regular expressions -/

/-- A concatenation. -/
def Re.cat : List Re → Re
  | [] => .empty
  | [a] => a
  | a :: b :: t => .seq a (Re.cat (b :: t))

/-- An alternation, the first alternative preferred. -/
def Re.any : List Re → Re
  | [] => .cls false []
  | [a] => a
  | a :: b :: t => .alt a (Re.any (b :: t))

/-- One literal byte. -/
def Re.byte (b : Nat) : Re := .cls false [(b, b)]

/-- A literal ASCII word. -/
def Re.word (s : String) : Re := Re.cat ((bytes s).map Re.byte)

/-- The repetition `a+`. -/
def Re.plus (a : Re) : Re := .seq a (.star true a)

/-- The repetition `a*`. -/
def Re.many (a : Re) : Re := .star true a

/-- The class `\W`. -/
def Re.nonWord : Re := .cls true wordRanges

/-- One of the listed ASCII characters. -/
def Re.oneOf (s : String) : Re := .cls false ((bytes s).map (fun b => (b, b)))

/-- The ranges of a character class written as in the source, `a-z` standing for a range. -/
def classRanges : Str → List (Nat × Nat)
  | a :: 45 :: b :: t => (a, b) :: classRanges t
  | a :: t => (a, a) :: classRanges t
  | [] => []

/-- The class `[...]` with the text between the brackets. -/
def Re.set (s : String) : Re := .cls false (classRanges (bytes s))

/-- The class `[^...]`. -/
def Re.notSet (s : String) : Re := .cls true (classRanges (bytes s))

/-- The class `[_\W]`: everything but ASCII letters and digits. -/
def Re.underscoreOrNonWord : Re := .cls true [(48, 57), (65, 90), (97, 122)]

/-- The class `.`: every code point but the newline. -/
def Re.dot : Re := .cls true [(10, 10)]

/-- The class `\s`: tab, newline, form feed, carriage return, space. -/
def Re.space : Re := .cls false [(9, 10), (12, 13), (32, 32)]

/-! ## Package `encoding/hex`, `net/url`, `html`, `unicode` -/

/-- The value of a hexadecimal digit, `fromHexChar` of package `hex`. -/
def fromHexChar (c : Nat) : Option Nat :=
  if 48 ≤ c ∧ c ≤ 57 then some (c - 48)
  else if 97 ≤ c ∧ c ≤ 102 then some (c - 97 + 10)
  else if 65 ≤ c ∧ c ≤ 70 then some (c - 65 + 10)
  else none

/-- The bytes `hex.DecodeString` returns: those decoded before the first pair that is not two
hexadecimal digits (the program drops the error value at every call). -/
def hexDecodeString : Str → Str
  | a :: b :: t =>
    match fromHexChar a, fromHexChar b with
    | some x, some y => (x * 16 + y) :: hexDecodeString t
    | _, _ => []
  | _ => []

/-- The first pass of `unescape` in package `url`: every `%` is followed by two hexadecimal
digits. -/
def escapesOk : Str → Bool
  | [] => true
  | 37 :: t =>
    match t with
    | a :: b :: u => (fromHexChar a).isSome && (fromHexChar b).isSome && escapesOk u
    | _ => false
  | _ :: t => escapesOk t

/-- The second pass of `unescape` in query mode: `%XX` becomes the byte, `+` a space. -/
def unescapeBytes : Str → Str
  | [] => []
  | 37 :: a :: b :: t => ((fromHexChar a).getD 0 * 16 + (fromHexChar b).getD 0) :: unescapeBytes t
  | 43 :: t => 32 :: unescapeBytes t
  | c :: t => c :: unescapeBytes t

/-- Go's `url.QueryUnescape`, `none` for its error. -/
def queryUnescape (s : Str) : Option Str :=
  if escapesOk s then some (unescapeBytes s) else none

/-- What the program reads from tables of the Go standard library. -/
structure Stdlib where
  /-- The value of `html.UnescapeString` on a string that contains `&`. -/
  unescapeEntities : Str → Str
  /-- The value of `unicode.IsLower` on a code point above U+00FF. -/
  isLower : Nat → Bool
  /-- The value of `unicode.IsUpper` on a code point above U+00FF. -/
  isUpper : Nat → Bool

/-- Go's `html.UnescapeString`: a string without `&` is returned as it is. -/
def htmlUnescapeString (L : Stdlib) (s : Str) : Str :=
  if containsByte s 38 then L.unescapeEntities s else s

/-- Go's `unicode.IsLower`: the Latin-1 part is the property table of package `unicode`. -/
def unicodeIsLower (L : Stdlib) (r : Nat) : Bool :=
  if r ≤ 0xFF then
    inRange 97 122 r || r == 0xB5 || inRange 0xDF 0xF6 r || inRange 0xF8 0xFF r
  else L.isLower r

/-- Go's `unicode.IsUpper`. -/
def unicodeIsUpper (L : Stdlib) (r : Nat) : Bool :=
  if r ≤ 0xFF then
    inRange 65 90 r || inRange 0xC0 0xD6 r || inRange 0xD8 0xDE r
  else L.isUpper r

/-! ## `extractor.go` -/

/-- The expression of `rotIsValid`:
`^[a-zA-Z0-9_.+-]+@[a-zA-Z0-9-]+\.(com|edu|net|ca|co.uk|co|org|gov|info|de|au|nl|ru|fr|br|uk|io|me|dev)+$` -/
def rotRegex : Re :=
  Re.cat [.bot, Re.plus (Re.set "a-zA-Z0-9_.+-"), Re.byte 64, Re.plus (Re.set "a-zA-Z0-9-"),
    Re.byte 46,
    Re.plus (.group 1 (Re.any [Re.word "com", Re.word "edu", Re.word "net", Re.word "ca",
      Re.cat [Re.word "co", Re.dot, Re.word "uk"], Re.word "co", Re.word "org", Re.word "gov",
      Re.word "info", Re.word "de", Re.word "au", Re.word "nl", Re.word "ru", Re.word "fr",
      Re.word "br", Re.word "uk", Re.word "io", Re.word "me", Re.word "dev"])),
    .eot]

/-- The function `rotIsValid`. -/
def rotIsValid (email : Str) : Bool := rotRegex.matchString email

/-- The function `rotateChar`. A lower-case code point is at least `'a'` and an upper-case one
at least `'A'`, so the subtractions do not go below zero. -/
def rotateChar (L : Stdlib) (char : Nat) (x : Nat) : Nat :=
  if unicodeIsLower L char then 97 + (char - 97 + x) % 26
  else if unicodeIsUpper L char then 65 + (char - 65 + x) % 26
  else char

/-- The loop `for x := 1; x < 26; x++` of `tryRotDecryption` (fuel: the rounds left). -/
def tryRotLoop (L : Stdlib) (encryptedEmail : Str) : Nat → Nat → List Str → List Str
  | 0, _, potentialEmails => potentialEmails
  | n + 1, x, potentialEmails =>
    if x < 26 then
      let decrypted := stringsMap (fun r => rotateChar L r x) encryptedEmail
      tryRotLoop L encryptedEmail n (x + 1)
        (if rotIsValid decrypted then potentialEmails ++ [decrypted] else potentialEmails)
    else potentialEmails

/-- The function `tryRotDecryption`. -/
def tryRotDecryption (L : Stdlib) (encryptedEmail : Str) : List Str :=
  tryRotLoop L encryptedEmail 25 1 []

/-- The expression of `decodeUnicodeEscape`: `\\u[0-9a-fA-F]{4}` -/
def unicodeEscapePattern : Re :=
  Re.cat [Re.byte 92, Re.byte 117, Re.set "0-9a-fA-F", Re.set "0-9a-fA-F", Re.set "0-9a-fA-F",
    Re.set "0-9a-fA-F"]

/-- The function `decodeUnicodeEscape`: the match without its first two bytes goes through
`hex.DecodeString`, and the bytes decoded are the replacement. -/
def decodeUnicodeEscape (str : Str) : Str :=
  unicodeEscapePattern.replaceAllStringFunc str (fun m => hexDecodeString (m.drop 2))

/-- The function `normalizeHTML`. -/
def normalizeHTML (L : Stdlib) (htmlStr : Str) : Str :=
  let decoded := match queryUnescape htmlStr with
    | some d => d
    | none => htmlStr
  decodeUnicodeEscape (htmlUnescapeString L decoded)

/-- The first expression of `processHTML`, for comments: `<!--(.|\s|\n)*?-->` -/
def commentRegex : Re :=
  Re.cat [Re.word "<!--", .star false (.group 1 (Re.any [Re.dot, Re.space, Re.byte 10])),
    Re.word "-->"]

/-- The second expression of `processHTML`, for tags: `<[^>]+>` -/
def tagRegex : Re := Re.cat [Re.byte 60, Re.plus (Re.notSet ">"), Re.byte 62]

/-- The function `processHTML`. -/
def processHTML (L : Stdlib) (text : Str) : Str :=
  let text := normalizeHTML L text
  let text := text ++ (bytes " " ++ stringsJoin (tryRotDecryption L text) (bytes " "))
  let text := commentRegex.replaceAllString text []
  tagRegex.replaceAllString text []

/-- Rule 1 of `preProcessEmail`: `\W*\.\W*|\W+(D|d)(O|0|o)(t|T)\W+` -/
def dotRegex : Re :=
  .alt (Re.cat [Re.many Re.nonWord, Re.byte 46, Re.many Re.nonWord])
    (Re.cat [Re.plus Re.nonWord, .group 1 (Re.any [Re.word "D", Re.word "d"]),
      .group 2 (Re.any [Re.word "O", Re.word "0", Re.word "o"]),
      .group 3 (Re.any [Re.word "t", Re.word "T"]), Re.plus Re.nonWord])

/-- Rule 2: `([a-z0-9])(DOT|D0T|DoT)([a-z0-9])` -/
def gluedDotLower : Re :=
  Re.cat [.group 1 (Re.set "a-z0-9"),
    .group 2 (Re.any [Re.word "DOT", Re.word "D0T", Re.word "DoT"]), .group 3 (Re.set "a-z0-9")]

/-- Rule 3: `([A-Z0-9])(dot|d0t|dOt)([A-Z0-9])` -/
def gluedDotUpper : Re :=
  Re.cat [.group 1 (Re.set "A-Z0-9"),
    .group 2 (Re.any [Re.word "dot", Re.word "d0t", Re.word "dOt"]), .group 3 (Re.set "A-Z0-9")]

/-- Rule 4: `\W*@\W*|\W+(A|a)(T|t)\W+` -/
def atRegex : Re :=
  .alt (Re.cat [Re.many Re.nonWord, Re.byte 64, Re.many Re.nonWord])
    (Re.cat [Re.plus Re.nonWord, .group 1 (Re.any [Re.word "A", Re.word "a"]),
      .group 2 (Re.any [Re.word "T", Re.word "t"]), Re.plus Re.nonWord])

/-- Rule 5: `([a-z0-9])AT([a-z0-9])` -/
def gluedAtLower : Re :=
  Re.cat [.group 1 (Re.set "a-z0-9"), Re.word "AT", .group 2 (Re.set "a-z0-9")]

/-- Rule 6: `([A-Z0-9])at([A-Z0-9])` -/
def gluedAtUpper : Re :=
  Re.cat [.group 1 (Re.set "A-Z0-9"), Re.word "at", .group 2 (Re.set "A-Z0-9")]

/-- Rule 7: `([a-z0-9])REMOVE([a-z0-9@\.])` -/
def removeLower : Re :=
  Re.cat [.group 1 (Re.set "a-z0-9"), Re.word "REMOVE", .group 2 (Re.set "a-z0-9@.")]

/-- Rule 8: `([A-Z0-9])remove([A-Z0-9@\.])` -/
def removeUpper : Re :=
  Re.cat [.group 1 (Re.set "A-Z0-9"), Re.word "remove", .group 2 (Re.set "A-Z0-9@.")]

/-- Rule 9: `[_\W]*n[_\W]*(o|0)[_\W]*(s|5)[_\W]*p[_\W]*a[_\W]*m[_\W]*` -/
def nospamRegex : Re :=
  Re.cat [Re.many Re.underscoreOrNonWord, Re.word "n", Re.many Re.underscoreOrNonWord,
    .group 1 (Re.any [Re.word "o", Re.word "0"]), Re.many Re.underscoreOrNonWord,
    .group 2 (Re.any [Re.word "s", Re.word "5"]), Re.many Re.underscoreOrNonWord, Re.word "p",
    Re.many Re.underscoreOrNonWord, Re.word "a", Re.many Re.underscoreOrNonWord, Re.word "m",
    Re.many Re.underscoreOrNonWord]

/-- The replacement function of rule 9. -/
def nospamReplacement (m : Str) : Str :=
  if containsByte m 46 then bytes "."
  else if containsByte m 64 then bytes "@"
  else []

/-- The first eight rewriting rules of `preProcessEmail`, in the order of the source. -/
def rewriteWords (text : Str) : Str :=
  let text := dotRegex.replaceAllString text [.lit (bytes ".")]
  let text := gluedDotLower.replaceAllString text [.grp 1, .lit (bytes "."), .grp 3]
  let text := gluedDotUpper.replaceAllString text [.grp 1, .lit (bytes "."), .grp 3]
  let text := atRegex.replaceAllString text [.lit (bytes "@")]
  let text := gluedAtLower.replaceAllString text [.grp 1, .lit (bytes "@"), .grp 2]
  let text := gluedAtUpper.replaceAllString text [.grp 1, .lit (bytes "@"), .grp 2]
  let text := removeLower.replaceAllString text [.grp 1, .grp 2]
  removeUpper.replaceAllString text [.grp 1, .grp 2]

/-- The nine rewriting rules of `preProcessEmail`: the eight of `rewriteWords`, then the
nospam rule. -/
def rewriteTokens (text : Str) : Str :=
  nospamRegex.replaceAllStringFunc (rewriteWords text) nospamReplacement

/-- The function `preProcessEmail`. -/
def preProcessEmail (L : Stdlib) (text : Str) : Str :=
  rewriteTokens (processHTML L text)

/-- The forward expression of `extractEmails`:
`\b[A-Za-z0-9._%+-]+@[A-Za-z0-9.-]+\.[a-zA-Z]{2,}\b` -/
def emailRegex : Re :=
  Re.cat [.wordBoundary, Re.plus (Re.set "A-Za-z0-9._%+-"), Re.byte 64,
    Re.plus (Re.set "A-Za-z0-9.-"), Re.byte 46, Re.set "a-zA-Z", Re.set "a-zA-Z",
    Re.many (Re.set "a-zA-Z"), .wordBoundary]

/-- The reversed expression of `extractEmails`:
`\b(moc|ac|gro|ten|ppa|due|ku\.oc)\.[a-zA-Z0-9.-]+@[A-Za-z0-9._%+-]+\b` -/
def rtlPattern : Re :=
  Re.cat [.wordBoundary,
    .group 1 (Re.any [Re.word "moc", Re.word "ac", Re.word "gro", Re.word "ten", Re.word "ppa",
      Re.word "due", Re.word "ku.oc"]),
    Re.byte 46, Re.plus (Re.set "a-zA-Z0-9.-"), Re.byte 64, Re.plus (Re.set "A-Za-z0-9._%+-"),
    .wordBoundary]

/-- The function `reverseString`. -/
def reverseString (s : Str) : Str := ofRunes (runes s).reverse

/-- The function `extractEmails`: the forward matches, then the reversed ones turned round. -/
def extractEmails (L : Stdlib) (htmlString : Str) : List Str :=
  let cleanedString := preProcessEmail L htmlString
  let rtlEmails := (rtlPattern.findAllString cleanedString).map reverseString
  let foundEmails := emailRegex.findAllString cleanedString
  foundEmails ++ rtlEmails

/-- The loop of `deCFEmail` at index `i`, `rest` being `encodedString[i:]`; `none` is a run-time
panic: a slice or an index out of range. -/
def deCFLoop (r : Str) : Str → Nat → Str → Option Str
  | [], _, decoded => some decoded
  | [_], _, _ => none
  | a :: b :: rest, i, decoded =>
    match (hexDecodeString [a, b]).head?, r.head? with
    | some v, some k =>
      if i / 2 - 1 < decoded.length then
        deCFLoop r rest (i + 2) (decoded.set (i / 2 - 1) (v ^^^ k))
      else none
    | _, _ => none

/-- The function `deCFEmail`; `none` is a run-time panic. -/
def deCFEmail (encodedString : Str) : Option Str :=
  if encodedString.length < 2 then none
  else
    deCFLoop (hexDecodeString (encodedString.take 2)) (encodedString.drop 2) 2
      (List.replicate (encodedString.length / 2 - 1) 0)

/-- The expression of `decodeHexAndUnicode`: `&#x([0-9a-fA-F]+);` -/
def hexRefRegex : Re :=
  Re.cat [Re.word "&#x", .group 1 (Re.plus (Re.set "0-9a-fA-F")), Re.byte 59]

/-- The function `decodeHexAndUnicode`. -/
def decodeHexAndUnicode (input : Str) : Str :=
  hexRefRegex.replaceAllStringFunc input
    (fun hexStr => hexDecodeString ((hexStr.drop 3).take (hexStr.length - 1 - 3)))

/-- A parsed URL, the fields of `url.URL` the program reads. -/
structure URL where
  Scheme : Str
  Host : Str
  Path : Str

/-- What the HTML parser (goquery), `url.Parse` and the network deliver for one page: the
inputs of `GetEmails` and `ExtractLinks` besides the text of the page. -/
structure PageDom where
  /-- The `data-cfemail` value of every element with that attribute, in document order. -/
  cfemail : List Str
  /-- For every `object[data]`, `img[src]`, `embed[src]` whose link ends in `.svg` and resolves
  to an absolute URL: the text of the fetched document, `none` when the fetch fails. -/
  svg : List (Option Str)
  /-- The `href` of every `a` element, empty when it has none. -/
  hrefs : List Str
  /-- The base URL parsed, `none` when `url.Parse` fails. -/
  base : Option URL
  /-- For every `a`, `iframe`, `frame` with an `href` (else a `src`) that `url.Parse` accepts:
  the absolute URL it resolves to, as a string. -/
  links : List Str

/-- The collaborators the program does not implement itself. -/
structure World where
  /-- Tables of the standard library. -/
  lib : Stdlib
  /-- The JavaScript interpreter behind `evaluateJSExpression`, the empty string on an error. -/
  evalJS : Str → Str
  /-- The parser: the page text and its URL to what is found in the page, `none` when
  `goquery.NewDocumentFromReader` fails. -/
  page : Str → Str → Option PageDom
  /-- The browser: `page.Navigate` followed by `page.HTML`, `none` when either fails. The
  first argument is the list of the pages opened so far, this one last. -/
  render : List (Str × Int) → Str → Option Str
  /-- The order in which `range` walks a map with these keys, which Go leaves open. -/
  rangeOrder : List Str → List Str

/-- An insertion into a `map[string]struct{}`, a map being the list of its keys. -/
def mapInsert (m : List Str) (key : Str) : List Str := if key ∈ m then m else m ++ [key]

/-- The insertion of every string of a list. -/
def mapInsertAll (m : List Str) (keys : List Str) : List Str := keys.foldl mapInsert m

/-- The function `extractEmailsFromHref`. -/
def extractEmailsFromHref (W : World) (href : Str) : List Str :=
  if hasPrefix href (bytes "javascript:") then
    extractEmails W.lib (W.evalJS (href.drop (bytes "javascript:").length))
  else extractEmails W.lib href

/-- The first loop of `GetEmails`: every `data-cfemail` value is decoded and the result
inserted; `none` when `deCFEmail` panics. -/
def cfemailLoop : List Str → List Str → Option (List Str)
  | [], emails => some emails
  | cfemail :: rest, emails =>
    match deCFEmail cfemail with
    | none => none
    | some decoded => cfemailLoop rest (mapInsert emails decoded)

/-- The second loop of `GetEmails`: the addresses of every SVG document that was fetched. -/
def svgLoop (W : World) : List (Option Str) → List Str → List Str
  | [], emails => emails
  | none :: rest, emails => svgLoop W rest emails
  | some svgContent :: rest, emails =>
    svgLoop W rest (mapInsertAll emails (extractEmails W.lib (decodeHexAndUnicode svgContent)))

/-- The function `GetEmails` on a page that parsed: the keys of the map `emails`, `none` when
the program panics. -/
def getEmailsOf (W : World) (htmlContent : Str) (dom : PageDom) : Option (List Str) :=
  match cfemailLoop dom.cfemail [] with
  | none => none
  | some emails =>
    let emails := svgLoop W dom.svg emails
    let emails := mapInsertAll emails (extractEmails W.lib htmlContent)
    let emails := dom.hrefs.foldl
      (fun emails href => mapInsertAll emails (extractEmailsFromHref W href)) emails
    some (W.rangeOrder emails)

/-- The function `GetEmails`: `nil` for a page that does not parse. -/
def GetEmails (W : World) (htmlContent scrapedURL : Str) : Option (List Str) :=
  match W.page htmlContent scrapedURL with
  | none => some []
  | some dom => getEmailsOf W htmlContent dom

/-- The `switch domainMode` of `ExtractLinks`: whether a resolved link is kept. -/
def scopeAdmits (base : URL) (domainMode : Int) (absoluteURL : Str) : Bool :=
  if domainMode = 1 then hasPrefix absoluteURL (base.Scheme ++ bytes "://" ++ base.Host)
  else if domainMode = 2 then
    hasPrefix absoluteURL (base.Scheme ++ bytes "://" ++ base.Host ++ base.Path)
  else true

/-- The body of the `Each` of `ExtractLinks` for one resolved link. -/
def addLink (base : URL) (domainMode : Int) (linkSet : List Str) (absoluteURL : Str) :
    List Str :=
  if absoluteURL = [] then linkSet
  else if scopeAdmits base domainMode absoluteURL then mapInsert linkSet absoluteURL
  else linkSet

/-- The function `ExtractLinks`: the keys of `linkSet`. -/
def ExtractLinks (W : World) (html baseURL : Str) (domainMode : Int) : List Str :=
  match W.page html baseURL with
  | none => []
  | some dom =>
    match dom.base with
    | none => []
    | some base => dom.links.foldl (addLink base domainMode) []

/-! ## `main.go` -/

/-- The white space of `strings.TrimSpace`, `unicode.IsSpace`. -/
def isSpaceRune (r : Nat) : Bool :=
  inRange 9 13 r || r == 32 || r == 0x85 || r == 0xA0 || r == 0x1680 || inRange 0x2000 0x200A r
    || r == 0x2028 || r == 0x2029 || r == 0x202F || r == 0x205F || r == 0x3000

/-- The test `strings.TrimSpace(html) == ""`. -/
def isBlank (html : Str) : Bool := (runes html).all isSpaceRune

/-- The state of a crawl: the slice `emailsOutput`, the pages opened so far with the depth
they were opened at, and whether the program has panicked. -/
structure CrawlState where
  emailsOutput : List Str
  opened : List (Str × Int)
  panicked : Bool

/-- The function `crawl` with the context never cancelled, as `main` calls it. The recursive
call is `crawl(ctx, page, Args{URL: link}, ...)`: of the arguments only the link is handed on,
so below the root page `args.DomainMode` is 0. The fuel bounds the depth of the recursion;
`crawl` below gives as much as the recursion can use. -/
def crawlAux (W : World) (domainMode maxDepth : Int) :
    Nat → CrawlState → Str → Int → CrawlState
  | 0, st, _, _ => st
  | fuel + 1, st, url, currentDepth =>
    if st.panicked then st
    else if currentDepth > maxDepth then st
    else
      let st := { st with opened := st.opened ++ [(url, currentDepth)] }
      match W.render st.opened url with
      | none => st
      | some html =>
        if isBlank html then st
        else
          match GetEmails W html url with
          | none => { st with panicked := true }
          | some emails =>
            let st := { st with emailsOutput := st.emailsOutput ++ emails }
            (W.rangeOrder (ExtractLinks W html url domainMode)).foldl
              (fun st link => crawlAux W 0 maxDepth fuel st link (currentDepth + 1)) st

/-- The function `crawl`. -/
def crawl (W : World) (domainMode maxDepth : Int) (st : CrawlState) (url : Str)
    (currentDepth : Int) : CrawlState :=
  crawlAux W domainMode maxDepth (maxDepth + 1 - currentDepth).toNat st url currentDepth

/-- Tables that hold nothing: no entity and no letter above U+00FF. -/
def plainLib : Stdlib := ⟨fun s => s, fun _ => false, fun _ => false⟩

/-- The text is free of `&` after URL unescaping, and decodes to code points up to U+00FF
only: `html.UnescapeString` and the case tables above Latin-1 are not consulted on it. -/
def tablesUnused (s : Str) : Bool :=
  !containsByte ((queryUnescape s).getD s) 38
    && (runes (normalizeHTML plainLib s)).all (fun r => decide (r ≤ 0xFF))

/-- The text rotated by `x`: the `strings.Map` call of `tryRotDecryption`. -/
def rotate (L : Stdlib) (x : Nat) (s : Str) : Str := stringsMap (fun r => rotateChar L r x) s

/-- Hexadecimal digit `d` in lower or upper case. -/
def hexDigit (upper : Bool) (d : Nat) : Nat :=
  if d < 10 then 48 + d else (if upper then 65 else 97) + (d - 10)

/-- The two hexadecimal digits of a byte. -/
def hexByte (upper : Bool) (b : Nat) : Str := [hexDigit upper (b / 16), hexDigit upper (b % 16)]

/-- The hexadecimal digits of every byte of the message XOR the key. -/
def cfBody (upper : Bool) (k : Nat) : Str → Str
  | [] => []
  | b :: m => hexByte upper (b ^^^ k) ++ cfBody upper k m

/-- The encoding `deCFEmail` undoes: the key in hexadecimal, then every byte of the message
XOR the key in hexadecimal. -/
def cfEncode (upper : Bool) (k : Nat) (m : Str) : Str := hexByte upper k ++ cfBody upper k m

/-- A world in which every URL shows the same page: the text `html`, in which the parser finds
`dom`. No entity, no script, and `range` walks a map in the order of insertion. -/
def staticWorld (html : Str) (dom : PageDom) : World :=
  ⟨plainLib, fun _ => [], fun _ _ => some dom, fun _ _ => some html, fun m => m⟩

/-- The state `main` starts the crawl in. -/
def CrawlState.init : CrawlState := ⟨[], [], false⟩

/-- A page at `http://a.com/blog/` with three links: the example of the scope filter. -/
def blogDom : PageDom :=
  ⟨[], [], [], some ⟨bytes "http", bytes "a.com", bytes "/blog/"⟩,
    [bytes "http://a.com/blog/post1", bytes "http://a.com/other", bytes "http://b.com/blog/"]⟩

/-- A page at `http://a.com` with a link to another host whose name starts with `a.com`. -/
def evilDom : PageDom :=
  ⟨[], [], [], some ⟨bytes "http", bytes "a.com", []⟩, [bytes "http://a.com.evil.org/"]⟩

/-- The text of a page that shows one address and links to itself. -/
def selfLinkHtml : Str := bytes "<a href=\"http://a.com/\">x@y.com</a>"

/-- What the parser finds in `selfLinkHtml` at `http://a.com/`: one anchor. -/
def selfLinkDom : PageDom :=
  ⟨[], [], [bytes "http://a.com/"], some ⟨bytes "http", bytes "a.com", bytes "/"⟩,
    [bytes "http://a.com/"]⟩

/-- Every page opened so far was opened at a depth between 1 and `maxDepth`. -/
def DepthsWithin (maxDepth : Int) (st : CrawlState) : Prop :=
  ∀ e ∈ st.opened, 1 ≤ e.2 ∧ e.2 ≤ maxDepth

/-- The continuation of a matcher is only ever called further on in the text. -/
def CallsOn (m : Pos → (Pos → Option Pos) → Option Pos) : Prop :=
  ∀ p k res, m p k = some res → ∃ q, k q = some res ∧ runes q.rest <:+ runes p.rest

/-- Every code point of a range satisfies `P`. -/
def rangeAll (P : Nat → Bool) (lh : Nat × Nat) : Bool :=
  (List.range' lh.1 (lh.2 + 1 - lh.1)).all P

/-- A test that suffices for every match of an expression to hold a code point with `P`. -/
def Re.needs (P : Nat → Bool) : Re → Bool
  | .empty => false
  | .cls neg ranges => !neg && ranges.all (rangeAll P)
  | .seq a b => a.needs P || b.needs P
  | .alt a b => a.needs P && b.needs P
  | .star _ _ => false
  | .group _ a => a.needs P
  | .bot => false
  | .eot => false
  | .wordBoundary => false

/-- The bytes that set off a step of `preProcessEmail`: `% + & \ < . @ D d A a R r n`. -/
def isTrigger (b : Nat) : Bool :=
  [37, 43, 38, 92, 60, 46, 64, 68, 100, 65, 97, 82, 114, 110].contains b

/-- An ASCII text that holds none of the bytes `% + & \ < . @ D d A a R r n`. -/
def isQuiet (s : Str) : Bool := s.all (fun b => decide (b < 128) && !isTrigger b)

/-- The code point `utf8.AppendRune` writes for `r`: U+FFFD for a surrogate or a value above
U+10FFFF. -/
def validRune (r : Nat) : Nat :=
  if 0x10FFFF < r ∨ (0xD800 ≤ r ∧ r ≤ 0xDFFF) then 0xFFFD else r

/-- The text of a page with one element whose `data-cfemail` attribute is empty. -/
def emptyCfHtml : Str := bytes "<a data-cfemail=\"\">mail</a>"

/-- What the parser finds in `emptyCfHtml` at `http://a.com/`: one `data-cfemail` value, the
empty string, and one anchor without `href`. -/
def emptyCfDom : PageDom :=
  ⟨[[]], [], [[]], some ⟨bytes "http", bytes "a.com", bytes "/"⟩, []⟩

/-! ## `validate.go` -/

/-- Go's `strings.Split` for a separator of one byte. -/
def stringsSplit (s : Str) (sep : Nat) : List Str :=
  match s with
  | [] => [[]]
  | b :: t =>
    if b = sep then [] :: stringsSplit t sep
    else
      match stringsSplit t sep with
      | h :: r => (b :: h) :: r
      | [] => [[b]]

/-- One step of `strings.EqualFold`: the code points are equal, or both are ASCII and one is
the upper-case letter of the other, or one is above ASCII and `orbit` says that the smaller
reaches the larger by `unicode.SimpleFold`. -/
def foldEq (orbit : Nat → Nat → Bool) (sr tr : Nat) : Bool :=
  sr == tr ||
    (if max sr tr < 128 then
      decide (65 ≤ min sr tr) && decide (min sr tr ≤ 90) && max sr tr == min sr tr + 32
    else orbit (min sr tr) (max sr tr))

/-- The comparison of `strings.EqualFold` code point by code point. -/
def equalFoldRunes (orbit : Nat → Nat → Bool) : List Nat → List Nat → Bool
  | [], [] => true
  | sr :: s, tr :: t => foldEq orbit sr tr && equalFoldRunes orbit s t
  | _, _ => false

/-- Go's `strings.EqualFold`. -/
def equalFold (orbit : Nat → Nat → Bool) (s t : Str) : Bool :=
  equalFoldRunes orbit (runes s) (runes t)

/-- The collaborators of `ValidateEmail`. -/
structure Net where
  /-- The field `Address` of what `mail.ParseAddress` returns, `none` for its error. -/
  parseAddress : Str → Option Str
  /-- The number of records `net.LookupMX` returns, `none` for its error. -/
  lookupMX : Str → Option Nat
  /-- The orbits of `unicode.SimpleFold` above ASCII. -/
  foldOrbit : Nat → Nat → Bool

/-- The function `ValidateEmail`. -/
def ValidateEmail (N : Net) (email : Str) : Bool :=
  match N.parseAddress email with
  | none => false
  | some address =>
    match stringsSplit address 64 with
    | [username, domain] =>
      match N.lookupMX domain with
      | none => false
      | some mxRecords =>
        if mxRecords = 0 then false
        else if username.length = 0 ∨ username.length > 64 then false
        else if equalFold N.foldOrbit domain (bytes "gmail.com") && decide (username.length < 6)
        then false
        else true
    | _ => false

/-- The lower-case letter of an ASCII upper-case letter, every other byte itself. -/
def asciiLower (b : Nat) : Nat := if 65 ≤ b ∧ b ≤ 90 then b + 32 else b

/-- A network in which every address parses to itself and every domain has one record. -/
def openNet : Net := ⟨fun s => some s, fun _ => some 1, fun _ _ => false⟩

mutual
/-- The runs of `crawl` as the source defines them, without any bound on the recursion:
`Crawls W maxDepth domainMode st url d st'` says that the call `crawl(..., maxDepth, d)` for
`url` with `args.DomainMode = domainMode`, begun in the state `st`, returns in the state `st'`.
Every recursive call is at `d + 1`. -/
inductive Crawls (W : World) (maxDepth : Int) :
    Int → CrawlState → Str → Int → CrawlState → Prop
  | halted (domainMode : Int) (st : CrawlState) (url : Str) (d : Int) :
    st.panicked = true → Crawls W maxDepth domainMode st url d st
  | tooDeep (domainMode : Int) (st : CrawlState) (url : Str) (d : Int) :
    st.panicked = false → d > maxDepth → Crawls W maxDepth domainMode st url d st
  | noPage (domainMode : Int) (st : CrawlState) (url : Str) (d : Int) :
    st.panicked = false → ¬ d > maxDepth →
    W.render (st.opened ++ [(url, d)]) url = none →
    Crawls W maxDepth domainMode st url d { st with opened := st.opened ++ [(url, d)] }
  | blank (domainMode : Int) (st : CrawlState) (url : Str) (d : Int) (html : Str) :
    st.panicked = false → ¬ d > maxDepth →
    W.render (st.opened ++ [(url, d)]) url = some html → isBlank html = true →
    Crawls W maxDepth domainMode st url d { st with opened := st.opened ++ [(url, d)] }
  | crash (domainMode : Int) (st : CrawlState) (url : Str) (d : Int) (html : Str) :
    st.panicked = false → ¬ d > maxDepth →
    W.render (st.opened ++ [(url, d)]) url = some html → isBlank html = false →
    GetEmails W html url = none →
    Crawls W maxDepth domainMode st url d
      { st with opened := st.opened ++ [(url, d)], panicked := true }
  | visit (domainMode : Int) (st : CrawlState) (url : Str) (d : Int) (html : Str)
      (emails : List Str) (st' : CrawlState) :
    st.panicked = false → ¬ d > maxDepth →
    W.render (st.opened ++ [(url, d)]) url = some html → isBlank html = false →
    GetEmails W html url = some emails →
    CrawlsAll W maxDepth
      { st with opened := st.opened ++ [(url, d)], emailsOutput := st.emailsOutput ++ emails }
      (W.rangeOrder (ExtractLinks W html url domainMode)) (d + 1) st' →
    Crawls W maxDepth domainMode st url d st'

/-- The loop of `crawl` over the links of a page: every link is crawled at the depth `d` with
`Args{URL: link}`, that is with `DomainMode` 0. -/
inductive CrawlsAll (W : World) (maxDepth : Int) :
    CrawlState → List Str → Int → CrawlState → Prop
  | done (st : CrawlState) (d : Int) : CrawlsAll W maxDepth st [] d st
  | step (st : CrawlState) (link : Str) (links : List Str) (d : Int) (st1 st2 : CrawlState) :
    Crawls W maxDepth 0 st link d st1 →
    CrawlsAll W maxDepth st1 links d st2 →
    CrawlsAll W maxDepth st (link :: links) d st2
end

/-- A place in a text as a regular expression sees it: the byte before and the text after. -/
abbrev Cur := Option Nat × Str

/-- The place of a position. -/
def Pos.cur (p : Pos) : Cur := (p.prev, p.rest)

/-- The matches of a regular expression, without the order of preference among them:
`Derives re c c'` says that `re` matches the text between the places `c` and `c'`. -/
inductive Derives : Re → Cur → Cur → Prop
  | empty (c : Cur) : Derives .empty c c
  | cls (neg : Bool) (ranges : List (Nat × Nat)) (pv : Option Nat) (b : Nat) (t : Str) :
    inClass neg ranges (decodeRune (b :: t)).1 = true →
    Derives (.cls neg ranges) (pv, b :: t)
      (((b :: t).take (decodeRune (b :: t)).2).getLast?, (b :: t).drop (decodeRune (b :: t)).2)
  | seq (a b : Re) (c1 c2 c3 : Cur) : Derives a c1 c2 → Derives b c2 c3 →
    Derives (.seq a b) c1 c3
  | altL (a b : Re) (c c' : Cur) : Derives a c c' → Derives (.alt a b) c c'
  | altR (a b : Re) (c c' : Cur) : Derives b c c' → Derives (.alt a b) c c'
  | starNil (greedy : Bool) (a : Re) (c : Cur) : Derives (.star greedy a) c c
  | starCons (greedy : Bool) (a : Re) (c1 c2 c3 : Cur) : Derives a c1 c2 →
    Derives (.star greedy a) c2 c3 → Derives (.star greedy a) c1 c3
  | group (i : Nat) (a : Re) (c c' : Cur) : Derives a c c' → Derives (.group i a) c c'
  | bot (s : Str) : Derives .bot (none, s) (none, s)
  | eot (pv : Option Nat) : Derives .eot (pv, []) (pv, [])
  | wordBoundary (pv : Option Nat) (s : Str) :
    (isWordByte pv != isWordByte s.head?) = true → Derives .wordBoundary (pv, s) (pv, s)

/-- Whatever a matcher hands to its continuation is a match of `re`. -/
def Sound (re : Re) (m : Pos → (Pos → Option Pos) → Option Pos) : Prop :=
  ∀ p k res, m p k = some res → ∃ q, k q = some res ∧ Derives re p.cur q.cur

/-- The suffixes `rotRegex` lists in full. -/
def tldWords : List Str :=
  [bytes "com", bytes "edu", bytes "net", bytes "ca", bytes "co", bytes "org", bytes "gov",
    bytes "info", bytes "de", bytes "au", bytes "nl", bytes "ru", bytes "fr", bytes "br",
    bytes "uk", bytes "io", bytes "me", bytes "dev"]

/-- The bytes of the class `[a-zA-Z0-9_.+-]`. -/
def isLocalByte (b : Nat) : Bool :=
  inRange 97 122 b || inRange 65 90 b || inRange 48 57 b || b == 95 || b == 46 || b == 43
    || b == 45

/-- The bytes of the class `[a-zA-Z0-9-]`. -/
def isLabelByte (b : Nat) : Bool :=
  inRange 97 122 b || inRange 65 90 b || inRange 48 57 b || b == 45

/-! ## The matches a replacement works through -/

/-- The matches `ReplaceAllStringFunc` works through from a position, each the leftmost one
after the end of the one before, all of them non-empty: a list of pairs (the text passed over
before the match, the matched text) and the text left after the last match, in which there is
no match. -/
inductive Segments (re : Re) : Pos → List (Str × Str) → Str → Prop
  | done (p : Pos) (h : re.search (p.rest.length + 1) [] p = none) : Segments re p [] p.rest
  | step (p : Pos) (m : Match) (segs : List (Str × Str)) (tail : Str)
      (h : re.search (p.rest.length + 1) [] p = some m) (hne : m.text ≠ [])
      (hs : Segments re m.stop segs tail) : Segments re p ((m.before, m.text) :: segs) tail

/-- The text put together again with `f` applied to every match. -/
def rebuild (f : Str → Str) (segs : List (Str × Str)) (tail : Str) : Str :=
  (segs.map (fun gm => gm.1 ++ f gm.2)).flatten ++ tail

/-- An ASCII letter or digit. -/
def isAlnumByte (b : Nat) : Bool := inRange 48 57 b || inRange 65 90 b || inRange 97 122 b

/-- A run of underscores and non-word characters: no byte of it is an ASCII letter or
digit. -/
def IsFiller (u : Str) : Prop := ∀ x ∈ u, isAlnumByte x = false

/-- A nospam-family token: `n`, `o` or `0`, `s` or `5`, `p`, `a`, `m` in that order, with
runs of underscores and non-word characters between them and around them. -/
def NospamToken (w : Str) : Prop :=
  ∃ u0 u1 u2 u3 u4 u5 u6 o s,
    w = u0 ++ 110 :: (u1 ++ o :: (u2 ++ s :: (u3 ++ 112 :: (u4 ++ 97 :: (u5 ++ 109 :: u6)))))
      ∧ (o = 111 ∨ o = 48) ∧ (s = 115 ∨ s = 53)
      ∧ IsFiller u0 ∧ IsFiller u1 ∧ IsFiller u2 ∧ IsFiller u3 ∧ IsFiller u4 ∧ IsFiller u5
      ∧ IsFiller u6

/-- A hexadecimal digit, as `fromHexChar` reads it. -/
def isHexDigit (c : Nat) : Bool := (fromHexChar c).isSome

/-- An escape `\uXXXX`: backslash, `u` and four hexadecimal digits. -/
def IsEscape (e : Str) : Prop :=
  ∃ a b c d, e = [92, 117, a, b, c, d] ∧ isHexDigit a = true ∧ isHexDigit b = true
    ∧ isHexDigit c = true ∧ isHexDigit d = true

/-- What `decodeUnicodeEscape` puts for a match. -/
def escapeBytes (m : Str) : Str := hexDecodeString (m.drop 2)

/-- No match of `re` is lost: when a matcher fails, its continuation refuses the end of every
match of `re`. -/
def Complete (re : Re) (m : Pos → (Pos → Option Pos) → Option Pos) : Prop :=
  ∀ p k, m p k = none → ∀ c', Derives re p.cur c' → ∃ q : Pos, q.cur = c' ∧ k q = none

/-- The places a search tries one after the other: `Visits c g c'` says that from the place
`c` the search, passing over the code points `g`, comes to the place `c'`. -/
inductive Visits : Cur → Str → Cur → Prop
  | here (c : Cur) : Visits c [] c
  | next (pv : Option Nat) (b : Nat) (t g : Str) (c' : Cur) :
    Visits (((b :: t).take (decodeRune (b :: t)).2).getLast?,
      (b :: t).drop (decodeRune (b :: t)).2) g c' →
    Visits (pv, b :: t) ((b :: t).take (decodeRune (b :: t)).2 ++ g) c'

/-- One character other than the newline, as the `.` of a regular expression takes it: the
bytes of one code point, or one byte that is not UTF-8. -/
def IsAnyChar (x : Str) : Prop :=
  x ≠ [] ∧ (decodeRune x).2 = x.length ∧ (decodeRune x).1 ≠ 10

/-- An entry of the suffix list as `rotRegex` reads it: one of `tldWords`, or `co`, one
character, `uk`. -/
def IsTldEntry (w : Str) : Prop :=
  w ∈ tldWords ∨ ∃ x, w = bytes "co" ++ x ++ bytes "uk" ∧ IsAnyChar x

/-- The suffix list as it is written: `co.uk` and the words of `tldWords`. -/
def listedSuffixes : List Str := bytes "co.uk" :: tldWords

/-- A local part over `[a-zA-Z0-9_.+-]`, `@`, a label over `[a-zA-Z0-9-]` (so without dot), a
dot, and one or more entries, each with the property `E`, written one after the other. -/
def RotShapeOf (E : Str → Prop) (t : Str) : Prop :=
  ∃ (loc dom : Str) (sufs : List Str),
    t = loc ++ [64] ++ dom ++ [46] ++ sufs.flatten
      ∧ loc ≠ [] ∧ (∀ b ∈ loc, isLocalByte b = true)
      ∧ dom ≠ [] ∧ (∀ b ∈ dom, isLabelByte b = true) ∧ 46 ∉ dom
      ∧ sufs ≠ [] ∧ ∀ w ∈ sufs, E w

/-- The byte before a place that lies the text `w` after a place with `pv` before it. -/
def prevAfter (pv : Option Nat) (w : Str) : Option Nat :=
  match w.getLast? with
  | some x => some x
  | none => pv

/-- The expression matches the text `w` wherever it stands. -/
def Spans (re : Re) (w : Str) : Prop :=
  ∀ (pv : Option Nat) (s : Str), Derives re (pv, w ++ s) (prevAfter pv w, s)

/-- What the nospam rule makes of a text, said without the matcher: where the text holds no
nospam-family token it stays as it is; otherwise the token that starts first, taken as far as
underscores and non-word characters go on after its `m`, is replaced by `nospamReplacement`
of it, the text before it stays, and the text after it is treated in the same way. -/
inductive NospamRewrite : Str → Str → Prop
  | rest (t : Str) : (∀ a w b, t = a ++ w ++ b → ¬ NospamToken w) → NospamRewrite t t
  | token (g m r out : Str) :
    NospamToken m →
    (∀ a w b, g ++ m ++ r = a ++ w ++ b → NospamToken w → g.length ≤ a.length) →
    (∀ x, r.head? = some x → isAlnumByte x = true) →
    NospamRewrite r out →
    NospamRewrite (g ++ m ++ r) (g ++ nospamReplacement m ++ out)

/-! ## Plain addresses and their reversal -/

/-- The address with the local part `l`, the domain `d` and the top-level domain `t`. -/
def address (l d t : Str) : Str := l ++ 64 :: (d ++ 46 :: t)

/-! # Theorems -/

/-! ## Texts on which the tables of the standard library are not consulted -/

theorem rotateChar_latin1 (L M : Stdlib) (r x : Nat) (h : r ≤ 0xFF) :
    rotateChar L r x = rotateChar M r x := by
  simp [rotateChar, unicodeIsLower, unicodeIsUpper, h]

theorem stringsMap_congr (f g : Nat → Nat) (s : Str) (h : ∀ r ∈ runes s, f r = g r) :
    stringsMap f s = stringsMap g s := by
  unfold stringsMap
  rw [List.map_congr_left h]

theorem tryRotLoop_latin1 (L M : Stdlib) (s : Str) (h : ∀ r ∈ runes s, r ≤ 0xFF) :
    ∀ (n x : Nat) (acc : List Str), tryRotLoop L s n x acc = tryRotLoop M s n x acc := by
  intro n
  induction n with
  | zero => intro x acc; rfl
  | succ n ih =>
    intro x acc
    have e : stringsMap (fun r => rotateChar L r x) s = stringsMap (fun r => rotateChar M r x) s :=
      stringsMap_congr _ _ s (fun r hr => rotateChar_latin1 L M r x (h r hr))
    simp only [tryRotLoop, e, ih]

theorem normalizeHTML_plain (L : Stdlib) (s : Str)
    (h : containsByte ((queryUnescape s).getD s) 38 = false) :
    normalizeHTML L s = normalizeHTML plainLib s := by
  unfold normalizeHTML htmlUnescapeString
  cases hq : queryUnescape s with
  | none => simp [hq] at h; simp [h]
  | some d => simp [hq] at h; simp [h]

theorem processHTML_plain (L : Stdlib) (s : Str) (h : tablesUnused s = true) :
    processHTML L s = processHTML plainLib s := by
  unfold tablesUnused at h
  simp only [Bool.and_eq_true, Bool.not_eq_true', List.all_eq_true, decide_eq_true_eq] at h
  have e := normalizeHTML_plain L s h.1
  unfold processHTML tryRotDecryption
  simp only [e]
  rw [tryRotLoop_latin1 L plainLib _ h.2]

theorem preProcessEmail_plain (L : Stdlib) (s : Str) (h : tablesUnused s = true) :
    preProcessEmail L s = preProcessEmail plainLib s := by
  unfold preProcessEmail
  rw [processHTML_plain L s h]

theorem extractEmails_plain (L : Stdlib) (s : Str) (h : tablesUnused s = true) :
    extractEmails L s = extractEmails plainLib s := by
  unfold extractEmails
  rw [preProcessEmail_plain L s h]

/-! ## The end-to-end examples -/

/-- C1 (as amended): on the body text `Contact us at john DOT doe AT example DOT com` the
addresses extracted, inserted into a set as `GetEmails` does, are exactly `us@john.doe`: rule 4
turns the blank-delimited word `at` of `us at john` into `@` as well. On the obfuscated
address alone, `john DOT doe AT example DOT com`, the set is exactly `john.doe@example.com`. -/
theorem extractEmails_contact_us (L : Stdlib) :
    mapInsertAll [] (extractEmails L (bytes "Contact us at john DOT doe AT example DOT com"))
        = [bytes "us@john.doe"]
      ∧ mapInsertAll [] (extractEmails L (bytes "john DOT doe AT example DOT com"))
        = [bytes "john.doe@example.com"] := by
  rw [extractEmails_plain L _ (by decide!), extractEmails_plain L _ (by decide!)]
  decide!

/-- C1 (counterexample): whatever the tables of the standard library hold, the set extracted
from `Contact us at john DOT doe AT example DOT com` is not `{john.doe@example.com}`. -/
theorem extractEmails_contact_us_not_john :
    ¬ ∃ L : Stdlib,
      mapInsertAll [] (extractEmails L (bytes "Contact us at john DOT doe AT example DOT com"))
        = [bytes "john.doe@example.com"] := by
  rintro ⟨L, h⟩
  rw [extractEmails_plain L _ (by decide!)] at h
  revert h
  decide!

/-! ## The cipher solver -/

theorem tryRotLoop_eq (L : Stdlib) (s : Str) :
    ∀ (n x : Nat) (acc : List Str), x + n ≤ 26 →
      tryRotLoop L s n x acc
        = acc ++ ((List.range' x n).map (fun k => rotate L k s)).filter rotIsValid := by
  intro n
  induction n with
  | zero => intro x acc _; simp [tryRotLoop]
  | succ n ih =>
    intro x acc hx
    have hlt : x < 26 := by omega
    simp only [tryRotLoop, hlt, if_true]
    rw [ih (x + 1) _ (by omega)]
    simp only [List.range'_succ, List.map_cons, List.filter_cons, rotate]
    split <;> simp

theorem tryRotDecryption_eq (L : Stdlib) (s : Str) :
    tryRotDecryption L s
      = ((List.range' 1 25).map (fun k => rotate L k s)).filter rotIsValid := by
  unfold tryRotDecryption
  rw [tryRotLoop_eq L s 25 1 [] (by omega)]
  simp

theorem mem_tryRotDecryption (L : Stdlib) (s t : Str) :
    t ∈ tryRotDecryption L s ↔ ∃ k, 1 ≤ k ∧ k ≤ 25 ∧ t = rotate L k s ∧ rotIsValid t = true := by
  rw [tryRotDecryption_eq]
  simp only [List.mem_filter, List.mem_map, List.mem_range']
  constructor
  · rintro ⟨⟨k, ⟨i, hi, rfl⟩, rfl⟩, hv⟩
    exact ⟨1 + 1 * i, by omega, by omega, rfl, hv⟩
  · rintro ⟨k, h1, h2, rfl, hv⟩
    exact ⟨⟨k, ⟨k - 1, by omega, by omega⟩, rfl⟩, hv⟩

/-! ## `deCFEmail` -/

theorem fromHexChar_hexDigit : ∀ (upper : Bool) (d : Nat), d < 16 →
    fromHexChar (hexDigit upper d) = some d := by
  decide

theorem hexDecodeString_hexByte (upper : Bool) (b : Nat) (h : b < 256) :
    hexDecodeString (hexByte upper b) = [b] := by
  have h1 := fromHexChar_hexDigit upper (b / 16) (by omega)
  have h2 := fromHexChar_hexDigit upper (b % 16) (by omega)
  simp only [hexByte, hexDecodeString, h1, h2]
  congr 1
  omega

theorem cfBody_length (upper : Bool) (k : Nat) (m : Str) :
    (cfBody upper k m).length = 2 * m.length := by
  induction m with
  | nil => rfl
  | cons b m ih => simp only [cfBody, hexByte, List.length_append, List.length_cons, ih,
      List.length_nil]; omega

theorem xor_xor_cancel (b k : Nat) : (b ^^^ k) ^^^ k = b := by
  rw [Nat.xor_assoc, Nat.xor_self, Nat.xor_zero]

theorem deCFLoop_cfBody (upper : Bool) (k : Nat) (hk : k < 256) :
    ∀ (m : Str), (∀ b ∈ m, b < 256) → ∀ (done : Str) (i : Nat), i = 2 + 2 * done.length →
      deCFLoop [k] (cfBody upper k m) i (done ++ List.replicate m.length 0)
        = some (done ++ m) := by
  intro m
  induction m with
  | nil => intro _ done i _; simp [cfBody, deCFLoop]
  | cons b m ih =>
    intro hm done i hi
    have hb : b < 256 := hm b (List.mem_cons_self _ _)
    have hx : b ^^^ k < 256 := Nat.xor_lt_two_pow (n := 8) hb hk
    have hd := hexDecodeString_hexByte upper (b ^^^ k) hx
    simp only [hexByte] at hd
    have hidx : i / 2 - 1 = done.length := by omega
    simp only [cfBody, hexByte, List.cons_append, List.nil_append, deCFLoop, hd, List.head?_cons,
      hidx, List.length_append, List.length_replicate, List.length_cons]
    rw [if_pos (by omega)]
    have hset : (done ++ List.replicate (m.length + 1) 0).set done.length ((b ^^^ k) ^^^ k)
        = (done ++ [b]) ++ List.replicate m.length 0 := by
      rw [xor_xor_cancel, List.replicate_succ, List.set_append_right _ _ (le_refl _)]
      simp
    rw [hset]
    have := ih (fun c hc => hm c (List.mem_cons_of_mem _ hc)) (done ++ [b]) (i + 2)
      (by simp; omega)
    simpa using this

/-- C4: for every key byte `k` and every byte string `m`, `deCFEmail` applied to the key in
hexadecimal followed by the hexadecimal of every byte of `m` XOR `k`, in lower or in upper
case, returns exactly `m`. -/
theorem deCFEmail_cfEncode (upper : Bool) (k : Nat) (m : Str) (hk : k < 256)
    (hm : ∀ b ∈ m, b < 256) : deCFEmail (cfEncode upper k m) = some m := by
  have hlen : (cfEncode upper k m).length = 2 + 2 * m.length := by
    simp [cfEncode, hexByte, cfBody_length]; omega
  have htake : (cfEncode upper k m).take 2 = hexByte upper k := by simp [cfEncode, hexByte]
  have hdrop : (cfEncode upper k m).drop 2 = cfBody upper k m := by simp [cfEncode, hexByte]
  unfold deCFEmail
  rw [if_neg (by omega), htake, hdrop, hexDecodeString_hexByte upper k hk, hlen]
  have hsz : (2 + 2 * m.length) / 2 - 1 = m.length := by omega
  rw [hsz]
  simpa using deCFLoop_cfBody upper k hk m hm [] 2 (by simp)

/-- C4 (witness): the mailbox `a@b.co` under the keys 0x42 (lower case) and 0xFF (upper
case). -/
theorem deCFEmail_cfEncode_example :
    deCFEmail (cfEncode false 0x42 (bytes "a@b.co")) = some (bytes "a@b.co")
      ∧ deCFEmail (cfEncode true 0xFF (bytes "a@b.co")) = some (bytes "a@b.co") :=
  ⟨deCFEmail_cfEncode false 0x42 (bytes "a@b.co") (by decide) (by decide),
   deCFEmail_cfEncode true 0xFF (bytes "a@b.co") (by decide) (by decide)⟩

/-- C5 (the code at the failing inputs): `deCFEmail` panics on the empty attribute value, on
a value of odd length and on a value with a pair that is not hexadecimal, and the panic ends
`GetEmails` and the crawl; on `zz` it returns the empty string, which `GetEmails` inserts into
the result set. -/
theorem deCFEmail_malformed :
    deCFEmail [] = none ∧ deCFEmail (bytes "4") = none ∧ deCFEmail (bytes "422") = none
      ∧ deCFEmail (bytes "zz23") = none ∧ deCFEmail (bytes "42zz") = none
      ∧ GetEmails (staticWorld emptyCfHtml emptyCfDom) emptyCfHtml (bytes "http://a.com/") = none
      ∧ (crawl (staticWorld emptyCfHtml emptyCfDom) 1 3 CrawlState.init (bytes "http://a.com/")
          1).panicked = true
      ∧ deCFEmail (bytes "zz") = some [] ∧ cfemailLoop [bytes "zz"] [] = some [[]] := by
  decide

/-! ## The scope filter -/

theorem bytes_sep : bytes "://" = [58, 47, 47] := by decide

theorem mem_mapInsert (m : List Str) (k x : Str) : x ∈ mapInsert m k ↔ x ∈ m ∨ x = k := by
  unfold mapInsert
  split
  · constructor
    · intro h; exact Or.inl h
    · rintro (h | h)
      · exact h
      · subst h; assumption
  · simp

theorem mem_foldl_addLink (base : URL) (mode : Int) (l : Str) :
    ∀ (links acc : List Str),
      l ∈ links.foldl (addLink base mode) acc
        ↔ l ∈ acc ∨ (l ∈ links ∧ l ≠ [] ∧ scopeAdmits base mode l = true) := by
  intro links
  induction links with
  | nil => intro acc; simp
  | cons a links ih =>
    intro acc
    rw [List.foldl_cons, ih]
    unfold addLink
    by_cases ha : a = []
    · simp only [ha, if_true, List.mem_cons]
      constructor
      · rintro (h | ⟨h1, h2, h3⟩)
        · exact Or.inl h
        · exact Or.inr ⟨Or.inr h1, h2, h3⟩
      · rintro (h | ⟨h1 | h1, h2, h3⟩)
        · exact Or.inl h
        · exact absurd h1 h2
        · exact Or.inr ⟨h1, h2, h3⟩
    · simp only [ha, if_false]
      by_cases hs : scopeAdmits base mode a = true
      · simp only [hs, if_true, mem_mapInsert, List.mem_cons]
        constructor
        · rintro ((h | h) | ⟨h1, h2, h3⟩)
          · exact Or.inl h
          · subst h; exact Or.inr ⟨Or.inl rfl, ha, hs⟩
          · exact Or.inr ⟨Or.inr h1, h2, h3⟩
        · rintro (h | ⟨h1 | h1, h2, h3⟩)
          · exact Or.inl (Or.inl h)
          · exact Or.inl (Or.inr h1)
          · exact Or.inr ⟨h1, h2, h3⟩
      · simp only [hs, List.mem_cons]
        constructor
        · rintro (h | ⟨h1, h2, h3⟩)
          · exact Or.inl h
          · exact Or.inr ⟨Or.inr h1, h2, h3⟩
        · rintro (h | ⟨h1 | h1, h2, h3⟩)
          · exact Or.inl h
          · subst h1; exact absurd h3 hs
          · exact Or.inr ⟨h1, h2, h3⟩

theorem mem_ExtractLinks (W : World) (html baseURL : Str) (mode : Int) (dom : PageDom)
    (base : URL) (hpage : W.page html baseURL = some dom) (hbase : dom.base = some base)
    (l : Str) :
    l ∈ ExtractLinks W html baseURL mode
      ↔ l ∈ dom.links ∧ l ≠ [] ∧ scopeAdmits base mode l = true := by
  unfold ExtractLinks
  simp only [hpage, hbase]
  rw [mem_foldl_addLink]
  simp

/-- C6 (the code at the failing input): in mode 2 `ExtractLinks` keeps a resolved link
exactly when the text `scheme://host` followed by the path of the base URL is a prefix of it.
With base `http://a.com/blog/` that keeps `http://a.com/blog/post1` and drops
`http://a.com/other` and `http://b.com/blog/`; with base `http://a.com`, whose path is empty,
it keeps `http://a.com.evil.org/`, a link on another host. -/
theorem ExtractLinks_two_prefix :
    (∀ (W : World) (html baseURL : Str) (dom : PageDom) (base : URL) (l : Str),
        W.page html baseURL = some dom → dom.base = some base →
        (l ∈ ExtractLinks W html baseURL 2 ↔
          l ∈ dom.links ∧ l ≠ []
            ∧ (base.Scheme ++ bytes "://" ++ base.Host ++ base.Path) <+: l))
      ∧ ExtractLinks (staticWorld [] blogDom) [] (bytes "http://a.com/blog/") 2
        = [bytes "http://a.com/blog/post1"]
      ∧ ExtractLinks (staticWorld [] evilDom) [] (bytes "http://a.com") 2
        = [bytes "http://a.com.evil.org/"]
      ∧ bytes "http" ++ bytes "://" ++ bytes "a.com.evil.org" ++ bytes "/"
        = bytes "http://a.com.evil.org/"
      ∧ bytes "a.com.evil.org" ≠ bytes "a.com" := by
  refine ⟨?_, by decide, by decide, by decide, by decide⟩
  intro W html baseURL dom base l hpage hbase
  rw [mem_ExtractLinks W html baseURL 2 dom base hpage hbase]
  simp only [scopeAdmits, hasPrefix, show ¬ ((2 : Int) = 1) by decide, if_false, if_true,
    List.isPrefixOf_iff_prefix]

/-- C7 (the code at the failing input): with base `http://a.com`, mode 1 admits the link
`http://a.com.evil.org/`, whose host is not `a.com`. -/
theorem ExtractLinks_one_other_host :
    ExtractLinks (staticWorld [] evilDom) [] (bytes "http://a.com") 1
        = [bytes "http://a.com.evil.org/"]
      ∧ bytes "http" ++ bytes "://" ++ bytes "a.com.evil.org" ++ bytes "/"
        = bytes "http://a.com.evil.org/"
      ∧ bytes "a.com.evil.org" ≠ bytes "a.com" := by
  decide

/-! ## The traversal -/

theorem foldl_crawlAux_zero (W : World) (mode maxDepth d : Int) :
    ∀ (links : List Str) (st : CrawlState),
      links.foldl (fun st link => crawlAux W mode maxDepth 0 st link d) st = st := by
  intro links
  induction links with
  | nil => intro st; rfl
  | cons l links ih =>
    intro st
    rw [List.foldl_cons]
    exact ih _

theorem crawlAux_tooDeep (W : World) (mode maxDepth : Int) (fuel : Nat) (st : CrawlState)
    (url : Str) (d : Int) (h : d > maxDepth) : crawlAux W mode maxDepth fuel st url d = st := by
  cases fuel with
  | zero => rfl
  | succ fuel =>
    unfold crawlAux
    split
    · rfl
    · rfl

theorem foldl_crawlAux_tooDeep (W : World) (mode maxDepth d : Int) (fuel : Nat)
    (h : d > maxDepth) : ∀ (links : List Str) (st : CrawlState),
      links.foldl (fun st link => crawlAux W mode maxDepth fuel st link d) st = st := by
  intro links
  induction links with
  | nil => intro st; rfl
  | cons l links ih =>
    intro st
    rw [List.foldl_cons, crawlAux_tooDeep W mode maxDepth fuel st l d h]
    exact ih _

theorem crawlAux_depthsWithin (W : World) (maxDepth : Int) :
    ∀ (fuel : Nat) (mode : Int) (st : CrawlState) (url : Str) (d : Int), 1 ≤ d →
      DepthsWithin maxDepth st → DepthsWithin maxDepth (crawlAux W mode maxDepth fuel st url d) := by
  intro fuel
  induction fuel with
  | zero => intro mode st url d _ h; exact h
  | succ fuel ih =>
    intro mode st url d hd h
    unfold crawlAux
    split
    · exact h
    split
    · exact h
    rename_i hp hgt
    have h' : DepthsWithin maxDepth
        { st with opened := st.opened ++ [(url, d)] } := by
      intro e he
      simp only [List.mem_append, List.mem_singleton] at he
      rcases he with he | he
      · exact h e he
      · subst he; exact ⟨hd, by omega⟩
    dsimp only
    split
    · exact h'
    · split
      · exact h'
      · split
        · exact h'
        · rename_i emails _
          have key : ∀ (links : List Str) (s : CrawlState), DepthsWithin maxDepth s →
              DepthsWithin maxDepth
                (links.foldl (fun st link => crawlAux W 0 maxDepth fuel st link (d + 1)) s) := by
            intro links
            induction links with
            | nil => intro s hs; exact hs
            | cons l links ihl =>
              intro s hs
              rw [List.foldl_cons]
              exact ihl _ (ih 0 s l (d + 1) (by omega) hs)
          exact key _ _ h'

theorem crawlAux_one (W : World) (mode : Int) (fuel : Nat) (url : Str) :
    (crawlAux W mode 1 (fuel + 1) CrawlState.init url 1).opened = [(url, 1)] := by
  unfold crawlAux
  simp only [CrawlState.init, Bool.false_eq_true, if_false, gt_iff_lt, lt_self_iff_false,
    List.nil_append, foldl_crawlAux_tooDeep W 0 1 (1 + 1) fuel (by decide)]
  split
  · rfl
  · split
    · rfl
    · split <;> rfl

/-- The recursion of the source: `crawl` returns at once above `maxDepth` and calls itself at
`currentDepth + 1`, with `DomainMode` 0, for every link otherwise. -/
theorem crawl_eq (W : World) (mode maxDepth : Int) (st : CrawlState) (url : Str) (d : Int) :
    crawl W mode maxDepth st url d =
      if st.panicked then st
      else if d > maxDepth then st
      else
        match W.render (st.opened ++ [(url, d)]) url with
        | none => { st with opened := st.opened ++ [(url, d)] }
        | some html =>
          if isBlank html then { st with opened := st.opened ++ [(url, d)] }
          else
            match GetEmails W html url with
            | none => { st with opened := st.opened ++ [(url, d)], panicked := true }
            | some emails =>
              (W.rangeOrder (ExtractLinks W html url mode)).foldl
                (fun st link => crawl W 0 maxDepth st link (d + 1))
                { st with opened := st.opened ++ [(url, d)],
                          emailsOutput := st.emailsOutput ++ emails } := by
  unfold crawl
  by_cases hgt : d > maxDepth
  · have h0 : (maxDepth + 1 - d).toNat = 0 := by omega
    rw [h0]
    simp [crawlAux, hgt]
  · have h1 : (maxDepth + 1 - d).toNat = (maxDepth + 1 - (d + 1)).toNat + 1 := by omega
    rw [h1]
    simp only [crawlAux, hgt, if_false]

theorem nodup_mapInsert (m : List Str) (k : Str) (h : m.Nodup) : (mapInsert m k).Nodup := by
  unfold mapInsert
  split
  · exact h
  · rename_i hk
    rw [List.nodup_append]
    refine ⟨h, List.nodup_singleton k, ?_⟩
    intro a ha hb
    rw [List.mem_singleton] at hb
    exact hk (hb ▸ ha)

theorem nodup_mapInsertAll : ∀ (keys m : List Str), m.Nodup → (mapInsertAll m keys).Nodup := by
  intro keys
  induction keys with
  | nil => intro m h; exact h
  | cons k keys ih =>
    intro m h
    exact ih _ (nodup_mapInsert m k h)

theorem nodup_cfemailLoop : ∀ (cf m r : List Str), m.Nodup → cfemailLoop cf m = some r →
    r.Nodup := by
  intro cf
  induction cf with
  | nil => intro m r h e; simp only [cfemailLoop, Option.some.injEq] at e; exact e ▸ h
  | cons c cf ih =>
    intro m r h e
    unfold cfemailLoop at e
    split at e
    · cases e
    · exact ih _ r (nodup_mapInsert m _ h) e

theorem nodup_svgLoop (W : World) : ∀ (svg : List (Option Str)) (m : List Str), m.Nodup →
    (svgLoop W svg m).Nodup := by
  intro svg
  induction svg with
  | nil => intro m h; exact h
  | cons s svg ih =>
    intro m h
    cases s with
    | none => exact ih m h
    | some c => exact ih _ (nodup_mapInsertAll _ m h)

theorem nodup_hrefs (W : World) : ∀ (hrefs : List Str) (m : List Str), m.Nodup →
    (hrefs.foldl (fun emails href => mapInsertAll emails (extractEmailsFromHref W href)) m).Nodup := by
  intro hrefs
  induction hrefs with
  | nil => intro m h; exact h
  | cons s hrefs ih =>
    intro m h
    exact ih _ (nodup_mapInsertAll _ m h)

theorem nodup_GetEmails (W : World) (hperm : ∀ m, (W.rangeOrder m).Perm m)
    (html url : Str) (emails : List Str) (h : GetEmails W html url = some emails) :
    emails.Nodup := by
  unfold GetEmails at h
  split at h
  · simp only [Option.some.injEq] at h; subst h; exact List.nodup_nil
  · unfold getEmailsOf at h
    split at h
    · cases h
    · rename_i dom _ m hm
      simp only [Option.some.injEq] at h
      subst h
      rw [(hperm _).nodup_iff]
      exact nodup_hrefs W _ _ (nodup_mapInsertAll _ _
        (nodup_svgLoop W _ _ (nodup_cfemailLoop _ [] m List.nodup_nil hm)))

/-- C9 (as amended): when `range` yields every key of a map once, the result of `GetEmails`
for a page holds every address at most once, and so does the accumulator of a crawl that opens
one page only (`maxDepth = 1`). Across pages `crawl` appends the results of the pages to
`emailsOutput` as they are. -/
theorem crawl_single_page_nodup (W : World) (hperm : ∀ m, (W.rangeOrder m).Perm m)
    (mode : Int) (url : Str) :
    (∀ html u emails, GetEmails W html u = some emails → emails.Nodup)
      ∧ (crawl W mode 1 CrawlState.init url 1).emailsOutput.Nodup := by
  refine ⟨fun html u emails h => nodup_GetEmails W hperm html u emails h, ?_⟩
  unfold crawl
  rw [show ((1 : Int) + 1 - 1).toNat = 1 from rfl]
  unfold crawlAux
  simp only [CrawlState.init, Bool.false_eq_true, if_false, gt_iff_lt, lt_self_iff_false,
    List.nil_append, foldl_crawlAux_zero]
  split
  · exact List.nodup_nil
  · split
    · exact List.nodup_nil
    · split
      · exact List.nodup_nil
      · rename_i html _ _ emails he
        exact nodup_GetEmails W hperm _ _ emails he

/-- C9 (witness): the page that links to itself, crawled with `maxDepth = 1`. -/
theorem crawl_single_page_nodup_example :
    (crawl (staticWorld selfLinkHtml selfLinkDom) 1 1 CrawlState.init (bytes "http://a.com/")
      1).emailsOutput.Nodup :=
  (crawl_single_page_nodup (staticWorld selfLinkHtml selfLinkDom) (fun _ => List.Perm.refl _) 1
    (bytes "http://a.com/")).2

/-- C9 (counterexample): the page at `http://a.com/` shows the address `x@y.com` and links to
itself; crawled with `maxDepth = 2` it is opened twice and `emailsOutput` holds the address
twice. -/
theorem crawl_self_link_twice :
    (crawl (staticWorld selfLinkHtml selfLinkDom) 1 2 CrawlState.init (bytes "http://a.com/")
      1).emailsOutput = [bytes "x@y.com", bytes "x@y.com"] := by
  decide!

/-! ## Texts an expression cannot match -/

theorem decodeRune_width_pos (b : Nat) (t : Str) : 1 ≤ (decodeRune (b :: t)).2 := by
  simp only [decodeRune]
  repeat' split
  all_goals simp

theorem runesSkip_eq_drop : ∀ (t : Str) (k : Nat), runesSkip k t = runes (t.drop k) := by
  intro t
  induction t with
  | nil => intro k; cases k <;> simp [runesSkip, runes]
  | cons b t ih =>
    intro k
    cases k with
    | zero => rfl
    | succ k => simp only [runesSkip, List.drop_succ_cons, ih]

theorem runes_cons (b : Nat) (t : Str) :
    runes (b :: t)
      = (decodeRune (b :: t)).1 :: runes ((b :: t).drop (decodeRune (b :: t)).2) := by
  have hw := decodeRune_width_pos b t
  obtain ⟨w, hw'⟩ : ∃ w, (decodeRune (b :: t)).2 = w + 1 := ⟨_, (Nat.sub_add_cancel hw).symm⟩
  rw [hw', List.drop_succ_cons, ← runesSkip_eq_drop]
  show runesSkip 0 (b :: t) = _
  rw [runesSkip, hw']
  rfl

theorem runes_advance_suffix (p : Pos) (b : Nat) (t : Str) (h : p.rest = b :: t) :
    runes (p.advance (decodeRune (b :: t)).2).rest <:+ runes p.rest := by
  rw [h, runes_cons b t]
  simp only [Pos.advance, h]
  exact List.suffix_cons _ _

theorem starLoop_callsOn (m : Pos → (Pos → Option Pos) → Option Pos) (hm : CallsOn m)
    (greedy : Bool) : ∀ n, CallsOn (starLoop m greedy n) := by
  intro n
  induction n with
  | zero => intro p k res h; exact ⟨p, h, List.suffix_refl _⟩
  | succ n ih =>
    intro p k res h
    have step : ∀ r, m p (fun q => if q.rest.length < p.rest.length then
        starLoop m greedy n q k else none) = some r →
        ∃ q, k q = some r ∧ runes q.rest <:+ runes p.rest := by
      intro r hr
      obtain ⟨q1, hq1, hs1⟩ := hm _ _ _ hr
      split at hq1
      · obtain ⟨q2, hq2, hs2⟩ := ih _ _ _ hq1
        exact ⟨q2, hq2, hs2.trans hs1⟩
      · cases hq1
    unfold starLoop at h
    split at h
    · split at h
      · rename_i r hr
        cases h
        exact step _ hr
      · exact ⟨p, h, List.suffix_refl _⟩
    · split at h
      · rename_i r hr
        cases h
        exact ⟨p, hr, List.suffix_refl _⟩
      · exact step _ h

theorem run_callsOn : ∀ re : Re, CallsOn re.run := by
  intro re
  induction re with
  | empty => intro p k res h; exact ⟨p, h, List.suffix_refl _⟩
  | cls neg ranges =>
    intro p k res h
    unfold Re.run at h
    split at h
    · cases h
    · rename_i b t hp
      simp only at h
      split at h
      · exact ⟨_, h, runes_advance_suffix p b t hp⟩
      · cases h
  | seq a b iha ihb =>
    intro p k res h
    unfold Re.run at h
    obtain ⟨q1, hq1, hs1⟩ := iha _ _ _ h
    obtain ⟨q2, hq2, hs2⟩ := ihb _ _ _ hq1
    exact ⟨q2, hq2, hs2.trans hs1⟩
  | alt a b iha ihb =>
    intro p k res h
    unfold Re.run at h
    split at h
    · rename_i r hr
      cases h
      exact iha _ _ _ hr
    · exact ihb _ _ _ h
  | star greedy a iha =>
    intro p k res h
    unfold Re.run at h
    exact starLoop_callsOn a.run iha greedy _ _ _ _ h
  | group i a iha =>
    intro p k res h
    unfold Re.run at h
    obtain ⟨q, hq, hs⟩ := iha _ _ _ h
    exact ⟨_, hq, hs⟩
  | bot =>
    intro p k res h
    unfold Re.run at h
    split at h
    · exact ⟨p, h, List.suffix_refl _⟩
    · cases h
  | eot =>
    intro p k res h
    unfold Re.run at h
    split at h
    · exact ⟨p, h, List.suffix_refl _⟩
    · cases h
  | wordBoundary =>
    intro p k res h
    unfold Re.run at h
    split at h
    · exact ⟨p, h, List.suffix_refl _⟩
    · cases h

theorem rangeAll_apply (P : Nat → Bool) (lh : Nat × Nat) (r : Nat) (h : rangeAll P lh = true)
    (h1 : lh.1 ≤ r) (h2 : r ≤ lh.2) : P r = true := by
  unfold rangeAll at h
  rw [List.all_eq_true] at h
  apply h
  rw [List.mem_range'_1]
  omega

theorem run_needs (P : Nat → Bool) : ∀ re : Re, re.needs P = true →
    ∀ p k res, re.run p k = some res → ∃ r ∈ runes p.rest, P r = true := by
  intro re
  induction re with
  | empty => intro h; simp [Re.needs] at h
  | cls neg ranges =>
    intro hn p k res h
    simp only [Re.needs, Bool.and_eq_true, Bool.not_eq_true', List.all_eq_true] at hn
    unfold Re.run at h
    split at h
    · cases h
    · rename_i b t hp
      simp only at h
      split at h
      · rename_i hc
        rw [hn.1] at hc
        simp only [inClass, Bool.false_bne, List.any_eq_true, Bool.and_eq_true,
          decide_eq_true_eq] at hc
        obtain ⟨lh, hmem, h1, h2⟩ := hc
        refine ⟨(decodeRune (b :: t)).1, ?_, rangeAll_apply P lh _ (hn.2 lh hmem) h1 h2⟩
        rw [hp, runes_cons]
        exact List.mem_cons_self _ _
      · cases h
  | seq a b iha ihb =>
    intro hn p k res h
    simp only [Re.needs, Bool.or_eq_true] at hn
    unfold Re.run at h
    rcases hn with hn | hn
    · exact iha hn _ _ _ h
    · obtain ⟨q, hq, hs⟩ := run_callsOn a _ _ _ h
      obtain ⟨r, hr, hP⟩ := ihb hn _ _ _ hq
      exact ⟨r, hs.subset hr, hP⟩
  | alt a b iha ihb =>
    intro hn p k res h
    simp only [Re.needs, Bool.and_eq_true] at hn
    unfold Re.run at h
    split at h
    · rename_i r hr
      exact iha hn.1 _ _ _ hr
    · exact ihb hn.2 _ _ _ h
  | star greedy a _ => intro h; simp [Re.needs] at h
  | group i a iha =>
    intro hn p k res h
    simp only [Re.needs] at hn
    unfold Re.run at h
    exact iha hn _ _ _ h
  | bot => intro h; simp [Re.needs] at h
  | eot => intro h; simp [Re.needs] at h
  | wordBoundary => intro h; simp [Re.needs] at h

theorem search_none (P : Nat → Bool) (re : Re) (hn : re.needs P = true) :
    ∀ (n : Nat) (skipped : Str) (p : Pos), (∀ r ∈ runes p.rest, P r = false) →
      re.search n skipped p = none := by
  intro n
  induction n with
  | zero => intro _ _ _; rfl
  | succ n ih =>
    intro skipped p hp
    unfold Re.search
    split
    · rename_i q hq
      obtain ⟨r, hr, hP⟩ := run_needs P re hn _ _ _ hq
      rw [hp r hr] at hP
      cases hP
    · split
      · rfl
      · rename_i b t hbt
        apply ih
        intro r hr
        exact hp r ((runes_advance_suffix p b t hbt).subset hr)

theorem replaceAllLoop_of_search_none (re : Re) (repl : Match → Str) (n : Nat) (first : Bool)
    (pending : Str) (p : Pos) (h : re.search (p.rest.length + 1) [] p = none) :
    re.replaceAllLoop repl n first pending p = pending ++ p.rest := by
  cases n with
  | zero => rfl
  | succ n => simp only [Re.replaceAllLoop, h]

theorem replaceAllString_quiet (P : Nat → Bool) (re : Re) (hn : re.needs P = true) (s : Str)
    (tpl : List Piece) (hs : ∀ r ∈ runes s, P r = false) : re.replaceAllString s tpl = s := by
  unfold Re.replaceAllString
  rw [replaceAllLoop_of_search_none re _ _ _ _ _ (search_none P re hn _ _ _ hs)]
  rfl

theorem replaceAllStringFunc_quiet (P : Nat → Bool) (re : Re) (hn : re.needs P = true)
    (s : Str) (f : Str → Str) (hs : ∀ r ∈ runes s, P r = false) :
    re.replaceAllStringFunc s f = s := by
  unfold Re.replaceAllStringFunc
  rw [replaceAllLoop_of_search_none re _ _ _ _ _ (search_none P re hn _ _ _ hs)]
  rfl

theorem matchString_quiet (P : Nat → Bool) (re : Re) (hn : re.needs P = true) (s : Str)
    (hs : ∀ r ∈ runes s, P r = false) : re.matchString s = false := by
  unfold Re.matchString
  rw [search_none P re hn _ _ _ hs]
  rfl

theorem findAllString_quiet (P : Nat → Bool) (re : Re) (hn : re.needs P = true) (s : Str)
    (hs : ∀ r ∈ runes s, P r = false) : re.findAllString s = [] := by
  have h := search_none P re hn ((Pos.start s).rest.length + 1) [] (Pos.start s) hs
  unfold Re.findAllString
  simp only [Re.findAllLoop, h]

/-! ## `preProcessEmail` on texts without trigger -/

theorem decodeRune_ascii (b : Nat) (t : Str) (h : b < 128) : decodeRune (b :: t) = (b, 1) := by
  simp [decodeRune, h]

theorem runes_ascii : ∀ s : Str, (∀ b ∈ s, b < 128) → runes s = s := by
  intro s
  induction s with
  | nil => intro _; rfl
  | cons b t ih =>
    intro h
    have hb : b < 128 := h b (List.mem_cons_self _ _)
    rw [runes_cons, decodeRune_ascii b t hb]
    simp only [List.drop_succ_cons, List.drop_zero]
    rw [ih (fun c hc => h c (List.mem_cons_of_mem _ hc))]

theorem ofRunes_ascii : ∀ s : Str, (∀ b ∈ s, b < 128) → ofRunes s = s := by
  intro s
  induction s with
  | nil => intro _; rfl
  | cons b t ih =>
    intro h
    have hb : b < 128 := h b (List.mem_cons_self _ _)
    have ht := ih (fun c hc => h c (List.mem_cons_of_mem _ hc))
    unfold ofRunes at ht ⊢
    rw [List.foldr_cons, ht]
    simp [encodeRune, show b ≤ 127 by omega]

theorem isQuiet_iff (s : Str) :
    isQuiet s = true ↔ ∀ b ∈ s, b < 128 ∧ isTrigger b = false := by
  simp [isQuiet, List.all_eq_true]

theorem isQuiet_runes (s : Str) (h : isQuiet s = true) : ∀ r ∈ runes s, isTrigger r = false := by
  rw [isQuiet_iff] at h
  rw [runes_ascii s (fun b hb => (h b hb).1)]
  exact fun r hr => (h r hr).2

theorem escapesOk_quiet : ∀ s : Str, (∀ b ∈ s, b ≠ 37) → escapesOk s = true := by
  intro s
  induction s with
  | nil => intro _; rfl
  | cons b t ih =>
    intro h
    have hb : b ≠ 37 := h b (List.mem_cons_self _ _)
    have ht := ih (fun c hc => h c (List.mem_cons_of_mem _ hc))
    unfold escapesOk
    split
    · rfl
    · rename_i heq
      simp only [List.cons.injEq] at heq
      exact absurd heq.1 hb
    · rename_i heq
      simp only [List.cons.injEq] at heq
      rw [← heq.2]
      exact ht

theorem unescapeBytes_quiet : ∀ s : Str, (∀ b ∈ s, b ≠ 37 ∧ b ≠ 43) → unescapeBytes s = s := by
  intro s
  induction s with
  | nil => intro _; rfl
  | cons b t ih =>
    intro h
    have hb := h b (List.mem_cons_self _ _)
    have ht := ih (fun c hc => h c (List.mem_cons_of_mem _ hc))
    unfold unescapeBytes
    split
    · rename_i heq; cases heq
    · rename_i heq
      simp only [List.cons.injEq] at heq
      exact absurd heq.1 hb.1
    · rename_i heq
      simp only [List.cons.injEq] at heq
      exact absurd heq.1 hb.2
    · rename_i heq
      simp only [List.cons.injEq] at heq
      rw [← heq.1, ← heq.2, ht]

theorem isTrigger_false (b : Nat) (h : isTrigger b = false) :
    b ≠ 37 ∧ b ≠ 43 ∧ b ≠ 38 ∧ b ≠ 64 := by
  refine ⟨?_, ?_, ?_, ?_⟩ <;> (rintro rfl; simp [isTrigger] at h)

theorem normalizeHTML_quiet (L : Stdlib) (s : Str) (h : isQuiet s = true) :
    normalizeHTML L s = s := by
  have hq := (isQuiet_iff s).1 h
  have h37 : ∀ b ∈ s, b ≠ 37 ∧ b ≠ 43 := fun b hb =>
    ⟨(isTrigger_false b (hq b hb).2).1, (isTrigger_false b (hq b hb).2).2.1⟩
  have hamp : containsByte s 38 = false := by
    simp only [containsByte, List.contains_eq_any_beq, List.any_eq_false, beq_iff_eq]
    intro b hb e
    exact (isTrigger_false b (hq b hb).2).2.2.1 e.symm
  unfold normalizeHTML queryUnescape htmlUnescapeString
  rw [escapesOk_quiet s (fun b hb => (h37 b hb).1), unescapeBytes_quiet s h37]
  simp only [if_true, hamp, Bool.false_eq_true, if_false]
  exact replaceAllStringFunc_quiet isTrigger unicodeEscapePattern (by decide) s _
    (isQuiet_runes s h)

theorem rotateChar_ascii (L : Stdlib) (r x : Nat) (h : r < 128) : rotateChar L r x < 128 := by
  unfold rotateChar
  split
  · omega
  · split
    · omega
    · exact h

theorem rotateChar_eq_at (L : Stdlib) (r x : Nat) (h : rotateChar L r x = 64) : r = 64 := by
  unfold rotateChar at h
  split at h
  · omega
  · split at h
    · omega
    · exact h

theorem rotate_ascii (L : Stdlib) (x : Nat) (s : Str) (h : ∀ b ∈ s, b < 128) :
    rotate L x s = s.map (fun r => rotateChar L r x) := by
  unfold rotate stringsMap
  rw [runes_ascii s h]
  apply ofRunes_ascii
  intro b hb
  rw [List.mem_map] at hb
  obtain ⟨r, hr, rfl⟩ := hb
  exact rotateChar_ascii L r x (h r hr)

theorem rotIsValid_rotate_quiet (L : Stdlib) (x : Nat) (s : Str) (h : isQuiet s = true) :
    rotIsValid (rotate L x s) = false := by
  have hq := (isQuiet_iff s).1 h
  have hascii : ∀ b ∈ s, b < 128 := fun b hb => (hq b hb).1
  apply matchString_quiet (fun r => r == 64) rotRegex (by decide)
  rw [rotate_ascii L x s hascii]
  have hm : ∀ b ∈ s.map (fun r => rotateChar L r x), b < 128 := by
    intro b hb
    rw [List.mem_map] at hb
    obtain ⟨r, hr, rfl⟩ := hb
    exact rotateChar_ascii L r x (hascii r hr)
  rw [runes_ascii _ hm]
  intro r hr
  rw [List.mem_map] at hr
  obtain ⟨r0, hr0, rfl⟩ := hr
  simp only [beq_eq_false_iff_ne, ne_eq]
  intro e
  exact (isTrigger_false r0 (hq r0 hr0).2).2.2.2 (rotateChar_eq_at L r0 x e)

theorem tryRotDecryption_quiet (L : Stdlib) (s : Str) (h : isQuiet s = true) :
    tryRotDecryption L s = [] := by
  rw [tryRotDecryption_eq, List.filter_eq_nil_iff]
  intro t ht
  rw [List.mem_map] at ht
  obtain ⟨k, _, rfl⟩ := ht
  rw [rotIsValid_rotate_quiet L k s h]
  simp

theorem bytes_blank : bytes " " = [32] := by decide

theorem isQuiet_append_blank (s : Str) (h : isQuiet s = true) : isQuiet (s ++ [32]) = true := by
  rw [isQuiet_iff] at h ⊢
  intro b hb
  rw [List.mem_append, List.mem_singleton] at hb
  rcases hb with hb | rfl
  · exact h b hb
  · decide

theorem processHTML_quiet (L : Stdlib) (s : Str) (h : isQuiet s = true) :
    processHTML L s = s ++ [32] := by
  have hr := isQuiet_runes _ (isQuiet_append_blank s h)
  unfold processHTML
  simp only [normalizeHTML_quiet L s h, tryRotDecryption_quiet L s h, bytes_blank, stringsJoin,
    List.append_nil]
  rw [replaceAllString_quiet isTrigger commentRegex (by decide) _ _ hr,
    replaceAllString_quiet isTrigger tagRegex (by decide) _ _ hr]

theorem rewriteTokens_quiet (s : Str) (h : isQuiet s = true) : rewriteTokens s = s := by
  have hr := isQuiet_runes s h
  unfold rewriteTokens rewriteWords
  simp only [replaceAllString_quiet isTrigger dotRegex (by decide) s _ hr,
    replaceAllString_quiet isTrigger gluedDotLower (by decide) s _ hr,
    replaceAllString_quiet isTrigger gluedDotUpper (by decide) s _ hr,
    replaceAllString_quiet isTrigger atRegex (by decide) s _ hr,
    replaceAllString_quiet isTrigger gluedAtLower (by decide) s _ hr,
    replaceAllString_quiet isTrigger gluedAtUpper (by decide) s _ hr,
    replaceAllString_quiet isTrigger removeLower (by decide) s _ hr,
    replaceAllString_quiet isTrigger removeUpper (by decide) s _ hr,
    replaceAllStringFunc_quiet isTrigger nospamRegex (by decide) s _ hr]

/-- C10 (as amended): for every ASCII text `s` that holds none of the characters
`% + & \ < . @ D d A a R r n`, `preProcessEmail s` is `s` followed by one blank, the
separator `processHTML` appends; a second application appends another blank, so
`preProcessEmail` is not idempotent on any such text. -/
theorem preProcessEmail_quiet (L : Stdlib) (s : Str) (h : isQuiet s = true) :
    preProcessEmail L s = s ++ [32]
      ∧ preProcessEmail L (preProcessEmail L s) = preProcessEmail L s ++ [32]
      ∧ preProcessEmail L (preProcessEmail L s) ≠ preProcessEmail L s := by
  have h1 : ∀ t : Str, isQuiet t = true → preProcessEmail L t = t ++ [32] := by
    intro t ht
    unfold preProcessEmail
    rw [processHTML_quiet L t ht, rewriteTokens_quiet _ (isQuiet_append_blank t ht)]
  have h2 := h1 _ (isQuiet_append_blank s h)
  rw [h1 s h]
  refine ⟨rfl, h2, ?_⟩
  rw [h2]
  intro e
  have := congrArg List.length e
  simp at this

/-- C10 (witness): the text `hello 42`. -/
theorem preProcessEmail_quiet_example :
    preProcessEmail plainLib (bytes "hello 42") = bytes "hello 42 "
      ∧ preProcessEmail plainLib (preProcessEmail plainLib (bytes "hello 42"))
        = bytes "hello 42  " := by
  have h := preProcessEmail_quiet plainLib (bytes "hello 42") (by decide)
  exact ⟨h.1, by rw [h.2.1, h.1]; decide⟩

/-- C10 (counterexample): on the text `x` a second application of `preProcessEmail` changes
the result of the first, whatever the tables of the standard library hold. -/
theorem preProcessEmail_not_idempotent :
    ¬ ∃ L : Stdlib,
      preProcessEmail L (preProcessEmail L (bytes "x")) = preProcessEmail L (bytes "x") := by
  rintro ⟨L, h⟩
  rw [preProcessEmail_plain L (bytes "x") (by decide!)] at h
  rw [preProcessEmail_plain L _ (by decide!)] at h
  revert h
  decide!

/-! ## Rotations are never the text itself -/

theorem decodeRune_encodeRune (r : Nat) (rest : Str) :
    decodeRune (encodeRune r ++ rest) = (validRune r, (encodeRune r).length) := by
  unfold encodeRune validRune
  split
  · rename_i h1
    have : r < 128 := by omega
    have h2 : ¬ (0x10FFFF < r ∨ (0xD800 ≤ r ∧ r ≤ 0xDFFF)) := by omega
    simp [decodeRune, this, h2]
  · split
    · rename_i h1 h2
      have h3 : ¬ (0x10FFFF < r ∨ (0xD800 ≤ r ∧ r ≤ 0xDFFF)) := by omega
      have a1 : ¬ (0xC0 + r / 64 < 0x80) := by omega
      have a2 : ¬ (0xC0 + r / 64 < 0xC2) := by omega
      have a3 : 0xC0 + r / 64 < 0xE0 := by omega
      have a4 : 0x80 ≤ 0x80 + r % 64 := by omega
      have a5 : 0x80 + r % 64 ≤ 0xBF := by omega
      have a6 : (0xC0 + r / 64) % 32 * 64 + (0x80 + r % 64) % 64 = r := by omega
      simp only [decodeRune, inRange, a1, a2, a3, a4, a5, a6, h3,
        List.cons_append, List.nil_append, if_true, if_false, decide_True, Bool.and_self,
        List.length_cons, List.length_nil]
    · split
      · rename_i h1 h2 h3
        simp [decodeRune, inRange, h3]
      · split
        · rename_i h1 h2 h3 h4
          have a1 : ¬ (0xE0 + r / 4096 < 0x80) := by omega
          have a2 : ¬ (0xE0 + r / 4096 < 0xC2) := by omega
          have a3 : ¬ (0xE0 + r / 4096 < 0xE0) := by omega
          have a4 : 0xE0 + r / 4096 < 0xF0 := by omega
          have a5 : (if 0xE0 + r / 4096 = 0xE0 then 0xA0 else 0x80) ≤ 0x80 + r / 64 % 64 := by
            split <;> omega
          have a6 : 0x80 + r / 64 % 64 ≤ (if 0xE0 + r / 4096 = 0xED then 0x9F else 0xBF) := by
            split <;> omega
          have a7 : 0x80 ≤ 0x80 + r % 64 := by omega
          have a8 : 0x80 + r % 64 ≤ 0xBF := by omega
          have a9 : (0xE0 + r / 4096) % 16 * 4096 + (0x80 + r / 64 % 64) % 64 * 64
              + (0x80 + r % 64) % 64 = r := by omega
          simp only [decodeRune, inRange, a1, a2, a3, a4, a5, a6, a7, a8, a9, h3,
            List.cons_append, List.nil_append, if_true, if_false, decide_True, Bool.and_self,
            List.length_cons, List.length_nil]
        · rename_i h1 h2 h3 h4
          have a1 : ¬ (0xF0 + r / 262144 < 0x80) := by omega
          have a2 : ¬ (0xF0 + r / 262144 < 0xC2) := by omega
          have a3 : ¬ (0xF0 + r / 262144 < 0xE0) := by omega
          have a4 : ¬ (0xF0 + r / 262144 < 0xF0) := by omega
          have a4' : 0xF0 + r / 262144 < 0xF5 := by omega
          have a5 : (if 0xF0 + r / 262144 = 0xF0 then 0x90 else 0x80)
              ≤ 0x80 + r / 4096 % 64 := by
            split <;> omega
          have a6 : 0x80 + r / 4096 % 64
              ≤ (if 0xF0 + r / 262144 = 0xF4 then 0x8F else 0xBF) := by
            split <;> omega
          have a7 : 0x80 ≤ 0x80 + r / 64 % 64 := by omega
          have a8 : 0x80 + r / 64 % 64 ≤ 0xBF := by omega
          have a7' : 0x80 ≤ 0x80 + r % 64 := by omega
          have a8' : 0x80 + r % 64 ≤ 0xBF := by omega
          have a9 : (0xF0 + r / 262144) % 8 * 262144 + (0x80 + r / 4096 % 64) % 64 * 4096
              + (0x80 + r / 64 % 64) % 64 * 64 + (0x80 + r % 64) % 64 = r := by omega
          simp only [decodeRune, inRange, a1, a2, a3, a4, a4', a5, a6, a7, a8, a7', a8', a9, h3,
            List.cons_append, List.nil_append, if_true, if_false, decide_True, Bool.and_self,
            List.length_cons, List.length_nil]

theorem runes_encodeRune_append (r : Nat) (rest : Str) :
    runes (encodeRune r ++ rest) = validRune r :: runes rest := by
  have hne : ∃ b t, encodeRune r = b :: t := by
    unfold encodeRune
    repeat' split
    all_goals exact ⟨_, _, rfl⟩
  obtain ⟨b, t, hbt⟩ := hne
  have hd := decodeRune_encodeRune r rest
  rw [hbt, List.cons_append] at hd ⊢
  rw [runes_cons, hd]
  simp only
  rw [← List.cons_append, ← hbt, List.drop_left]

theorem runes_ofRunes : ∀ rs : List Nat, runes (ofRunes rs) = rs.map validRune := by
  intro rs
  induction rs with
  | nil => rfl
  | cons r rs ih =>
    have : ofRunes (r :: rs) = encodeRune r ++ ofRunes rs := rfl
    rw [this, runes_encodeRune_append, ih, List.map_cons]

theorem fixed_of_map_eq {g : Nat → Nat} : ∀ l : List Nat, l.map g = l → ∀ x ∈ l, g x = x := by
  intro l
  induction l with
  | nil => intro _ x hx; cases hx
  | cons a l ih =>
    intro h x hx
    simp only [List.map_cons, List.cons.injEq] at h
    rcases List.mem_cons.1 hx with rfl | hx
    · exact h.1
    · exact ih h.2 x hx

theorem rotIsValid_has_lower (t : Str) (h : rotIsValid t = true) :
    ∃ r ∈ runes t, 97 ≤ r ∧ r ≤ 122 := by
  by_contra hc
  have hq : ∀ r ∈ runes t, (fun r => inRange 97 122 r) r = false := by
    intro r hr
    simp only [inRange, Bool.and_eq_false_imp, decide_eq_true_eq, decide_eq_false_iff_not]
    intro h1 h2
    exact hc ⟨r, hr, h1, h2⟩
  have := matchString_quiet (fun r => inRange 97 122 r) rotRegex (by decide) t hq
  unfold rotIsValid at h
  rw [this] at h
  cases h

theorem rotate_ne_self (L : Stdlib) (k : Nat) (s : Str) (h1 : 1 ≤ k) (h2 : k ≤ 25)
    (hv : rotIsValid (rotate L k s) = true) : rotate L k s ≠ s := by
  intro e
  have hr : (runes s).map (fun r => validRune (rotateChar L r k)) = runes s := by
    have := congrArg runes e
    unfold rotate stringsMap at this
    rw [runes_ofRunes, List.map_map] at this
    exact this
  rw [e] at hv
  obtain ⟨r, hr0, hlo, hhi⟩ := rotIsValid_has_lower s hv
  have hfix := fixed_of_map_eq _ hr r hr0
  have hlow : unicodeIsLower L r = true := by
    simp [unicodeIsLower, inRange, show r ≤ 0xFF by omega, hlo, hhi]
  simp only [rotateChar, hlow, if_true, validRune] at hfix
  split at hfix
  · omega
  · omega

theorem tryRotDecryption_latin1 (L : Stdlib) (s : Str)
    (h : (runes s).all (fun r => decide (r ≤ 0xFF)) = true) :
    tryRotDecryption L s = tryRotDecryption plainLib s := by
  unfold tryRotDecryption
  simp only [List.all_eq_true, decide_eq_true_eq] at h
  exact tryRotLoop_latin1 L plainLib s h 25 1 []

/-- C3: `tryRotDecryption s` is the list, in increasing rotation amount `k = 1..25`, of the
rotations of `s` that `rotIsValid` accepts: a text is returned exactly when it is such a
rotation, and `s` itself is never returned. No rotation of `hvdr@gvzcoz.dlt` is accepted, so
there the list is empty; `vtfs@fybnqmf.dpn` decodes to `user@example.com`. -/
theorem tryRotDecryption_spec (L : Stdlib) (s : Str) :
    tryRotDecryption L s = ((List.range' 1 25).map (fun k => rotate L k s)).filter rotIsValid
      ∧ (∀ t, t ∈ tryRotDecryption L s
          ↔ ∃ k, 1 ≤ k ∧ k ≤ 25 ∧ t = rotate L k s ∧ rotIsValid t = true)
      ∧ s ∉ tryRotDecryption L s
      ∧ tryRotDecryption L (bytes "hvdr@gvzcoz.dlt") = []
      ∧ tryRotDecryption L (bytes "vtfs@fybnqmf.dpn") = [bytes "user@example.com"] := by
  refine ⟨tryRotDecryption_eq L s, mem_tryRotDecryption L s, ?_, ?_, ?_⟩
  · intro hmem
    obtain ⟨k, h1, h2, e, hv⟩ := (mem_tryRotDecryption L s s).1 hmem
    rw [e] at hv
    exact rotate_ne_self L k s h1 h2 hv e.symm
  · rw [tryRotDecryption_latin1 L _ (by decide!)]
    decide!
  · rw [tryRotDecryption_latin1 L _ (by decide!)]
    decide!

/-! ## The scope modes -/

theorem scopeAdmits_two_one (base : URL) (l : Str) (h : scopeAdmits base 2 l = true) :
    scopeAdmits base 1 l = true := by
  unfold scopeAdmits hasPrefix at h ⊢
  simp only [show ¬ ((2 : Int) = 1) by decide, if_false, if_true,
    List.isPrefixOf_iff_prefix] at h ⊢
  exact (List.prefix_append _ _).trans h

theorem scopeAdmits_other (base : URL) (mode : Int) (l : Str) (h1 : mode ≠ 1) (h2 : mode ≠ 2) :
    scopeAdmits base mode l = true := by
  unfold scopeAdmits
  simp [h1, h2]

theorem addLink_other (base : URL) (mode : Int) (h1 : mode ≠ 1) (h2 : mode ≠ 2) :
    addLink base mode = addLink base 3 := by
  funext linkSet l
  unfold addLink
  rw [scopeAdmits_other base mode l h1 h2, scopeAdmits_other base 3 l (by decide) (by decide)]

/-- C20: the links `ExtractLinks` admits in mode 2 are among those it admits in mode 1, which
are among those it admits in mode 3; every mode other than 1 and 2 admits exactly the links of
mode 3. -/
theorem ExtractLinks_nested (W : World) (html baseURL : Str) :
    (∀ l, l ∈ ExtractLinks W html baseURL 2 → l ∈ ExtractLinks W html baseURL 1)
      ∧ (∀ l, l ∈ ExtractLinks W html baseURL 1 → l ∈ ExtractLinks W html baseURL 3)
      ∧ (∀ mode : Int, mode ≠ 1 → mode ≠ 2 →
          ExtractLinks W html baseURL mode = ExtractLinks W html baseURL 3) := by
  refine ⟨?_, ?_, ?_⟩
  · intro l h
    cases hp : W.page html baseURL with
    | none => simp [ExtractLinks, hp] at h
    | some dom =>
      cases hb : dom.base with
      | none => simp [ExtractLinks, hp, hb] at h
      | some base =>
        rw [mem_ExtractLinks W html baseURL _ dom base hp hb] at h ⊢
        exact ⟨h.1, h.2.1, scopeAdmits_two_one base l h.2.2⟩
  · intro l h
    cases hp : W.page html baseURL with
    | none => simp [ExtractLinks, hp] at h
    | some dom =>
      cases hb : dom.base with
      | none => simp [ExtractLinks, hp, hb] at h
      | some base =>
        rw [mem_ExtractLinks W html baseURL _ dom base hp hb] at h ⊢
        exact ⟨h.1, h.2.1, scopeAdmits_other base 3 l (by decide) (by decide)⟩
  · intro mode h1 h2
    unfold ExtractLinks
    cases W.page html baseURL with
    | none => rfl
    | some dom =>
      dsimp only
      cases dom.base with
      | none => rfl
      | some base =>
        dsimp only
        rw [addLink_other base mode h1 h2]

/-! ## The validator -/

theorem foldEq_ascii (orbit : Nat → Nat → Bool) (sr tr : Nat) (hs : sr < 128) (ht : tr < 128) :
    foldEq orbit sr tr = true ↔ asciiLower sr = asciiLower tr := by
  unfold foldEq asciiLower
  have hm : max sr tr < 128 := max_lt hs ht
  simp only [hm, if_true, Bool.or_eq_true, beq_iff_eq, Bool.and_eq_true, decide_eq_true_eq]
  rcases le_total sr tr with h | h
  · rw [max_eq_right h, min_eq_left h]
    constructor
    · rintro (e | ⟨⟨h1, h2⟩, h3⟩)
      · rw [e]
      · rw [if_pos ⟨h1, h2⟩, if_neg (by omega)]; omega
    · intro e
      split at e <;> split at e <;> first | (left; omega) | (right; omega)
  · rw [max_eq_left h, min_eq_right h]
    constructor
    · rintro (e | ⟨⟨h1, h2⟩, h3⟩)
      · rw [e]
      · rw [if_neg (by omega), if_pos ⟨h1, h2⟩]; omega
    · intro e
      split at e <;> split at e <;> first | (left; omega) | (right; omega)

theorem equalFoldRunes_ascii (orbit : Nat → Nat → Bool) :
    ∀ s t : List Nat, (∀ b ∈ s, b < 128) → (∀ b ∈ t, b < 128) →
      (equalFoldRunes orbit s t = true ↔ s.map asciiLower = t.map asciiLower) := by
  intro s
  induction s with
  | nil =>
    intro t _ _
    cases t <;> simp [equalFoldRunes]
  | cons a s ih =>
    intro t hs ht
    cases t with
    | nil => simp [equalFoldRunes]
    | cons b t =>
      have ha := hs a (List.mem_cons_self _ _)
      have hb := ht b (List.mem_cons_self _ _)
      simp only [equalFoldRunes, Bool.and_eq_true, List.map_cons, List.cons.injEq,
        foldEq_ascii orbit a b ha hb,
        ih t (fun c hc => hs c (List.mem_cons_of_mem _ hc))
          (fun c hc => ht c (List.mem_cons_of_mem _ hc))]

/-- C12: `ValidateEmail` returns true exactly when the address parses, splits at `@` into
one local part and one domain, the lookup for the domain succeeds with at least one record,
the local part has between 1 and 64 bytes, and it is not the case that the domain equals
`gmail.com` under `strings.EqualFold` while the local part has fewer than 6 bytes. For an
ASCII domain the comparison is equality after lower-casing: where every address parses and
every domain has a record, `bob@GMail.com` is rejected and `robert@GMail.com` accepted. -/
theorem ValidateEmail_iff (N : Net) (email : Str) :
    (ValidateEmail N email = true ↔
      ∃ address username domain n, N.parseAddress email = some address
        ∧ stringsSplit address 64 = [username, domain]
        ∧ N.lookupMX domain = some n ∧ 1 ≤ n
        ∧ 1 ≤ username.length ∧ username.length ≤ 64
        ∧ ¬ (equalFold N.foldOrbit domain (bytes "gmail.com") = true ∧ username.length < 6))
      ∧ (∀ domain : Str, (∀ b ∈ domain, b < 128) →
          (equalFold N.foldOrbit domain (bytes "gmail.com") = true
            ↔ domain.map asciiLower = bytes "gmail.com"))
      ∧ ValidateEmail openNet (bytes "bob@GMail.com") = false
      ∧ ValidateEmail openNet (bytes "robert@GMail.com") = true := by
  refine ⟨?_, ?_, by decide, by decide⟩
  · unfold ValidateEmail
    constructor
    · intro h
      split at h
      · cases h
      · rename_i address ha
        split at h
        · rename_i username domain hs
          split at h
          · cases h
          · rename_i n hn
            split at h
            · cases h
            · split at h
              · cases h
              · split at h
                · cases h
                · rename_i h0 h1 h2
                  refine ⟨address, username, domain, n, ha, hs, hn, by omega, by omega, by omega,
                    ?_⟩
                  intro hc
                  apply h2
                  simp [hc.1, hc.2]
        · cases h
    · rintro ⟨address, username, domain, n, ha, hs, hn, h1, h2, h3, h4⟩
      simp only [ha, hs, hn]
      rw [if_neg (by omega), if_neg (by omega), if_neg]
      intro hc
      simp only [Bool.and_eq_true, decide_eq_true_eq] at hc
      exact h4 hc
  · intro domain hd
    unfold equalFold
    have hg : ∀ b ∈ bytes "gmail.com", b < 128 := by decide
    rw [runes_ascii domain hd, runes_ascii _ hg, equalFoldRunes_ascii _ _ _ hd hg]
    have : (bytes "gmail.com").map asciiLower = bytes "gmail.com" := by decide
    rw [this]

/-! ## The Caesar shift -/

theorem rotate_latin1 (L : Stdlib) (x : Nat) (s : Str)
    (h : (runes s).all (fun r => decide (r ≤ 0xFF)) = true) :
    rotate L x s = rotate plainLib x s := by
  simp only [List.all_eq_true, decide_eq_true_eq] at h
  exact stringsMap_congr _ _ s (fun r hr => rotateChar_latin1 L plainLib r x (h r hr))

theorem unicodeIsLower_ascii (L : Stdlib) (c : Nat) (hc : c < 128) :
    unicodeIsLower L c = true ↔ 97 ≤ c ∧ c ≤ 122 := by
  have h255 : c ≤ 0xFF := by omega
  unfold unicodeIsLower
  simp only [h255, if_true, inRange, Bool.or_eq_true, Bool.and_eq_true, decide_eq_true_eq,
    beq_iff_eq]
  omega

theorem unicodeIsUpper_ascii (L : Stdlib) (c : Nat) (hc : c < 128) :
    unicodeIsUpper L c = true ↔ 65 ≤ c ∧ c ≤ 90 := by
  have h255 : c ≤ 0xFF := by omega
  unfold unicodeIsUpper
  simp only [h255, if_true, inRange, Bool.or_eq_true, Bool.and_eq_true, decide_eq_true_eq]
  omega

theorem rotateChar_ascii_eq (L : Stdlib) (c x : Nat) (hc : c < 128) :
    rotateChar L c x =
      if 97 ≤ c ∧ c ≤ 122 then 97 + (c - 97 + x) % 26
      else if 65 ≤ c ∧ c ≤ 90 then 65 + (c - 65 + x) % 26
      else c := by
  unfold rotateChar
  simp only [unicodeIsLower_ascii L c hc, unicodeIsUpper_ascii L c hc]

theorem ofRunes_ne_invalid (rs : List Nat) : ofRunes rs ≠ [0xFF] := by
  cases rs with
  | nil => simp [ofRunes]
  | cons r rs =>
    have e : ofRunes (r :: rs) = encodeRune r ++ ofRunes rs := rfl
    rw [e]
    unfold encodeRune
    intro h
    repeat' split at h
    all_goals
      simp only [List.cons_append, List.nil_append, List.cons.injEq] at h
      omega

theorem rotateChar_back (L : Stdlib) (c x : Nat) (hc : c < 128) (h1 : 1 ≤ x) (h2 : x ≤ 25) :
    rotateChar L (rotateChar L c x) (26 - x) = c := by
  rw [rotateChar_ascii_eq L _ _ (rotateChar_ascii L c x hc), rotateChar_ascii_eq L c x hc]
  by_cases hl : 97 ≤ c ∧ c ≤ 122
  · rw [if_pos hl, if_pos (by omega)]
    omega
  · rw [if_neg hl]
    by_cases hu : 65 ≤ c ∧ c ≤ 90
    · rw [if_pos hu, if_neg (by omega), if_pos (by omega)]
      omega
    · rw [if_neg hu, if_neg hl, if_neg hu]

/-- C18 (as amended): for every rotation amount `x` in 1..25 and every ASCII character `c`,
`rotateChar c x` is `c` when `c` is not a letter, and otherwise the letter of the same case
`x` positions further along the alphabet, wrapping from z to a; for every ASCII string `s`,
rotating by `x` and then by `26 - x` gives back `s`. -/
theorem rotateChar_ascii_spec (L : Stdlib) (x c : Nat) (s : Str) (h1 : 1 ≤ x) (h2 : x ≤ 25)
    (hc : c < 128) (hs : ∀ b ∈ s, b < 128) :
    rotateChar L c x =
        (if 97 ≤ c ∧ c ≤ 122 then 97 + (c - 97 + x) % 26
         else if 65 ≤ c ∧ c ≤ 90 then 65 + (c - 65 + x) % 26
         else c)
      ∧ rotate L (26 - x) (rotate L x s) = s := by
  refine ⟨rotateChar_ascii_eq L c x hc, ?_⟩
  have hm : ∀ b ∈ s.map (fun r => rotateChar L r x), b < 128 := by
    intro b hb
    rw [List.mem_map] at hb
    obtain ⟨r, hr, rfl⟩ := hb
    exact rotateChar_ascii L r x (hs r hr)
  rw [rotate_ascii L x s hs, rotate_ascii L (26 - x) _ hm, List.map_map]
  conv_rhs => rw [← List.map_id s]
  apply List.map_congr_left
  intro b hb
  exact rotateChar_back L b x (hs b hb) h1 h2

/-- C18 (witness): the letter `y` rotated by 3 is `b`, and `Zebra-42` rotated by 3 and then
by 23 is `Zebra-42` again. -/
theorem rotateChar_ascii_spec_example :
    rotateChar plainLib 121 3 = 98
      ∧ rotate plainLib (26 - 3) (rotate plainLib 3 (bytes "Zebra-42")) = bytes "Zebra-42" := by
  have h := rotateChar_ascii_spec plainLib 3 121 (bytes "Zebra-42") (by decide) (by decide)
    (by decide) (by decide)
  exact ⟨h.1.trans (by decide), h.2⟩

/-- C18 (counterexample): the lower-case letter `é` (U+00E9, the bytes C3 A9) rotated by 1 is
`h`, and rotating that by 25 gives `g`, not `é`; a byte that is not UTF-8 (FF) never comes
back, `strings.Map` writing U+FFFD for it. -/
theorem rotate_not_inverse :
    (¬ ∃ L : Stdlib, rotate L 25 (rotate L 1 [0xC3, 0xA9]) = [0xC3, 0xA9])
      ∧ (¬ ∃ L : Stdlib, rotateChar L 0xE9 1 = 0xE9 + 1)
      ∧ (¬ ∃ L : Stdlib, rotate L 25 (rotate L 1 [0xFF]) = [0xFF]) := by
  refine ⟨?_, ?_, ?_⟩
  · rintro ⟨L, h⟩
    rw [rotate_latin1 L 1 _ (by decide)] at h
    rw [rotate_latin1 L 25 _ (by decide)] at h
    revert h
    decide
  · rintro ⟨L, h⟩
    rw [rotateChar_latin1 L plainLib _ _ (by decide)] at h
    revert h
    decide
  · rintro ⟨L, h⟩
    exact ofRunes_ne_invalid _ h

/-! ## Termination of the traversal -/

theorem crawlsAll_foldl (W : World) (maxDepth : Int) (d : Int)
    (f : CrawlState → Str → CrawlState)
    (hf : ∀ st link, Crawls W maxDepth 0 st link d (f st link)) :
    ∀ (links : List Str) (st : CrawlState),
      CrawlsAll W maxDepth st links d (links.foldl f st) := by
  intro links
  induction links with
  | nil => intro st; exact CrawlsAll.done st d
  | cons l links ih =>
    intro st
    exact CrawlsAll.step st l links d (f st l) _ (hf st l) (ih (f st l))

theorem crawls_crawlAux (W : World) (maxDepth : Int) :
    ∀ (fuel : Nat) (mode : Int) (st : CrawlState) (url : Str) (d : Int),
      (maxDepth + 1 - d).toNat ≤ fuel →
      Crawls W maxDepth mode st url d (crawlAux W mode maxDepth fuel st url d) := by
  intro fuel
  induction fuel with
  | zero =>
    intro mode st url d h
    have hgt : d > maxDepth := by omega
    simp only [crawlAux]
    cases hp : st.panicked with
    | true => exact Crawls.halted mode st url d hp
    | false => exact Crawls.tooDeep mode st url d hp hgt
  | succ fuel ih =>
    intro mode st url d h
    unfold crawlAux
    by_cases hp : st.panicked = true
    · rw [if_pos hp]
      exact Crawls.halted mode st url d hp
    · have hp' : st.panicked = false := by simpa using hp
      rw [if_neg hp]
      by_cases hgt : d > maxDepth
      · rw [if_pos hgt]
        exact Crawls.tooDeep mode st url d hp' hgt
      · rw [if_neg hgt]
        dsimp only
        split
        · rename_i hr
          exact Crawls.noPage mode st url d hp' hgt hr
        · rename_i html hr
          split
          · rename_i hb
            exact Crawls.blank mode st url d html hp' hgt hr hb
          · rename_i hb
            have hb' : isBlank html = false := by simpa using hb
            split
            · rename_i hg
              exact Crawls.crash mode st url d html hp' hgt hr hb' hg
            · rename_i emails hg
              refine Crawls.visit mode st url d html emails _ hp' hgt hr hb' hg ?_
              exact crawlsAll_foldl W maxDepth (d + 1)
                (fun s l => crawlAux W 0 maxDepth fuel s l (d + 1))
                (fun s l => ih 0 s l (d + 1) (by omega)) _ _

theorem crawls_unique (W : World) (maxDepth : Int) {mode : Int} {st : CrawlState} {url : Str}
    {d : Int} {st' : CrawlState} (h : Crawls W maxDepth mode st url d st') :
    st' = crawl W mode maxDepth st url d := by
  refine @Crawls.rec W maxDepth
    (fun mode st url d st' _ => st' = crawl W mode maxDepth st url d)
    (fun st links d st' _ => st' = links.foldl (fun s l => crawl W 0 maxDepth s l d) st)
    ?_ ?_ ?_ ?_ ?_ ?_ ?_ ?_ mode st url d st' h
  · intro mode st url d hp
    rw [crawl_eq, if_pos hp]
  · intro mode st url d hp hgt
    rw [crawl_eq, if_neg (by simp [hp]), if_pos hgt]
  · intro mode st url d hp hgt hr
    rw [crawl_eq, if_neg (by simp [hp]), if_neg hgt, hr]
  · intro mode st url d html hp hgt hr hb
    rw [crawl_eq, if_neg (by simp [hp]), if_neg hgt, hr]
    simp only [hb, if_true]
  · intro mode st url d html hp hgt hr hb hg
    rw [crawl_eq, if_neg (by simp [hp]), if_neg hgt, hr]
    simp only [hb, Bool.false_eq_true, if_false, hg]
  · intro mode st url d html emails st' hp hgt hr hb hg _ ih
    rw [crawl_eq, if_neg (by simp [hp]), if_neg hgt, hr]
    simp only [hb, Bool.false_eq_true, if_false, hg]
    exact ih
  · intro st d
    rfl
  · intro st link links d st1 st2 _ _ ih1 ih2
    rw [List.foldl_cons, ← ih1]
    exact ih2

/-- C8: a crawl started at depth 1 opens pages at depths between 1 and `maxDepth` only: so
for the run of the source (`Crawls`, which has no bound but the depth test of `crawl`), for
the function with any fuel at all, and for `crawl`. With `maxDepth = 1` it opens the root page
and nothing else, whatever links the page holds and whatever the fuel; with `maxDepth < 1` it
opens nothing. -/
theorem crawl_depth_bound (W : World) (mode maxDepth : Int) (url : Str) :
    (∀ st', Crawls W maxDepth mode CrawlState.init url 1 st' →
        ∀ e ∈ st'.opened, 1 ≤ e.2 ∧ e.2 ≤ maxDepth)
      ∧ (∀ fuel, ∀ e ∈ (crawlAux W mode maxDepth fuel CrawlState.init url 1).opened,
          1 ≤ e.2 ∧ e.2 ≤ maxDepth)
      ∧ (∀ e ∈ (crawl W mode maxDepth CrawlState.init url 1).opened, 1 ≤ e.2 ∧ e.2 ≤ maxDepth)
      ∧ (∀ st', Crawls W 1 mode CrawlState.init url 1 st' → st'.opened = [(url, 1)])
      ∧ (∀ fuel, (crawlAux W mode 1 (fuel + 1) CrawlState.init url 1).opened = [(url, 1)])
      ∧ (crawl W mode 1 CrawlState.init url 1).opened = [(url, 1)]
      ∧ (maxDepth < 1 → (∀ st', Crawls W maxDepth mode CrawlState.init url 1 st' →
            st'.opened = [])
          ∧ (∀ fuel, (crawlAux W mode maxDepth fuel CrawlState.init url 1).opened = [])) := by
  have h0 : ∀ fuel, ∀ e ∈ (crawlAux W mode maxDepth fuel CrawlState.init url 1).opened,
      1 ≤ e.2 ∧ e.2 ≤ maxDepth := fun fuel =>
    crawlAux_depthsWithin W maxDepth fuel mode CrawlState.init url 1 (le_refl _)
      (by intro e he; simp [CrawlState.init] at he)
  have h1 : ∀ st', Crawls W maxDepth mode CrawlState.init url 1 st' →
      ∀ e ∈ st'.opened, 1 ≤ e.2 ∧ e.2 ≤ maxDepth := by
    intro st' hc
    rw [crawls_unique W maxDepth hc]
    exact h0 _
  have h2 : (crawl W mode 1 CrawlState.init url 1).opened = [(url, 1)] :=
    crawlAux_one W mode 0 url
  refine ⟨h1, h0, h0 _, ?_, fun fuel => crawlAux_one W mode fuel url, h2, ?_⟩
  · intro st' hc
    rw [crawls_unique W 1 hc]
    exact h2
  · intro hlt
    constructor
    · intro st' hc
      cases hop : st'.opened with
      | nil => rfl
      | cons e es =>
        have := h1 st' hc e (by rw [hop]; exact List.mem_cons_self _ _)
        omega
    · intro fuel
      cases hop : (crawlAux W mode maxDepth fuel CrawlState.init url 1).opened with
      | nil => rfl
      | cons e es =>
        have := h0 fuel e (by rw [hop]; exact List.mem_cons_self _ _)
        omega

/-- C19: whatever the pages link to, cycles and pages that link to themselves included, the
call `crawl(..., maxDepth, d)` returns, and in one state only: the recursion calls itself at
`d + 1` for every link and not at all when `d` is above `maxDepth`, so `maxDepth + 1 - d`
bounds its depth and falls by one with every call; more fuel than that changes nothing. -/
theorem crawl_terminates (W : World) (mode maxDepth : Int) (st : CrawlState) (url : Str)
    (d : Int) :
    Crawls W maxDepth mode st url d (crawl W mode maxDepth st url d)
      ∧ (∀ st', Crawls W maxDepth mode st url d st' → st' = crawl W mode maxDepth st url d)
      ∧ (∀ fuel, (maxDepth + 1 - d).toNat ≤ fuel →
          crawlAux W mode maxDepth fuel st url d = crawl W mode maxDepth st url d)
      ∧ (d ≤ maxDepth → (maxDepth + 1 - (d + 1)).toNat + 1 = (maxDepth + 1 - d).toNat) := by
  refine ⟨crawls_crawlAux W maxDepth _ mode st url d (le_refl _),
    fun st' h => crawls_unique W maxDepth h, ?_, ?_⟩
  · intro fuel hf
    exact crawls_unique W maxDepth (crawls_crawlAux W maxDepth fuel mode st url d hf)
  · intro h
    omega

/-! ## The decoder on decoded text -/

theorem decodeRune_ascii_or (b : Nat) (t : Str) :
    decodeRune (b :: t) = (b, 1) ∨ 128 ≤ (decodeRune (b :: t)).1 := by
  simp only [decodeRune]
  repeat' split
  all_goals
    first
      | (left; rfl)
      | (right; dsimp only; omega)
      | (right; simp only [inRange, Bool.and_eq_true, decide_eq_true_eq] at *; omega)

theorem mem_of_mem_runes : ∀ (n : Nat) (s : Str), s.length ≤ n → ∀ r ∈ runes s, r < 128 →
    r ∈ s := by
  intro n
  induction n with
  | zero =>
    intro s hs r hr _
    have : s = [] := List.length_eq_zero.1 (by omega)
    subst this
    simp [runes, runesSkip] at hr
  | succ n ih =>
    intro s hs r hr hlt
    cases s with
    | nil => simp [runes, runesSkip] at hr
    | cons b t =>
      rw [runes_cons, List.mem_cons] at hr
      rcases hr with e | hr
      · rcases decodeRune_ascii_or b t with h | h
        · rw [h] at e
          simp only at e
          rw [e]
          exact List.mem_cons_self _ _
        · omega
      · have hw := decodeRune_width_pos b t
        have hlen : ((b :: t).drop (decodeRune (b :: t)).2).length ≤ n := by
          rw [List.length_drop]
          simp only [List.length_cons] at hs ⊢
          omega
        exact List.mem_of_mem_drop (ih _ hlen r hr hlt)

/-- C16 (the code at the failing input): in `aDOTbDOTc` the first match of rule 2, `aDOTb`,
takes the `b` that the second `DOT` needs on its left, so the second `DOT` stays; likewise
for `aATbATc`. With a middle word of two characters both tokens are rewritten. -/
theorem preProcessEmail_glued_single (L : Stdlib) :
    preProcessEmail L (bytes "aDOTbDOTc") = bytes "a.bDOTc "
      ∧ preProcessEmail L (bytes "aATbATc") = bytes "a@bATc "
      ∧ preProcessEmail L (bytes "aDOTbbDOTc") = bytes "a.bb.c "
      ∧ preProcessEmail L (bytes "aATbbATc") = bytes "a@bb@c " := by
  rw [preProcessEmail_plain L _ (by decide!), preProcessEmail_plain L _ (by decide!),
    preProcessEmail_plain L _ (by decide!), preProcessEmail_plain L _ (by decide!)]
  decide!

/-! ## The matcher finds matches only -/

theorem starLoop_sound (greedy : Bool) (a : Re) (hm : Sound a a.run) :
    ∀ n, Sound (.star greedy a) (starLoop a.run greedy n) := by
  intro n
  induction n with
  | zero => intro p k res h; exact ⟨p, h, Derives.starNil greedy a _⟩
  | succ n ih =>
    intro p k res h
    have step : ∀ r, a.run p (fun q => if q.rest.length < p.rest.length then
        starLoop a.run greedy n q k else none) = some r →
        ∃ q, k q = some r ∧ Derives (.star greedy a) p.cur q.cur := by
      intro r hr
      obtain ⟨q1, hq1, hd1⟩ := hm _ _ _ hr
      split at hq1
      · obtain ⟨q2, hq2, hd2⟩ := ih _ _ _ hq1
        exact ⟨q2, hq2, Derives.starCons greedy a _ _ _ hd1 hd2⟩
      · cases hq1
    unfold starLoop at h
    split at h
    · split at h
      · rename_i r hr
        cases h
        exact step _ hr
      · exact ⟨p, h, Derives.starNil greedy a _⟩
    · split at h
      · rename_i r hr
        cases h
        exact ⟨p, hr, Derives.starNil greedy a _⟩
      · exact step _ h

theorem run_sound : ∀ re : Re, Sound re re.run := by
  intro re
  induction re with
  | empty => intro p k res h; exact ⟨p, h, Derives.empty _⟩
  | cls neg ranges =>
    intro p k res h
    unfold Re.run at h
    split at h
    · cases h
    · rename_i b t hp
      simp only at h
      split at h
      · rename_i hc
        refine ⟨_, h, ?_⟩
        simp only [Pos.cur, Pos.advance, hp]
        exact Derives.cls neg ranges p.prev b t hc
      · cases h
  | seq a b iha ihb =>
    intro p k res h
    unfold Re.run at h
    obtain ⟨q1, hq1, hd1⟩ := iha _ _ _ h
    obtain ⟨q2, hq2, hd2⟩ := ihb _ _ _ hq1
    exact ⟨q2, hq2, Derives.seq a b _ _ _ hd1 hd2⟩
  | alt a b iha ihb =>
    intro p k res h
    unfold Re.run at h
    split at h
    · rename_i r hr
      cases h
      obtain ⟨q, hq, hd⟩ := iha _ _ _ hr
      exact ⟨q, hq, Derives.altL a b _ _ hd⟩
    · obtain ⟨q, hq, hd⟩ := ihb _ _ _ h
      exact ⟨q, hq, Derives.altR a b _ _ hd⟩
  | star greedy a iha =>
    intro p k res h
    unfold Re.run at h
    exact starLoop_sound greedy a iha _ _ _ _ h
  | group i a iha =>
    intro p k res h
    unfold Re.run at h
    obtain ⟨q, hq, hd⟩ := iha _ _ _ h
    exact ⟨_, hq, Derives.group i a _ _ hd⟩
  | bot =>
    intro p k res h
    unfold Re.run at h
    split at h
    · rename_i hn
      refine ⟨p, h, ?_⟩
      have : p.prev = none := by simpa using hn
      simp only [Pos.cur, this]
      exact Derives.bot _
    · cases h
  | eot =>
    intro p k res h
    unfold Re.run at h
    split at h
    · rename_i hn
      refine ⟨p, h, ?_⟩
      have : p.rest = [] := by simpa using hn
      simp only [Pos.cur, this]
      exact Derives.eot _
    · cases h
  | wordBoundary =>
    intro p k res h
    unfold Re.run at h
    split at h
    · rename_i hn
      exact ⟨p, h, Derives.wordBoundary _ _ hn⟩
    · cases h

theorem derives_suffix {re : Re} {c c' : Cur} (h : Derives re c c') : ∃ w, c.2 = w ++ c'.2 := by
  induction h with
  | empty c => exact ⟨[], rfl⟩
  | cls neg ranges pv b t _ => exact ⟨_, (List.take_append_drop _ _).symm⟩
  | seq a b c1 c2 c3 _ _ ih1 ih2 =>
    obtain ⟨w1, h1⟩ := ih1
    obtain ⟨w2, h2⟩ := ih2
    exact ⟨w1 ++ w2, by rw [h1, h2, List.append_assoc]⟩
  | altL a b c c' _ ih => exact ih
  | altR a b c c' _ ih => exact ih
  | starNil g a c => exact ⟨[], rfl⟩
  | starCons g a c1 c2 c3 _ _ ih1 ih2 =>
    obtain ⟨w1, h1⟩ := ih1
    obtain ⟨w2, h2⟩ := ih2
    exact ⟨w1 ++ w2, by rw [h1, h2, List.append_assoc]⟩
  | group i a c c' _ ih => exact ih
  | bot s => exact ⟨[], rfl⟩
  | eot pv => exact ⟨[], rfl⟩
  | wordBoundary pv s _ => exact ⟨[], rfl⟩

theorem search_some (re : Re) : ∀ (n : Nat) (skipped : Str) (p : Pos) (m : Match),
    re.search n skipped p = some m →
    ∃ pre pv, m.before = skipped ++ pre ∧ p.rest = pre ++ (m.text ++ m.stop.rest)
      ∧ Derives re (pv, m.text ++ m.stop.rest) m.stop.cur
      ∧ ((pre = [] ∧ pv = p.prev) ∨ (∃ x, pre.getLast? = some x ∧ pv = some x)) := by
  intro n
  induction n with
  | zero => intro _ _ _ h; cases h
  | succ n ih =>
    intro skipped p m h
    unfold Re.search at h
    split at h
    · rename_i q hq
      obtain ⟨q', hq', hd⟩ := run_sound re _ _ _ hq
      cases hq'
      cases h
      obtain ⟨w, hw⟩ := derives_suffix hd
      simp only [Pos.cur] at hw hd
      have hlen : p.rest.length - q.rest.length = w.length := by
        rw [hw, List.length_append]; omega
      have htext : p.rest.take (p.rest.length - q.rest.length) = w := by
        rw [hlen]
        conv_lhs => rw [hw]
        simp
      refine ⟨[], p.prev, by simp, ?_, ?_, Or.inl ⟨rfl, rfl⟩⟩
      · simp only [htext, List.nil_append]; exact hw
      · simp only [htext, Pos.cur]; rw [← hw]; exact hd
    · split at h
      · cases h
      · rename_i b t hbt
        obtain ⟨pre, pv, h1, h2, h3, h4⟩ := ih _ _ _ h
        have hw := decodeRune_width_pos b t
        obtain ⟨w, hw'⟩ : ∃ w, (decodeRune (b :: t)).2 = w + 1 :=
          ⟨_, (Nat.sub_add_cancel hw).symm⟩
        have htk : (b :: t).take (decodeRune (b :: t)).2 = b :: t.take w := by
          rw [hw', List.take_succ_cons]
        refine ⟨(b :: t).take (decodeRune (b :: t)).2 ++ pre, pv, ?_, ?_, h3, Or.inr ?_⟩
        · rw [h1, List.append_assoc]
        · simp only [Pos.advance, hbt] at h2
          rw [hbt, List.append_assoc, ← h2, List.take_append_drop]
        · rcases h4 with ⟨e1, e2⟩ | ⟨x, e1, e2⟩
          · subst e1
            rw [List.append_nil, e2]
            simp only [Pos.advance, hbt]
            rw [htk]
            exact ⟨(b :: t.take w).getLast (by simp), List.getLast?_eq_getLast _ _, by
              rw [List.getLast?_eq_getLast _ (by simp)]⟩
          · refine ⟨x, ?_, e2⟩
            rw [List.getLast?_append, e1]
            rfl

/-! ## The texts `rotIsValid` accepts -/

theorem derives_cls_ascii {rs : List (Nat × Nat)} {c c' : Cur}
    (h : Derives (.cls false rs) c c') (hrs : ∀ lh ∈ rs, lh.2 < 128) :
    ∃ b, c.2 = b :: c'.2 ∧ inClass false rs b = true ∧ c'.1 = some b := by
  cases h with
  | cls _ _ pv b t hc =>
    rcases decodeRune_ascii_or b t with e | e
    · rw [e] at hc ⊢
      exact ⟨b, rfl, hc, rfl⟩
    · exfalso
      simp only [inClass, Bool.false_bne, List.any_eq_true, Bool.and_eq_true,
        decide_eq_true_eq] at hc
      obtain ⟨lh, hmem, _, h2⟩ := hc
      have := hrs lh hmem
      omega

theorem derives_star {greedy : Bool} {a : Re} (P : Str → Prop)
    (ha : ∀ c1 c2, Derives a c1 c2 → ∃ w, P w ∧ c1.2 = w ++ c2.2) :
    ∀ {re : Re} {c c' : Cur}, Derives re c c' → re = .star greedy a →
      ∃ ws : List Str, (∀ w ∈ ws, P w) ∧ c.2 = ws.flatten ++ c'.2 := by
  intro re c c' h
  induction h with
  | starNil g a' c => intro _; exact ⟨[], by simp, by simp⟩
  | starCons g a' c1 c2 c3 h1 _ _ ih2 =>
    intro e
    cases e
    obtain ⟨w, hw, e1⟩ := ha _ _ h1
    obtain ⟨ws, hws, e2⟩ := ih2 rfl
    refine ⟨w :: ws, ?_, ?_⟩
    · intro x hx
      rcases List.mem_cons.1 hx with rfl | hx
      · exact hw
      · exact hws x hx
    · rw [e1, e2]; simp
  | empty c => intro e; cases e
  | cls neg ranges pv b t _ => intro e; cases e
  | seq a' b c1 c2 c3 _ _ _ _ => intro e; cases e
  | altL a' b c c' _ _ => intro e; cases e
  | altR a' b c c' _ _ => intro e; cases e
  | group i a' c c' _ _ => intro e; cases e
  | bot s => intro e; cases e
  | eot pv => intro e; cases e
  | wordBoundary pv s _ => intro e; cases e

theorem derives_plus_cls {rs : List (Nat × Nat)} {c c' : Cur}
    (h : Derives (Re.plus (.cls false rs)) c c') (hrs : ∀ lh ∈ rs, lh.2 < 128) :
    ∃ w, c.2 = w ++ c'.2 ∧ w ≠ [] ∧ ∀ b ∈ w, inClass false rs b = true := by
  unfold Re.plus at h
  cases h with
  | seq _ _ _ c2 _ h1 h2 =>
    obtain ⟨b, e1, hb, _⟩ := derives_cls_ascii h1 hrs
    obtain ⟨ws, hws, e2⟩ := derives_star (fun w => ∃ x, w = [x] ∧ inClass false rs x = true)
      (fun c1 c2 hd => by
        obtain ⟨x, e, hx, _⟩ := derives_cls_ascii hd hrs
        exact ⟨[x], ⟨x, rfl, hx⟩, e⟩) h2 rfl
    refine ⟨b :: ws.flatten, by rw [e1, e2]; rfl, by simp, ?_⟩
    intro x hx
    rcases List.mem_cons.1 hx with rfl | hx
    · exact hb
    · obtain ⟨w, hw, hxw⟩ := List.mem_flatten.1 hx
      obtain ⟨y, rfl, hy⟩ := hws w hw
      rw [List.mem_singleton] at hxw
      rw [hxw]
      exact hy

theorem derives_byte {x : Nat} {c c' : Cur} (h : Derives (Re.byte x) c c') (hx : x < 128) :
    c.2 = x :: c'.2 := by
  obtain ⟨b, e, hb, _⟩ := derives_cls_ascii h (by
    intro lh hlh
    simp only [List.mem_singleton] at hlh
    subst hlh
    exact hx)
  simp only [inClass, Bool.false_bne, List.any_cons, List.any_nil, Bool.or_false,
    Bool.and_eq_true, decide_eq_true_eq] at hb
  have : b = x := by omega
  rw [e, this]

theorem derives_bytes : ∀ (w : Str), (∀ b ∈ w, b < 128) → ∀ {c c' : Cur},
    Derives (Re.cat (w.map Re.byte)) c c' → c.2 = w ++ c'.2 := by
  intro w
  induction w with
  | nil =>
    intro _ c c' h
    simp only [List.map_nil, Re.cat] at h
    cases h
    rfl
  | cons x w ih =>
    intro hw c c' h
    have hx : x < 128 := hw x (List.mem_cons_self _ _)
    cases w with
    | nil =>
      simp only [List.map_cons, List.map_nil, Re.cat] at h
      rw [derives_byte h hx]
      rfl
    | cons y w =>
      simp only [List.map_cons, Re.cat] at h
      cases h with
      | seq _ _ _ c2 _ h1 h2 =>
        have e1 := derives_byte h1 hx
        have e2 := ih (fun b hb => hw b (List.mem_cons_of_mem _ hb))
          (by simpa only [List.map_cons] using h2)
        rw [e1, e2]
        rfl

theorem derives_word (s : String) (hs : ∀ b ∈ bytes s, b < 128) {c c' : Cur}
    (h : Derives (Re.word s) c c') : c.2 = bytes s ++ c'.2 :=
  derives_bytes (bytes s) hs h

theorem derives_any : ∀ (rs : List Re) {c c' : Cur}, Derives (Re.any rs) c c' →
    ∃ r ∈ rs, Derives r c c' := by
  intro rs
  induction rs with
  | nil =>
    intro c c' h
    simp only [Re.any] at h
    cases h with
    | cls _ _ pv b t hc => simp [inClass] at hc
  | cons r rs ih =>
    intro c c' h
    cases rs with
    | nil =>
      simp only [Re.any] at h
      exact ⟨r, List.mem_cons_self _ _, h⟩
    | cons r2 rs =>
      simp only [Re.any] at h
      cases h with
      | altL _ _ _ _ h1 => exact ⟨r, List.mem_cons_self _ _, h1⟩
      | altR _ _ _ _ h2 =>
        obtain ⟨r', hr', hd⟩ := ih h2
        exact ⟨r', List.mem_cons_of_mem _ hr', hd⟩

theorem derives_seq {a b : Re} {c c' : Cur} (h : Derives (.seq a b) c c') :
    ∃ c2, Derives a c c2 ∧ Derives b c2 c' := by
  cases h with
  | seq _ _ _ c2 _ h1 h2 => exact ⟨c2, h1, h2⟩

theorem isLocalByte_of_inClass (b : Nat)
    (h : inClass false (classRanges (bytes "a-zA-Z0-9_.+-")) b = true) : isLocalByte b = true := by
  have e : classRanges (bytes "a-zA-Z0-9_.+-")
      = [(97, 122), (65, 90), (48, 57), (95, 95), (46, 46), (43, 43), (45, 45)] := by decide
  rw [e] at h
  simp only [inClass, Bool.false_bne, List.any_cons, List.any_nil, Bool.or_false,
    Bool.or_eq_true, Bool.and_eq_true, decide_eq_true_eq] at h
  simp only [isLocalByte, inRange, Bool.or_eq_true, Bool.and_eq_true, decide_eq_true_eq,
    beq_iff_eq]
  omega

theorem isLabelByte_of_inClass (b : Nat)
    (h : inClass false (classRanges (bytes "a-zA-Z0-9-")) b = true) : isLabelByte b = true := by
  have e : classRanges (bytes "a-zA-Z0-9-") = [(97, 122), (65, 90), (48, 57), (45, 45)] := by
    decide
  rw [e] at h
  simp only [inClass, Bool.false_bne, List.any_cons, List.any_nil, Bool.or_false,
    Bool.or_eq_true, Bool.and_eq_true, decide_eq_true_eq] at h
  simp only [isLabelByte, inRange, Bool.or_eq_true, Bool.and_eq_true, decide_eq_true_eq,
    beq_iff_eq]
  omega

/-! ## Replacement, match by match -/

theorem replaceAllLoop_segments (re : Re) (f : Str → Str) (P : Str → Prop)
    (hP : ∀ c c', Derives re c c' → ∃ w, c.2 = w ++ c'.2 ∧ P w) (hne : ∀ w, P w → w ≠ []) :
    ∀ n first p, p.rest.length < n →
      ∃ segs tail, Segments re p segs tail ∧ p.rest = rebuild (fun m => m) segs tail
        ∧ re.replaceAllLoop (fun m => f m.text) n first [] p = rebuild f segs tail
        ∧ ∀ gm ∈ segs, P gm.2 := by
  intro n
  induction n with
  | zero => intro _ p h; omega
  | succ n ih =>
    intro first p hlen
    cases hs : re.search (p.rest.length + 1) [] p with
    | none =>
      refine ⟨[], p.rest, Segments.done p hs, by simp [rebuild], ?_, by simp⟩
      simp only [Re.replaceAllLoop, hs, rebuild, List.map_nil, List.flatten_nil]
    | some m =>
      obtain ⟨pre, pv, h1, h2, h3, _⟩ := search_some re _ _ _ m hs
      obtain ⟨w, e, hw⟩ := hP _ _ h3
      have ew : w = m.text := by
        have : m.text ++ m.stop.rest = w ++ m.stop.rest := e
        exact (List.append_cancel_right this).symm
      subst ew
      have hne' := hne _ hw
      have hpos : 0 < m.text.length := List.length_pos.2 hne'
      have hlt : m.stop.rest.length < p.rest.length := by
        rw [h2]; simp only [List.length_append]; omega
      obtain ⟨segs, tail, hseg, e1, e2, hall⟩ := ih false m.stop (by omega)
      refine ⟨(m.before, m.text) :: segs, tail, Segments.step p m segs tail hs hne' hseg, ?_, ?_,
        ?_⟩
      · rw [h2, h1, e1]; simp [rebuild]
      · have hemp : m.text.isEmpty = false := by
          cases hm : m.text with
          | nil => exact absurd hm hne'
          | cons _ _ => rfl
        simp only [Re.replaceAllLoop, hs, hemp, hlt, if_true, Bool.and_false, Bool.not_false,
          Bool.or_true, e2, rebuild, List.map_cons, List.flatten_cons, List.nil_append,
          List.append_assoc]
      · intro gm hgm
        rcases List.mem_cons.1 hgm with rfl | hgm
        · exact hw
        · exact hall gm hgm

/-! ## The nospam rule -/

theorem decodeRune_taken (b : Nat) (t : Str) :
    decodeRune (b :: t) = (b, 1) ∨
      (128 ≤ (decodeRune (b :: t)).1 ∧ ∀ x ∈ (b :: t).take (decodeRune (b :: t)).2, 128 ≤ x) := by
  simp only [decodeRune]
  repeat' split
  all_goals
    first
      | (left; rfl)
      | (right; simp only [inRange, Bool.and_eq_true, decide_eq_true_eq, List.take_succ_cons,
          List.take_zero, List.mem_cons, List.mem_singleton, List.not_mem_nil, or_false,
          forall_eq_or_imp, forall_eq] at *; omega)

theorem derives_filler {c c' : Cur} (h : Derives Re.underscoreOrNonWord c c') :
    ∃ w, IsFiller w ∧ c.2 = w ++ c'.2 := by
  cases h with
  | cls _ _ pv b t hc =>
    refine ⟨(b :: t).take (decodeRune (b :: t)).2, ?_, (List.take_append_drop _ _).symm⟩
    intro x hx
    rcases decodeRune_taken b t with e | ⟨_, e⟩
    · rw [e] at hc hx
      simp only [List.take_succ_cons, List.take_zero, List.mem_singleton] at hx
      subst hx
      simp only [inClass, List.any_cons, List.any_nil, Bool.or_false] at hc
      simp only [isAlnumByte, inRange]
      revert hc
      cases decide (48 ≤ x) && decide (x ≤ 57) <;> cases decide (65 ≤ x) && decide (x ≤ 90) <;>
        cases decide (97 ≤ x) && decide (x ≤ 122) <;> decide
    · have := e x hx
      simp only [isAlnumByte, inRange, Bool.or_eq_false_iff, Bool.and_eq_false_iff,
        decide_eq_false_iff_not]
      omega

theorem derives_fillers {c c' : Cur} (h : Derives (Re.many Re.underscoreOrNonWord) c c') :
    ∃ w, IsFiller w ∧ c.2 = w ++ c'.2 := by
  obtain ⟨ws, hws, e⟩ := derives_star IsFiller (fun _ _ hd => derives_filler hd) h rfl
  refine ⟨ws.flatten, ?_, e⟩
  intro x hx
  obtain ⟨w, hw, hxw⟩ := List.mem_flatten.1 hx
  exact hws w hw x hxw

theorem derives_nospam {c c' : Cur} (h : Derives nospamRegex c c') :
    ∃ w, c.2 = w ++ c'.2 ∧ NospamToken w := by
  simp only [nospamRegex, Re.cat] at h
  obtain ⟨c1, d0, h⟩ := derives_seq h
  obtain ⟨c2, d1, h⟩ := derives_seq h
  obtain ⟨c3, d2, h⟩ := derives_seq h
  obtain ⟨c4, d3, h⟩ := derives_seq h
  obtain ⟨c5, d4, h⟩ := derives_seq h
  obtain ⟨c6, d5, h⟩ := derives_seq h
  obtain ⟨c7, d6, h⟩ := derives_seq h
  obtain ⟨c8, d7, h⟩ := derives_seq h
  obtain ⟨c9, d8, h⟩ := derives_seq h
  obtain ⟨c10, d9, h⟩ := derives_seq h
  obtain ⟨c11, d10, h⟩ := derives_seq h
  obtain ⟨c12, d11, d12⟩ := derives_seq h
  obtain ⟨u0, f0, e0⟩ := derives_fillers d0
  have e1 := derives_word "n" (by decide) d1
  obtain ⟨u1, f1, e2⟩ := derives_fillers d2
  have e3 : ∃ o, c3.2 = o :: c4.2 ∧ (o = 111 ∨ o = 48) := by
    cases d3 with
    | group _ _ _ _ h' =>
      obtain ⟨r, hr, hd⟩ := derives_any _ h'
      simp only [List.mem_cons, List.mem_singleton, List.not_mem_nil, or_false] at hr
      rcases hr with rfl | rfl
      · exact ⟨111, derives_word "o" (by decide) hd, Or.inl rfl⟩
      · exact ⟨48, derives_word "0" (by decide) hd, Or.inr rfl⟩
  obtain ⟨o, e3, ho⟩ := e3
  obtain ⟨u2, f2, e4⟩ := derives_fillers d4
  have e5 : ∃ s, c5.2 = s :: c6.2 ∧ (s = 115 ∨ s = 53) := by
    cases d5 with
    | group _ _ _ _ h' =>
      obtain ⟨r, hr, hd⟩ := derives_any _ h'
      simp only [List.mem_cons, List.mem_singleton, List.not_mem_nil, or_false] at hr
      rcases hr with rfl | rfl
      · exact ⟨115, derives_word "s" (by decide) hd, Or.inl rfl⟩
      · exact ⟨53, derives_word "5" (by decide) hd, Or.inr rfl⟩
  obtain ⟨s, e5, hs⟩ := e5
  obtain ⟨u3, f3, e6⟩ := derives_fillers d6
  have e7 := derives_word "p" (by decide) d7
  obtain ⟨u4, f4, e8⟩ := derives_fillers d8
  have e9 := derives_word "a" (by decide) d9
  obtain ⟨u5, f5, e10⟩ := derives_fillers d10
  have e11 := derives_word "m" (by decide) d11
  obtain ⟨u6, f6, e12⟩ := derives_fillers d12
  refine ⟨u0 ++ 110 :: (u1 ++ o :: (u2 ++ s :: (u3 ++ 112 :: (u4 ++ 97 :: (u5 ++ 109 :: u6))))),
    ?_, u0, u1, u2, u3, u4, u5, u6, o, s, rfl, ho, hs, f0, f1, f2, f3, f4, f5, f6⟩
  rw [e0, e1, e2, e3, e4, e5, e6, e7, e8, e9, e10, e11, e12]
  simp [bytes, encodeRune]

theorem nospamToken_ne_nil (w : Str) (h : NospamToken w) : w ≠ [] := by
  obtain ⟨u0, u1, u2, u3, u4, u5, u6, o, s, rfl, _⟩ := h
  simp

/-! ## The escapes `decodeUnicodeEscape` replaces -/

theorem hexClass_eq : classRanges (bytes "0-9a-fA-F") = [(48, 57), (97, 102), (65, 70)] := by
  decide

theorem isHexDigit_iff (c : Nat) :
    isHexDigit c = true ↔ inClass false (classRanges (bytes "0-9a-fA-F")) c = true := by
  rw [hexClass_eq]
  simp only [isHexDigit, fromHexChar, inClass, Bool.false_bne, List.any_cons, List.any_nil,
    Bool.or_false, Bool.or_eq_true, Bool.and_eq_true, decide_eq_true_eq]
  repeat' split
  all_goals simp only [Option.isSome_some, Option.isSome_none, true_iff, false_iff]
  all_goals first | omega | simp
  all_goals omega

theorem isHexDigit_lt (c : Nat) (h : isHexDigit c = true) : c < 128 := by
  simp only [isHexDigit, fromHexChar] at h
  repeat' split at h
  all_goals first | omega | simp at h

theorem escapeBytes_length (e : Str) (h : IsEscape e) : (escapeBytes e).length = 2 := by
  obtain ⟨a, b, c, d, rfl, ha, hb, hc, hd⟩ := h
  simp only [isHexDigit, Option.isSome_iff_exists] at ha hb hc hd
  obtain ⟨va, ha⟩ := ha
  obtain ⟨vb, hb⟩ := hb
  obtain ⟨vc, hc⟩ := hc
  obtain ⟨vd, hd⟩ := hd
  simp [escapeBytes, hexDecodeString, ha, hb, hc, hd]

theorem derives_escape {c c' : Cur} (h : Derives unicodeEscapePattern c c') :
    ∃ w, c.2 = w ++ c'.2 ∧ IsEscape w := by
  simp only [unicodeEscapePattern, Re.cat] at h
  obtain ⟨c1, d0, h⟩ := derives_seq h
  obtain ⟨c2, d1, h⟩ := derives_seq h
  obtain ⟨c3, d2, h⟩ := derives_seq h
  obtain ⟨c4, d3, h⟩ := derives_seq h
  obtain ⟨c5, d4, d5⟩ := derives_seq h
  have hr : ∀ lh ∈ classRanges (bytes "0-9a-fA-F"), lh.2 < 128 := by decide
  have e0 := derives_byte d0 (by decide)
  have e1 := derives_byte d1 (by decide)
  obtain ⟨x2, e2, h2, _⟩ := derives_cls_ascii d2 hr
  obtain ⟨x3, e3, h3, _⟩ := derives_cls_ascii d3 hr
  obtain ⟨x4, e4, h4, _⟩ := derives_cls_ascii d4 hr
  obtain ⟨x5, e5, h5, _⟩ := derives_cls_ascii d5 hr
  refine ⟨[92, 117, x2, x3, x4, x5], ?_, x2, x3, x4, x5, rfl, (isHexDigit_iff _).2 h2,
    (isHexDigit_iff _).2 h3, (isHexDigit_iff _).2 h4, (isHexDigit_iff _).2 h5⟩
  rw [e0, e1, e2, e3, e4, e5]
  rfl

theorem run_cls_ascii (rs : List (Nat × Nat)) (pv : Option Nat) (b : Nat) (t : Str)
    (cs : List (Nat × Str)) (k : Pos → Option Pos) (hb : b < 128)
    (h : inClass false rs b = true) :
    (Re.cls false rs).run ⟨pv, b :: t, cs⟩ k = k ⟨some b, t, cs⟩ := by
  simp only [Re.run, decodeRune_ascii b t hb, h, if_true, Pos.advance, List.take_succ_cons,
    List.take_zero, List.getLast?_singleton, List.drop_succ_cons, List.drop_zero]

theorem run_cls_seq (rs : List (Nat × Nat)) (re : Re) (pv : Option Nat) (b : Nat) (t : Str)
    (cs : List (Nat × Str)) (k : Pos → Option Pos) (hb : b < 128)
    (h : inClass false rs b = true) :
    (Re.seq (.cls false rs) re).run ⟨pv, b :: t, cs⟩ k = re.run ⟨some b, t, cs⟩ k := by
  rw [Re.run, run_cls_ascii rs pv b t cs _ hb h]

theorem run_escape (pv : Option Nat) (a b c d : Nat) (r : Str) (cs : List (Nat × Str))
    (ha : isHexDigit a = true) (hb : isHexDigit b = true) (hc : isHexDigit c = true)
    (hd : isHexDigit d = true) :
    unicodeEscapePattern.run ⟨pv, 92 :: 117 :: a :: b :: c :: d :: r, cs⟩ some
      = some ⟨some d, r, cs⟩ := by
  simp only [unicodeEscapePattern, Re.cat, Re.byte, Re.set]
  rw [run_cls_seq _ _ _ _ _ _ _ (by decide) (by decide),
    run_cls_seq _ _ _ _ _ _ _ (by decide) (by decide),
    run_cls_seq _ _ _ _ _ _ _ (isHexDigit_lt a ha) ((isHexDigit_iff a).1 ha),
    run_cls_seq _ _ _ _ _ _ _ (isHexDigit_lt b hb) ((isHexDigit_iff b).1 hb),
    run_cls_seq _ _ _ _ _ _ _ (isHexDigit_lt c hc) ((isHexDigit_iff c).1 hc),
    run_cls_ascii _ _ _ _ _ _ (isHexDigit_lt d hd) ((isHexDigit_iff d).1 hd)]

theorem run_escape_none (pv : Option Nat) (b : Nat) (t : Str) (cs : List (Nat × Str))
    (k : Pos → Option Pos) (hb : b ≠ 92) :
    unicodeEscapePattern.run ⟨pv, b :: t, cs⟩ k = none := by
  simp only [unicodeEscapePattern, Re.cat, Re.run, Re.byte]
  have : inClass false [(92, 92)] (decodeRune (b :: t)).1 = false := by
    rcases decodeRune_ascii_or b t with e | e
    · rw [e]
      simp only [inClass, Bool.false_bne, List.any_cons, List.any_nil, Bool.or_false,
        Bool.and_eq_false_iff, decide_eq_false_iff_not]
      omega
    · simp only [inClass, Bool.false_bne, List.any_cons, List.any_nil, Bool.or_false,
        Bool.and_eq_false_iff, decide_eq_false_iff_not]
      omega
  rw [this]
  rfl

theorem decodeRune_width_le (b : Nat) (t x : Str) (y : Nat) (hy : y < 128) :
    (decodeRune (b :: (t ++ y :: x))).2 ≤ (b :: t).length := by
  rcases decodeRune_taken b (t ++ y :: x) with e | ⟨_, e⟩
  · rw [e]; simp
  · by_contra hlt
    have hmem : y ∈ (b :: (t ++ y :: x)).take (decodeRune (b :: (t ++ y :: x))).2 := by
      have e1 : b :: (t ++ y :: x) = (b :: t) ++ y :: x := rfl
      rw [e1, List.take_append_eq_append_take]
      apply List.mem_append_right
      have : ∃ j, (decodeRune ((b :: t) ++ y :: x)).2 - (b :: t).length = j + 1 :=
        ⟨(decodeRune ((b :: t) ++ y :: x)).2 - (b :: t).length - 1, by
          rw [← e1]; omega⟩
      obtain ⟨j, hj⟩ := this
      rw [hj]
      simp
    have := e y hmem
    omega

theorem search_escape : ∀ (j : Nat) (g : Str), g.length ≤ j → 92 ∉ g →
    ∀ (n : Nat) (skipped : Str) (pv : Option Nat) (cs : List (Nat × Str)) (e r : Str),
      IsEscape e → (g ++ (e ++ r)).length < n →
      ∃ d, unicodeEscapePattern.search n skipped ⟨pv, g ++ (e ++ r), cs⟩
        = some ⟨skipped ++ g, e, ⟨some d, r, []⟩⟩ := by
  intro j
  induction j with
  | zero =>
    intro g hg _ n skipped pv cs e r he hn
    have : g = [] := List.length_eq_zero.1 (by omega)
    subst this
    obtain ⟨a, b, c, d, rfl, ha, hb, hc, hd⟩ := he
    cases n with
    | zero => omega
    | succ n =>
      refine ⟨d, ?_⟩
      simp only [Re.search, List.nil_append, List.cons_append, run_escape pv a b c d r [] ha hb hc hd,
        List.append_nil, List.length_cons]
      have : r.length + 1 + 1 + 1 + 1 + 1 + 1 - r.length = 6 := by omega
      rw [this]
      rfl
  | succ j ih =>
    intro g hg h92 n skipped pv cs e r he hn
    cases g with
    | nil => exact ih [] (Nat.zero_le _) h92 n skipped pv cs e r he hn
    | cons b t =>
      cases n with
      | zero => omega
      | succ n =>
        have hb : b ≠ 92 := fun hb => h92 (hb ▸ List.mem_cons_self _ _)
        obtain ⟨a1, b1, c1, d1, rfl, ha, hb1, hc, hd⟩ := he
        have hw := decodeRune_width_le b t (117 :: a1 :: b1 :: c1 :: d1 :: r) 92 (by decide)
        have hpos := decodeRune_width_pos b (t ++ 92 :: 117 :: a1 :: b1 :: c1 :: d1 :: r)
        have e1 : b :: t ++ ([92, 117, a1, b1, c1, d1] ++ r)
            = b :: (t ++ 92 :: 117 :: a1 :: b1 :: c1 :: d1 :: r) := rfl
        have e2 : b :: (t ++ 92 :: 117 :: a1 :: b1 :: c1 :: d1 :: r)
            = (b :: t) ++ ([92, 117, a1, b1, c1, d1] ++ r) := rfl
        rw [e2] at hw hpos
        rw [e1]
        simp only [Re.search, run_escape_none pv b _ [] some hb, Pos.advance]
        rw [e2, List.take_append_of_le_length hw, List.drop_append_of_le_length hw]
        obtain ⟨d, hd'⟩ := ih ((b :: t).drop (decodeRune ((b :: t) ++ ([92, 117, a1, b1, c1, d1] ++ r))).2)
          (by
            rw [List.length_drop]
            simp only [List.length_cons] at hg hw ⊢
            omega)
          (fun hm => h92 (List.mem_of_mem_drop hm)) n
          (skipped ++ (b :: t).take (decodeRune ((b :: t) ++ ([92, 117, a1, b1, c1, d1] ++ r))).2)
          (((b :: t).take (decodeRune ((b :: t) ++ ([92, 117, a1, b1, c1, d1] ++ r))).2).getLast?)
          cs [92, 117, a1, b1, c1, d1] r ⟨a1, b1, c1, d1, rfl, ha, hb1, hc, hd⟩
          (by
            simp only [List.length_append, List.length_drop, List.length_cons] at hn hw ⊢
            omega)
        refine ⟨d, ?_⟩
        rw [hd', List.append_assoc, List.take_append_drop]

theorem replaceAllLoop_escapes (f : Str → Str) : ∀ (segs : List (Str × Str)) (tail : Str),
    (∀ gm ∈ segs, 92 ∉ gm.1 ∧ IsEscape gm.2) → 92 ∉ tail →
    ∀ (n : Nat) (first : Bool) (pv : Option Nat) (cs : List (Nat × Str)),
      (rebuild (fun m => m) segs tail).length < n →
      unicodeEscapePattern.replaceAllLoop (fun m => f m.text) n first []
        ⟨pv, rebuild (fun m => m) segs tail, cs⟩ = rebuild f segs tail := by
  intro segs
  induction segs with
  | nil =>
    intro tail _ ht n first pv cs _
    have hs : unicodeEscapePattern.search
        ((Pos.mk pv (rebuild (fun m => m) [] tail) cs).rest.length + 1) []
        ⟨pv, rebuild (fun m => m) [] tail, cs⟩ = none := by
      apply search_none (fun r => r == 92) unicodeEscapePattern (by decide)
      intro r hr
      simp only [rebuild, List.map_nil, List.flatten_nil, List.nil_append] at hr
      by_contra hne
      simp only [Bool.not_eq_false, beq_iff_eq] at hne
      subst hne
      exact ht (mem_of_mem_runes _ tail (Nat.le_refl _) 92 hr (by decide))
    rw [replaceAllLoop_of_search_none _ _ _ _ _ _ hs]
    simp [rebuild]
  | cons gm segs ih =>
    intro tail hsegs ht n first pv cs hn
    obtain ⟨hg, he⟩ := hsegs gm (List.mem_cons_self _ _)
    have er : rebuild (fun m => m) (gm :: segs) tail
        = gm.1 ++ (gm.2 ++ rebuild (fun m => m) segs tail) := by
      simp [rebuild]
    rw [er] at hn ⊢
    obtain ⟨d, hs⟩ := search_escape gm.1.length gm.1 (Nat.le_refl _) hg
      ((gm.1 ++ (gm.2 ++ rebuild (fun m => m) segs tail)).length + 1) [] pv cs gm.2
      (rebuild (fun m => m) segs tail) he (Nat.lt_succ_self _)
    have hne : gm.2.isEmpty = false := by
      obtain ⟨a, b, c, d, e, _⟩ := he
      rw [e]; rfl
    have hlen : 0 < gm.2.length := by
      obtain ⟨a, b, c, d, e, _⟩ := he
      rw [e]; simp
    cases n with
    | zero => omega
    | succ n =>
      have hlt : (rebuild (fun m => m) segs tail).length
          < (gm.1 ++ (gm.2 ++ rebuild (fun m => m) segs tail)).length := by
        simp only [List.length_append]; omega
      simp only [Re.replaceAllLoop, hs, hne, hlt, if_true, Bool.and_false, Bool.not_false,
        Bool.or_true, List.nil_append]
      rw [ih tail (fun x hx => hsegs x (List.mem_cons_of_mem _ hx)) ht n false (some d) []
        (by simp only [List.length_append] at hn; omega)]
      simp [rebuild]

/-- What `decodeUnicodeEscape` does with every escape: it puts the two bytes that
`hex.DecodeString` reads from the four digits, and leaves the other text as it is. -/
theorem decodeUnicodeEscape_escapes (segs : List (Str × Str)) (tail : Str)
    (hsegs : ∀ gm ∈ segs, 92 ∉ gm.1 ∧ IsEscape gm.2) (htail : 92 ∉ tail) :
    decodeUnicodeEscape (rebuild (fun m => m) segs tail) = rebuild escapeBytes segs tail
      ∧ (∀ gm ∈ segs, (escapeBytes gm.2).length = 2)
      ∧ (decodeUnicodeEscape (rebuild (fun m => m) segs tail)).length + 4 * segs.length
          = (rebuild (fun m => m) segs tail).length
      ∧ (∀ text : Str, ∃ found rest,
          Segments unicodeEscapePattern (Pos.start text) found rest
            ∧ text = rebuild (fun m => m) found rest
            ∧ decodeUnicodeEscape text = rebuild escapeBytes found rest
            ∧ ∀ gm ∈ found, IsEscape gm.2 ∧ (escapeBytes gm.2).length = 2) := by
  have h1 : decodeUnicodeEscape (rebuild (fun m => m) segs tail) = rebuild escapeBytes segs tail :=
    replaceAllLoop_escapes escapeBytes segs tail hsegs htail _ true none [] (Nat.lt_succ_self _)
  refine ⟨h1, fun gm hgm => escapeBytes_length gm.2 (hsegs gm hgm).2, ?_, ?_⟩
  swap
  · intro text
    exact replaceAllLoop_segments unicodeEscapePattern escapeBytes
      (fun w => IsEscape w ∧ (escapeBytes w).length = 2)
      (fun _ _ h => by
        obtain ⟨w, e, hw⟩ := derives_escape h
        exact ⟨w, e, hw, escapeBytes_length w hw⟩)
      (fun w hw => by
        obtain ⟨a, b, c, d, e, _⟩ := hw.1
        rw [e]; simp)
      (text.length + 1) true (Pos.start text) (Nat.lt_succ_self _)
  rw [h1]
  clear h1
  induction segs with
  | nil => simp [rebuild]
  | cons gm segs ih =>
    have ih' := ih (fun x hx => hsegs x (List.mem_cons_of_mem _ hx))
    have h2 := escapeBytes_length gm.2 (hsegs gm (List.mem_cons_self _ _)).2
    obtain ⟨a, b, c, d, e, _⟩ := (hsegs gm (List.mem_cons_self _ _)).2
    simp only [rebuild, List.map_cons, List.flatten_cons, List.length_append, List.length_cons,
      e, List.length_nil] at ih' h2 ⊢
    omega

/-- C14 (the code at the failing input): the escape with the digits 0041 is replaced by the
two bytes 00 41, not by the letter `A`; in the page text `us`, escape 0065, `r@example.com`
the escape for the letter `e` becomes 00 65, and the address extracted from that text is
`er@example.com`. -/
theorem decodeUnicodeEscape_nul (L : Stdlib) :
    decodeUnicodeEscape (bytes "\\u0041") = [0, 65]
      ∧ (decodeUnicodeEscape (bytes "\\u0041")).length ≠ 1
      ∧ decodeUnicodeEscape (bytes "us\\u0065r@example.com")
        = bytes "us" ++ [0, 101] ++ bytes "r@example.com"
      ∧ extractEmails L (bytes "us\\u0065r@example.com") = [bytes "er@example.com"] := by
  rw [extractEmails_plain L _ (by decide!)]
  decide!

/-! ## The matcher finds every match -/

theorem derives_same {re : Re} {c c' : Cur} (h : Derives re c c') :
    c.2.length ≤ c'.2.length → c' = c := by
  induction h with
  | empty c => intro _; rfl
  | cls neg ranges pv b t _ =>
    intro hl
    have := decodeRune_width_pos b t
    simp only [List.length_drop, List.length_cons] at hl
    omega
  | seq a b c1 c2 c3 h1 h2 ih1 ih2 =>
    intro hl
    obtain ⟨w1, e1⟩ := derives_suffix h1
    obtain ⟨w2, e2⟩ := derives_suffix h2
    have l1 : c2.2.length ≤ c1.2.length := by rw [e1]; simp
    have l2 : c3.2.length ≤ c2.2.length := by rw [e2]; simp
    have := ih2 (by omega)
    subst this
    exact ih1 (by omega)
  | altL a b c c' _ ih => exact ih
  | altR a b c c' _ ih => exact ih
  | starNil g a c => intro _; rfl
  | starCons g a c1 c2 c3 h1 h2 ih1 ih2 =>
    intro hl
    obtain ⟨w1, e1⟩ := derives_suffix h1
    obtain ⟨w2, e2⟩ := derives_suffix h2
    have l1 : c2.2.length ≤ c1.2.length := by rw [e1]; simp
    have l2 : c3.2.length ≤ c2.2.length := by rw [e2]; simp
    have := ih2 (by omega)
    subst this
    exact ih1 (by omega)
  | group i a c c' _ ih => exact ih
  | bot s => intro _; rfl
  | eot pv => intro _; rfl
  | wordBoundary pv s _ => intro _; rfl

theorem starLoop_none (m : Pos → (Pos → Option Pos) → Option Pos) (greedy : Bool) (n : Nat)
    (p : Pos) (k : Pos → Option Pos) (h : starLoop m greedy n p k = none) : k p = none := by
  cases n with
  | zero => exact h
  | succ n =>
    unfold starLoop at h
    split at h
    · split at h
      · cases h
      · exact h
    · split at h
      · cases h
      · rename_i hk; exact hk

theorem starLoop_none_step (m : Pos → (Pos → Option Pos) → Option Pos) (greedy : Bool) (n : Nat)
    (p : Pos) (k : Pos → Option Pos) (h : starLoop m greedy (n + 1) p k = none) :
    m p (fun q => if q.rest.length < p.rest.length then starLoop m greedy n q k else none)
      = none := by
  unfold starLoop at h
  split at h
  · split at h
    · cases h
    · rename_i hm; exact hm
  · split at h
    · cases h
    · exact h

theorem starLoop_complete (greedy : Bool) (a : Re) (ha : Complete a a.run) :
    ∀ {re : Re} {c c' : Cur}, Derives re c c' → re = .star greedy a →
      ∀ (n : Nat) (p : Pos) (k : Pos → Option Pos), p.cur = c → p.rest.length ≤ n →
        starLoop a.run greedy n p k = none → ∃ q : Pos, q.cur = c' ∧ k q = none := by
  intro re c c' h
  induction h with
  | starNil g a' c =>
    intro _ n p k hc _ hs
    exact ⟨p, hc, starLoop_none _ _ _ _ _ hs⟩
  | starCons g a' c1 c2 c3 h1 h2 _ ih2 =>
    intro e n p k hc hn hs
    cases e
    by_cases hprog : c2.2.length < c1.2.length
    · have hp1 : c1.2 = p.rest := by rw [← hc]; rfl
      cases n with
      | zero => rw [hp1] at hprog; omega
      | succ n =>
        have hm := starLoop_none_step _ _ _ _ _ hs
        obtain ⟨q, hq, hk⟩ := ha _ _ hm c2 (hc ▸ h1)
        have hq2 : q.rest = c2.2 := by rw [← hq]; rfl
        rw [if_pos (by rw [hq2, ← hp1]; exact hprog)] at hk
        exact ih2 rfl n q k hq (by rw [hq2]; rw [hp1] at hprog; omega) hk
    · have := derives_same h1 (by omega)
      subst this
      exact ih2 rfl n p k hc hn hs
  | empty c => intro e; cases e
  | cls neg ranges pv b t _ => intro e; cases e
  | seq a' b c1 c2 c3 _ _ _ _ => intro e; cases e
  | altL a' b c c' _ _ => intro e; cases e
  | altR a' b c c' _ _ => intro e; cases e
  | group i a' c c' _ _ => intro e; cases e
  | bot s => intro e; cases e
  | eot pv => intro e; cases e
  | wordBoundary pv s _ => intro e; cases e

theorem run_complete : ∀ re : Re, Complete re re.run := by
  intro re
  induction re with
  | empty =>
    intro p k h c' hd
    cases hd
    exact ⟨p, rfl, h⟩
  | cls neg ranges =>
    intro p k h c' hd
    generalize hc : p.cur = c at hd
    cases hd with
    | cls _ _ pv b t hin =>
      have hr : p.rest = b :: t := congrArg Prod.snd hc
      unfold Re.run at h
      rw [hr] at h
      simp only [hin, if_true] at h
      refine ⟨_, ?_, h⟩
      simp only [Pos.cur, Pos.advance, hr]
  | seq a b iha ihb =>
    intro p k h c' hd
    generalize hc : p.cur = c at hd
    cases hd with
    | seq _ _ _ c2 _ h1 h2 =>
      unfold Re.run at h
      obtain ⟨q, hq, hk⟩ := iha _ _ h c2 (hc ▸ h1)
      exact ihb _ _ hk c' (hq ▸ h2)
  | alt a b iha ihb =>
    intro p k h c' hd
    generalize hc : p.cur = c at hd
    have h2 : a.run p k = none ∧ b.run p k = none := by
      unfold Re.run at h
      split at h
      · cases h
      · rename_i ha; exact ⟨ha, h⟩
    cases hd with
    | altL _ _ _ _ h1 => exact iha _ _ h2.1 c' (hc ▸ h1)
    | altR _ _ _ _ h1 => exact ihb _ _ h2.2 c' (hc ▸ h1)
  | star greedy a iha =>
    intro p k h c' hd
    unfold Re.run at h
    exact starLoop_complete greedy a iha hd rfl _ p k rfl (le_refl _) h
  | group i a iha =>
    intro p k h c' hd
    generalize hc : p.cur = c at hd
    cases hd with
    | group _ _ _ _ h1 =>
      unfold Re.run at h
      obtain ⟨q, hq, hk⟩ := iha _ _ h c' (hc ▸ h1)
      exact ⟨⟨q.prev, q.rest, (i, p.rest.take (p.rest.length - q.rest.length)) :: q.caps⟩,
        hq, hk⟩
  | bot =>
    intro p k h c' hd
    generalize hc : p.cur = c at hd
    cases hd with
    | bot s =>
      have hp : p.prev = none := congrArg Prod.fst hc
      unfold Re.run at h
      simp only [hp, Option.isNone_none, if_true] at h
      exact ⟨p, hc, h⟩
  | eot =>
    intro p k h c' hd
    generalize hc : p.cur = c at hd
    cases hd with
    | eot pv =>
      have hp : p.rest = [] := congrArg Prod.snd hc
      unfold Re.run at h
      simp only [hp, List.isEmpty_nil, if_true] at h
      exact ⟨p, hc, h⟩
  | wordBoundary =>
    intro p k h c' hd
    generalize hc : p.cur = c at hd
    cases hd with
    | wordBoundary pv s hw =>
      have hp : p.prev = pv := congrArg Prod.fst hc
      have hr : p.rest = s := congrArg Prod.snd hc
      unfold Re.run at h
      simp only [hp, hr, hw, if_true] at h
      exact ⟨p, hc, h⟩

/-- A matcher run with the continuation `some` fails only where the expression has no match. -/
theorem run_none_iff (re : Re) (p : Pos) :
    re.run p some = none ↔ ∀ c', ¬ Derives re p.cur c' := by
  constructor
  · intro h c' hd
    obtain ⟨q, _, hq⟩ := run_complete re p some h c' hd
    cases hq
  · intro h
    cases hr : re.run p some with
    | none => rfl
    | some res =>
      obtain ⟨q, _, hd⟩ := run_sound re p some res hr
      exact absurd hd (h _)

theorem search_here (re : Re) (n : Nat) (skipped : Str) (p : Pos) (c' : Cur)
    (h : Derives re p.cur c') :
    ∃ q, re.search (n + 1) skipped p
      = some ⟨skipped, p.rest.take (p.rest.length - q.rest.length), q⟩ := by
  cases hr : re.run ⟨p.prev, p.rest, []⟩ some with
  | none => exact absurd h ((run_none_iff re ⟨p.prev, p.rest, []⟩).1 hr c')
  | some q => exact ⟨q, by simp only [Re.search, hr]⟩

theorem matchString_of_derives (re : Re) (s : Str) (c' : Cur) (h : Derives re (none, s) c') :
    re.matchString s = true := by
  obtain ⟨q, hq⟩ := search_here re s.length [] (Pos.start s) c' h
  simp only [Re.matchString, hq, Option.isSome_some]

/-- The match a search returns is the leftmost: the expression has no match at any place the
search tried before. -/
theorem search_leftmost (re : Re) : ∀ (n : Nat) (skipped : Str) (p : Pos) (m : Match),
    re.search n skipped p = some m →
    ∃ pre, m.before = skipped ++ pre ∧
      ∀ g c, Visits p.cur g c → g.length < pre.length → ∀ c', ¬ Derives re c c' := by
  intro n
  induction n with
  | zero => intro _ _ _ h; cases h
  | succ n ih =>
    intro skipped p m h
    unfold Re.search at h
    split at h
    · cases h
      exact ⟨[], by simp, fun g c _ hl => by simp at hl⟩
    · rename_i hnone
      split at h
      · cases h
      · rename_i b t hbt
        obtain ⟨pre, h1, h2⟩ := ih _ _ _ h
        refine ⟨(b :: t).take (decodeRune (b :: t)).2 ++ pre, by rw [h1, List.append_assoc], ?_⟩
        intro g c hv hl c' hd
        generalize hc : p.cur = c0 at hv
        cases hv with
        | here _ =>
          subst hc
          exact (run_none_iff re ⟨p.prev, p.rest, []⟩).1 hnone c' hd
        | next pv b' t' g' _ hv' =>
          have hr : p.rest = b' :: t' := congrArg Prod.snd hc
          rw [hbt] at hr
          cases hr
          refine h2 g' c ?_ ?_ c' hd
          · simpa only [Pos.cur, Pos.advance, hbt] using hv'
          · simp only [List.length_append] at hl
            omega

/-- A search that finds nothing: the expression has no match at any place of the text. -/
theorem search_none_visits (re : Re) : ∀ (n : Nat) (skipped : Str) (p : Pos),
    p.rest.length < n → re.search n skipped p = none →
    ∀ g c, Visits p.cur g c → ∀ c', ¬ Derives re c c' := by
  intro n
  induction n with
  | zero => intro _ p h; omega
  | succ n ih =>
    intro skipped p hn h g c hv c' hd
    unfold Re.search at h
    split at h
    · cases h
    · rename_i hnone
      generalize hc : p.cur = c0 at hv
      cases hv with
      | here _ =>
        subst hc
        exact (run_none_iff re ⟨p.prev, p.rest, []⟩).1 hnone c' hd
      | next pv b' t' g' _ hv' =>
        have hr : p.rest = b' :: t' := congrArg Prod.snd hc
        simp only [hr] at h
        have hw := decodeRune_width_pos b' t'
        refine ih _ (p.advance (decodeRune (b' :: t')).2) ?_ h g' c ?_ c' hd
        · simp only [Pos.advance, hr, List.length_drop, List.length_cons] at hn ⊢
          omega
        · simpa only [Pos.cur, Pos.advance, hr] using hv'

theorem starLoop_some_ne_none (m : Pos → (Pos → Option Pos) → Option Pos) (greedy : Bool)
    (n : Nat) (p : Pos) : starLoop m greedy n p some ≠ none := by
  intro h
  have := starLoop_none m greedy n p some h
  cases this

theorem run_cls_nil (neg : Bool) (rs : List (Nat × Nat)) (p : Pos) (k : Pos → Option Pos)
    (hr : p.rest = []) : (Re.cls neg rs).run p k = none := by
  simp only [Re.run, hr]

theorem run_cls_of_mem (neg : Bool) (rs : List (Nat × Nat)) (p : Pos) (k : Pos → Option Pos)
    (b : Nat) (t : Str) (hr : p.rest = b :: t)
    (hc : inClass neg rs (decodeRune (b :: t)).1 = true) :
    (Re.cls neg rs).run p k = k (p.advance (decodeRune (b :: t)).2) := by
  simp only [Re.run, hr, hc, if_true]

theorem run_cls_of_not_mem (neg : Bool) (rs : List (Nat × Nat)) (p : Pos)
    (k : Pos → Option Pos) (b : Nat) (t : Str) (hr : p.rest = b :: t)
    (hc : inClass neg rs (decodeRune (b :: t)).1 = false) :
    (Re.cls neg rs).run p k = none := by
  simp only [Re.run, hr, hc, Bool.false_eq_true, if_false]

/-- A greedy repetition of a class that nothing follows takes all it can: it stops at the end
of the text or before a code point outside the class. -/
theorem starLoop_greedy_max (neg : Bool) (rs : List (Nat × Nat)) : ∀ (n : Nat) (p res : Pos),
    p.rest.length ≤ n → starLoop (Re.cls neg rs).run true n p some = some res →
    res.rest = [] ∨ ∃ b t, res.rest = b :: t ∧ inClass neg rs (decodeRune (b :: t)).1 = false := by
  intro n
  induction n with
  | zero =>
    intro p res hn h
    simp only [starLoop, Option.some.injEq] at h
    subst h
    exact Or.inl (List.length_eq_zero.1 (by omega))
  | succ n ih =>
    intro p res hn h
    unfold starLoop at h
    simp only [if_true] at h
    cases hr : p.rest with
    | nil =>
      rw [run_cls_nil neg rs p _ hr] at h
      cases h
      exact Or.inl hr
    | cons b t =>
      have hw := decodeRune_width_pos b t
      by_cases hc : inClass neg rs (decodeRune (b :: t)).1 = true
      · have hlt : (p.advance (decodeRune (b :: t)).2).rest.length < p.rest.length := by
          simp only [Pos.advance, hr, List.length_drop, List.length_cons]
          omega
        rw [run_cls_of_mem neg rs p _ b t hr hc, if_pos hlt] at h
        cases hs : starLoop (Re.cls neg rs).run true n (p.advance (decodeRune (b :: t)).2) some with
        | none => exact absurd hs (starLoop_some_ne_none _ _ _ _)
        | some r =>
          rw [hs] at h
          cases h
          exact ih _ _ (by omega) hs
      · rw [run_cls_of_not_mem neg rs p _ b t hr (by simpa using hc)] at h
        cases h
        exact Or.inr ⟨b, t, hr, by simpa using hc⟩

/-! ## The texts `rotIsValid` accepts -/

theorem decodeRune_take (b : Nat) (t : Str) :
    decodeRune ((b :: t).take (decodeRune (b :: t)).2) = decodeRune (b :: t)
      ∧ ((b :: t).take (decodeRune (b :: t)).2).length = (decodeRune (b :: t)).2 := by
  by_cases h1 : b < 0x80
  · simp [decodeRune, h1]
  by_cases h2 : b < 0xC2
  · simp [decodeRune, h1, h2]
  by_cases h3 : b < 0xE0
  · cases t with
    | nil => simp [decodeRune, h1, h2, h3]
    | cons b1 t =>
      by_cases c1 : inRange 0x80 0xBF b1 = true
      · simp [decodeRune, h1, h2, h3, c1]
      · simp [decodeRune, h1, h2, h3, c1]
  by_cases h4 : b < 0xF0
  · rcases t with _ | ⟨b1, _ | ⟨b2, t⟩⟩
    · simp [decodeRune, h1, h2, h3, h4]
    · simp [decodeRune, h1, h2, h3, h4]
    · by_cases c1 : (inRange (if b = 0xE0 then 0xA0 else 0x80) (if b = 0xED then 0x9F else 0xBF) b1
          && inRange 0x80 0xBF b2) = true
      · simp only [decodeRune, h1, h2, h3, h4, c1, if_true, if_false, List.take_succ_cons,
          List.take_zero, List.length_cons, List.length_nil, and_self]
      · simp only [decodeRune, h1, h2, h3, h4, c1, if_true, if_false, List.take_succ_cons,
          List.take_zero, List.length_cons, List.length_nil, and_self, Bool.false_eq_true]
  by_cases h5 : b < 0xF5
  · rcases t with _ | ⟨b1, _ | ⟨b2, _ | ⟨b3, t⟩⟩⟩
    · simp [decodeRune, h1, h2, h3, h4, h5]
    · simp [decodeRune, h1, h2, h3, h4, h5]
    · simp [decodeRune, h1, h2, h3, h4, h5]
    · by_cases c1 : (inRange (if b = 0xF0 then 0x90 else 0x80) (if b = 0xF4 then 0x8F else 0xBF) b1
          && inRange 0x80 0xBF b2 && inRange 0x80 0xBF b3) = true
      · simp only [decodeRune, h1, h2, h3, h4, h5, c1, if_true, if_false, List.take_succ_cons,
          List.take_zero, List.length_cons, List.length_nil, and_self]
      · simp only [decodeRune, h1, h2, h3, h4, h5, c1, if_true, if_false, List.take_succ_cons,
          List.take_zero, List.length_cons, List.length_nil, and_self, Bool.false_eq_true]
  · simp [decodeRune, h1, h2, h3, h4, h5]

theorem derives_dot {c c' : Cur} (h : Derives Re.dot c c') :
    ∃ x, IsAnyChar x ∧ c.2 = x ++ c'.2 := by
  cases h with
  | cls _ _ pv b t hc =>
    have ht := decodeRune_take b t
    have hw := decodeRune_width_pos b t
    refine ⟨(b :: t).take (decodeRune (b :: t)).2, ⟨?_, ?_, ?_⟩, (List.take_append_drop _ _).symm⟩
    · intro e
      have := congrArg List.length e
      rw [ht.2] at this
      simp only [List.length_nil] at this
      omega
    · rw [ht.1, ht.2]
    · rw [ht.1]
      intro e
      rw [e] at hc
      revert hc
      decide

theorem derives_tld {c c' : Cur}
    (h : Derives (.group 1 (Re.any [Re.word "com", Re.word "edu", Re.word "net", Re.word "ca",
      Re.cat [Re.word "co", Re.dot, Re.word "uk"], Re.word "co", Re.word "org", Re.word "gov",
      Re.word "info", Re.word "de", Re.word "au", Re.word "nl", Re.word "ru", Re.word "fr",
      Re.word "br", Re.word "uk", Re.word "io", Re.word "me", Re.word "dev"])) c c') :
    ∃ w, IsTldEntry w ∧ c.2 = w ++ c'.2 := by
  cases h with
  | group _ _ _ _ h' =>
    obtain ⟨r, hr, hd⟩ := derives_any _ h'
    simp only [List.mem_cons, List.mem_singleton, List.not_mem_nil, or_false] at hr
    rcases hr with rfl | rfl | rfl | rfl | rfl | rfl | rfl | rfl | rfl | rfl | rfl | rfl | rfl | rfl | rfl | rfl | rfl | rfl | rfl
    · exact ⟨bytes "com", Or.inl (by decide), derives_word "com" (by decide) hd⟩
    · exact ⟨bytes "edu", Or.inl (by decide), derives_word "edu" (by decide) hd⟩
    · exact ⟨bytes "net", Or.inl (by decide), derives_word "net" (by decide) hd⟩
    · exact ⟨bytes "ca", Or.inl (by decide), derives_word "ca" (by decide) hd⟩
    · obtain ⟨c3, d1, d2⟩ := derives_seq (by simpa only [Re.cat] using hd)
      obtain ⟨c4, d3, d4⟩ := derives_seq d2
      have e1 := derives_word "co" (by decide) d1
      obtain ⟨x, hx, e2⟩ := derives_dot d3
      have e3 := derives_word "uk" (by decide) d4
      exact ⟨bytes "co" ++ x ++ bytes "uk", Or.inr ⟨x, rfl, hx⟩, by
        rw [e1, e2, e3]; simp only [List.append_assoc]⟩
    · exact ⟨bytes "co", Or.inl (by decide), derives_word "co" (by decide) hd⟩
    · exact ⟨bytes "org", Or.inl (by decide), derives_word "org" (by decide) hd⟩
    · exact ⟨bytes "gov", Or.inl (by decide), derives_word "gov" (by decide) hd⟩
    · exact ⟨bytes "info", Or.inl (by decide), derives_word "info" (by decide) hd⟩
    · exact ⟨bytes "de", Or.inl (by decide), derives_word "de" (by decide) hd⟩
    · exact ⟨bytes "au", Or.inl (by decide), derives_word "au" (by decide) hd⟩
    · exact ⟨bytes "nl", Or.inl (by decide), derives_word "nl" (by decide) hd⟩
    · exact ⟨bytes "ru", Or.inl (by decide), derives_word "ru" (by decide) hd⟩
    · exact ⟨bytes "fr", Or.inl (by decide), derives_word "fr" (by decide) hd⟩
    · exact ⟨bytes "br", Or.inl (by decide), derives_word "br" (by decide) hd⟩
    · exact ⟨bytes "uk", Or.inl (by decide), derives_word "uk" (by decide) hd⟩
    · exact ⟨bytes "io", Or.inl (by decide), derives_word "io" (by decide) hd⟩
    · exact ⟨bytes "me", Or.inl (by decide), derives_word "me" (by decide) hd⟩
    · exact ⟨bytes "dev", Or.inl (by decide), derives_word "dev" (by decide) hd⟩

theorem rotShape_of_derives {pv : Option Nat} {s : Str} {c' : Cur}
    (h : Derives rotRegex (pv, s) c') : pv = none ∧ c'.2 = [] ∧ RotShapeOf IsTldEntry s := by
  simp only [rotRegex, Re.cat] at h
  obtain ⟨c1, d0, h⟩ := derives_seq h
  obtain ⟨c2, d1, h⟩ := derives_seq h
  obtain ⟨c3, d2, h⟩ := derives_seq h
  obtain ⟨c4, d3, h⟩ := derives_seq h
  obtain ⟨c5, d4, h⟩ := derives_seq h
  obtain ⟨c6, d5, d6⟩ := derives_seq h
  have hpv : pv = none ∧ c1 = (pv, s) := by
    cases d0 with
    | bot _ => exact ⟨rfl, rfl⟩
  obtain ⟨hpv, rfl⟩ := hpv
  obtain ⟨loc, e1, hloc, hlocc⟩ := derives_plus_cls d1 (by decide)
  have e2 := derives_byte d2 (by decide)
  obtain ⟨dom, e3, hdom, hdomc⟩ := derives_plus_cls d3 (by decide)
  have e4 := derives_byte d4 (by decide)
  unfold Re.plus at d5
  obtain ⟨c7, d7, d8⟩ := derives_seq d5
  obtain ⟨w0, hw0, e5⟩ := derives_tld d7
  obtain ⟨ws, hws, e6⟩ := derives_star IsTldEntry (fun _ _ hd => derives_tld hd) d8 rfl
  have e7 : c6.2 = [] ∧ c' = c6 := by
    cases d6 with
    | eot _ => exact ⟨rfl, rfl⟩
  obtain ⟨e7, rfl⟩ := e7
  refine ⟨hpv, e7, loc, dom, w0 :: ws, ?_, hloc, fun b hb => isLocalByte_of_inClass b (hlocc b hb),
    hdom, fun b hb => isLabelByte_of_inClass b (hdomc b hb), ?_, by simp, ?_⟩
  · simp only at e1
    rw [e1, e2, e3, e4, e5, e6, e7]
    simp
  · intro hm
    have := isLabelByte_of_inClass 46 (hdomc 46 hm)
    revert this
    decide
  · intro w hw
    rcases List.mem_cons.1 hw with rfl | hw
    · exact hw0
    · exact hws w hw

theorem rotShape_of_rotIsValid (t : Str) (h : rotIsValid t = true) : RotShapeOf IsTldEntry t := by
  unfold rotIsValid Re.matchString at h
  cases hs : rotRegex.search (t.length + 1) [] (Pos.start t) with
  | none => rw [hs] at h; cases h
  | some m =>
    obtain ⟨pre, pv, _, h2, h3, h4⟩ := search_some rotRegex _ _ _ m hs
    obtain ⟨hpv, _, hshape⟩ := rotShape_of_derives h3
    rcases h4 with ⟨e1, _⟩ | ⟨x, _, e2⟩
    · subst e1
      simp only [Pos.start, List.nil_append] at h2
      rw [h2]
      exact hshape
    · rw [hpv] at e2
      cases e2

/-! ### Matches built from their parts -/

theorem prevAfter_nil (pv : Option Nat) : prevAfter pv [] = pv := rfl

theorem prevAfter_append (pv : Option Nat) (w1 w2 : Str) :
    prevAfter (prevAfter pv w1) w2 = prevAfter pv (w1 ++ w2) := by
  cases w2 with
  | nil => simp [prevAfter]
  | cons b t =>
    have h1 : (b :: t).getLast? = some ((b :: t).getLast (by simp)) :=
      List.getLast?_eq_getLast _ _
    have h2 : (w1 ++ b :: t).getLast? = some ((b :: t).getLast (by simp)) := by
      rw [List.getLast?_append, h1]
      rfl
    simp only [prevAfter, h1, h2]

theorem spans_empty : Spans .empty [] := fun _ _ => Derives.empty _

theorem spans_seq {a b : Re} {w1 w2 : Str} (h1 : Spans a w1) (h2 : Spans b w2) :
    Spans (.seq a b) (w1 ++ w2) := by
  intro pv s
  have d1 := h1 pv (w2 ++ s)
  have d2 := h2 (prevAfter pv w1) s
  rw [prevAfter_append] at d2
  rw [List.append_assoc]
  exact Derives.seq a b _ _ _ d1 d2

theorem spans_cls {neg : Bool} {rs : List (Nat × Nat)} {b : Nat} (hb : b < 128)
    (h : inClass neg rs b = true) : Spans (.cls neg rs) [b] := by
  intro pv s
  have hd := Derives.cls neg rs pv b s (by rw [decodeRune_ascii b s hb]; exact h)
  rw [decodeRune_ascii b s hb] at hd
  exact hd

theorem spans_byte {b : Nat} (hb : b < 128) : Spans (Re.byte b) [b] :=
  spans_cls hb (by simp [inClass])

theorem spans_star {greedy : Bool} {a : Re} : ∀ (ws : List Str), (∀ w ∈ ws, Spans a w) →
    Spans (.star greedy a) ws.flatten := by
  intro ws
  induction ws with
  | nil => intro _ pv s; exact Derives.starNil greedy a _
  | cons w ws ih =>
    intro h pv s
    have d1 := h w (List.mem_cons_self _ _) pv (ws.flatten ++ s)
    have d2 := ih (fun x hx => h x (List.mem_cons_of_mem _ hx)) (prevAfter pv w) s
    rw [prevAfter_append] at d2
    rw [List.flatten_cons, List.append_assoc]
    exact Derives.starCons greedy a _ _ _ d1 d2

theorem spans_plus {a : Re} (w : Str) (ws : List Str) (hw : Spans a w)
    (hws : ∀ x ∈ ws, Spans a x) : Spans (Re.plus a) (w ++ ws.flatten) :=
  spans_seq hw (spans_star ws hws)

theorem spans_plus_cls {neg : Bool} {rs : List (Nat × Nat)} (w : Str) (hne : w ≠ [])
    (h : ∀ b ∈ w, b < 128 ∧ inClass neg rs b = true) : Spans (Re.plus (.cls neg rs)) w := by
  cases w with
  | nil => exact absurd rfl hne
  | cons b t =>
    have e : b :: t = [b] ++ (t.map (fun x => [x])).flatten := by
      simp only [List.singleton_append, List.cons.injEq, true_and]
      induction t with
      | nil => rfl
      | cons x t ih =>
        simp only [List.map_cons, List.flatten_cons, List.singleton_append, List.cons.injEq,
          true_and]
        exact ih (by simp) (fun y hy => h y (by
          rcases List.mem_cons.1 hy with rfl | hy
          · exact List.mem_cons_self _ _
          · exact List.mem_cons_of_mem _ (List.mem_cons_of_mem _ hy)))
    rw [e]
    refine spans_plus [b] _ (spans_cls (h b (List.mem_cons_self _ _)).1
      (h b (List.mem_cons_self _ _)).2) ?_
    intro x hx
    obtain ⟨y, hy, rfl⟩ := List.mem_map.1 hx
    exact spans_cls (h y (List.mem_cons_of_mem _ hy)).1 (h y (List.mem_cons_of_mem _ hy)).2

theorem spans_bytes : ∀ (w : Str), (∀ b ∈ w, b < 128) → Spans (Re.cat (w.map Re.byte)) w := by
  intro w
  induction w with
  | nil => intro _; exact spans_empty
  | cons b t ih =>
    intro h
    cases t with
    | nil => exact spans_byte (h b (List.mem_cons_self _ _))
    | cons b2 t =>
      have := spans_seq (spans_byte (h b (List.mem_cons_self _ _)))
        (ih (fun x hx => h x (List.mem_cons_of_mem _ hx)))
      simpa only [Re.cat, List.map_cons, List.singleton_append] using this

theorem spans_word (s : String) (hs : ∀ b ∈ bytes s, b < 128) : Spans (Re.word s) (bytes s) :=
  spans_bytes (bytes s) hs

theorem spans_any : ∀ (rs : List Re) (r : Re) (w : Str), r ∈ rs → Spans r w →
    Spans (Re.any rs) w := by
  intro rs
  induction rs with
  | nil => intro r w h; cases h
  | cons a rs ih =>
    intro r w hr hs
    cases rs with
    | nil =>
      simp only [List.mem_singleton] at hr
      subst hr
      exact hs
    | cons a2 rs =>
      rcases List.mem_cons.1 hr with rfl | hr
      · intro pv s
        exact Derives.altL _ _ _ _ (hs pv s)
      · intro pv s
        exact Derives.altR _ _ _ _ (ih r w hr hs pv s)

theorem spans_group {i : Nat} {a : Re} {w : Str} (h : Spans a w) : Spans (.group i a) w :=
  fun pv s => Derives.group i a _ _ (h pv s)

theorem spans_tld (w : Str) (h : w ∈ listedSuffixes) :
    Spans (.group 1 (Re.any [Re.word "com", Re.word "edu", Re.word "net", Re.word "ca",
      Re.cat [Re.word "co", Re.dot, Re.word "uk"], Re.word "co", Re.word "org", Re.word "gov",
      Re.word "info", Re.word "de", Re.word "au", Re.word "nl", Re.word "ru", Re.word "fr",
      Re.word "br", Re.word "uk", Re.word "io", Re.word "me", Re.word "dev"])) w := by
  apply spans_group
  simp only [listedSuffixes, tldWords, List.mem_cons, List.mem_singleton, List.not_mem_nil,
    or_false] at h
  rcases h with rfl | rfl | rfl | rfl | rfl | rfl | rfl | rfl | rfl | rfl | rfl | rfl | rfl | rfl | rfl | rfl | rfl | rfl | rfl
  · refine spans_any _ (Re.cat [Re.word "co", Re.dot, Re.word "uk"]) _ (by simp) ?_
    have := spans_seq (spans_word "co" (by decide))
      (spans_seq (spans_cls (b := 46) (by decide) (by decide : inClass true [(10, 10)] 46 = true))
        (spans_word "uk" (by decide)))
    exact this
  · exact spans_any _ (Re.word "com") _ (by simp) (spans_word "com" (by decide))
  · exact spans_any _ (Re.word "edu") _ (by simp) (spans_word "edu" (by decide))
  · exact spans_any _ (Re.word "net") _ (by simp) (spans_word "net" (by decide))
  · exact spans_any _ (Re.word "ca") _ (by simp) (spans_word "ca" (by decide))
  · exact spans_any _ (Re.word "co") _ (by simp) (spans_word "co" (by decide))
  · exact spans_any _ (Re.word "org") _ (by simp) (spans_word "org" (by decide))
  · exact spans_any _ (Re.word "gov") _ (by simp) (spans_word "gov" (by decide))
  · exact spans_any _ (Re.word "info") _ (by simp) (spans_word "info" (by decide))
  · exact spans_any _ (Re.word "de") _ (by simp) (spans_word "de" (by decide))
  · exact spans_any _ (Re.word "au") _ (by simp) (spans_word "au" (by decide))
  · exact spans_any _ (Re.word "nl") _ (by simp) (spans_word "nl" (by decide))
  · exact spans_any _ (Re.word "ru") _ (by simp) (spans_word "ru" (by decide))
  · exact spans_any _ (Re.word "fr") _ (by simp) (spans_word "fr" (by decide))
  · exact spans_any _ (Re.word "br") _ (by simp) (spans_word "br" (by decide))
  · exact spans_any _ (Re.word "uk") _ (by simp) (spans_word "uk" (by decide))
  · exact spans_any _ (Re.word "io") _ (by simp) (spans_word "io" (by decide))
  · exact spans_any _ (Re.word "me") _ (by simp) (spans_word "me" (by decide))
  · exact spans_any _ (Re.word "dev") _ (by simp) (spans_word "dev" (by decide))

theorem rotIsValid_of_listed (t : Str) (h : RotShapeOf (fun w => w ∈ listedSuffixes) t) :
    rotIsValid t = true := by
  obtain ⟨loc, dom, sufs, rfl, hloc, hlocc, hdom, hdomc, _, hsufs, hall⟩ := h
  cases sufs with
  | nil => exact absurd rfl hsufs
  | cons w0 ws =>
    have s1 : Spans (Re.plus (Re.set "a-zA-Z0-9_.+-")) loc :=
      spans_plus_cls loc hloc (fun b hb => by
        have := hlocc b hb
        have e : classRanges (bytes "a-zA-Z0-9_.+-")
            = [(97, 122), (65, 90), (48, 57), (95, 95), (46, 46), (43, 43), (45, 45)] := by
          decide
        rw [e]
        simp only [isLocalByte, inRange, Bool.or_eq_true, Bool.and_eq_true, decide_eq_true_eq,
          beq_iff_eq] at this
        simp only [inClass, Bool.false_bne, List.any_cons, List.any_nil, Bool.or_false,
          Bool.or_eq_true, Bool.and_eq_true, decide_eq_true_eq]
        omega)
    have s2 : Spans (Re.plus (Re.set "a-zA-Z0-9-")) dom :=
      spans_plus_cls dom hdom (fun b hb => by
        have := hdomc b hb
        have e : classRanges (bytes "a-zA-Z0-9-") = [(97, 122), (65, 90), (48, 57), (45, 45)] := by
          decide
        rw [e]
        simp only [isLabelByte, inRange, Bool.or_eq_true, Bool.and_eq_true, decide_eq_true_eq,
          beq_iff_eq] at this
        simp only [inClass, Bool.false_bne, List.any_cons, List.any_nil, Bool.or_false,
          Bool.or_eq_true, Bool.and_eq_true, decide_eq_true_eq]
        omega)
    have s3 := spans_plus w0 ws (spans_tld w0 (hall w0 (List.mem_cons_self _ _)))
      (fun x hx => spans_tld x (hall x (List.mem_cons_of_mem _ hx)))
    have s := spans_seq s1 (spans_seq (spans_byte (b := 64) (by decide))
      (spans_seq s2 (spans_seq (spans_byte (b := 46) (by decide)) s3)))
    have d := s none []
    apply matchString_of_derives rotRegex _ (prevAfter none
      (loc ++ ([64] ++ (dom ++ ([46] ++ (w0 ++ ws.flatten))))), [])
    simp only [rotRegex, Re.cat]
    refine Derives.seq _ _ _ _ _ (Derives.bot _) ?_
    have e : loc ++ [64] ++ dom ++ [46] ++ (w0 :: ws).flatten
        = loc ++ ([64] ++ (dom ++ ([46] ++ (w0 ++ ws.flatten)))) ++ [] := by simp
    rw [e]
    have assoc : ∀ (a b c d e' : Re) (c1 c2 : Cur),
        Derives (.seq a (.seq b (.seq c (.seq d e')))) c1 c2 → Derives .eot c2 c2 →
        Derives (.seq a (.seq b (.seq c (.seq d (.seq e' .eot))))) c1 c2 := by
      intro a b c d e' c1 c2 h he
      obtain ⟨x1, h1, h⟩ := derives_seq h
      obtain ⟨x2, h2, h⟩ := derives_seq h
      obtain ⟨x3, h3, h⟩ := derives_seq h
      obtain ⟨x4, h4, h5⟩ := derives_seq h
      exact Derives.seq _ _ _ _ _ h1 (Derives.seq _ _ _ _ _ h2 (Derives.seq _ _ _ _ _ h3
        (Derives.seq _ _ _ _ _ h4 (Derives.seq _ _ _ _ _ h5 he))))
    exact assoc _ _ _ _ _ _ _ d (Derives.eot _)

/-- C13 (as amended): every text `rotIsValid` accepts, so every candidate `tryRotDecryption`
returns, is a local part over `[a-zA-Z0-9_.+-]`, `@`, a label over `[a-zA-Z0-9-]` (so without
dot), a dot, and then one or more entries of the suffix list written one after the other, an
entry being one of com, edu, net, ca, co, org, gov, info, de, au, nl, ru, fr, br, uk, io, me,
dev, or `co`, one character, `uk`; and every text of that shape whose entries are those of the
list as it is written, `co.uk` among them, is accepted. -/
theorem rotIsValid_shape (L : Stdlib) (s t : Str)
    (h : rotIsValid t = true ∨ t ∈ tryRotDecryption L s) :
    RotShapeOf IsTldEntry t
      ∧ ∀ u, RotShapeOf (fun w => w ∈ listedSuffixes) u → rotIsValid u = true := by
  refine ⟨?_, rotIsValid_of_listed⟩
  rcases h with h | h
  · exact rotShape_of_rotIsValid t h
  · obtain ⟨k, _, _, _, hv⟩ := (mem_tryRotDecryption L s t).1 h
    exact rotShape_of_rotIsValid t hv

/-- C13 (witness): `user@example.co.uk` is accepted, and has the shape. -/
theorem rotIsValid_shape_example :
    rotIsValid (bytes "user@example.co.uk") = true
      ∧ RotShapeOf IsTldEntry (bytes "user@example.co.uk") :=
  ⟨by decide!,
    (rotIsValid_shape plainLib [] (bytes "user@example.co.uk") (Or.inl (by decide!))).1⟩

/-- C13 (counterexample): `rotIsValid` accepts `a@b.comnet`, whose suffix is two entries of
the list one after the other and no entry itself, and `a@b.coXuk`. -/
theorem rotIsValid_comnet :
    rotIsValid (bytes "a@b.comnet") = true ∧ bytes "comnet" ∉ listedSuffixes
      ∧ rotIsValid (bytes "a@b.coXuk") = true := by
  decide!

/-! ## The nospam rule, without the matcher -/

theorem filler_class (r : Nat) (h : isAlnumByte r = false) :
    inClass true [(48, 57), (65, 90), (97, 122)] r = true := by
  simp only [isAlnumByte, inRange, Bool.or_eq_false_iff, Bool.and_eq_false_iff,
    decide_eq_false_iff_not] at h
  simp only [inClass, List.any_cons, List.any_nil, Bool.or_false, Bool.true_bne,
    Bool.not_eq_true', Bool.or_eq_false_iff, Bool.and_eq_false_iff, decide_eq_false_iff_not]
  omega

theorem derives_fillers_intro : ∀ (n : Nat) (u : Str), u.length ≤ n → IsFiller u →
    ∀ (pv : Option Nat) (x : Nat) (s : Str), x < 128 →
      ∃ pv', Derives (Re.many Re.underscoreOrNonWord) (pv, u ++ x :: s) (pv', x :: s) := by
  intro n
  induction n with
  | zero =>
    intro u hu _ pv x s _
    have : u = [] := List.length_eq_zero.1 (by omega)
    subst this
    exact ⟨pv, Derives.starNil _ _ _⟩
  | succ n ih =>
    intro u hu hf pv x s hx
    cases u with
    | nil => exact ⟨pv, Derives.starNil _ _ _⟩
    | cons b t =>
      have hw := decodeRune_width_le b t s x hx
      have hpos := decodeRune_width_pos b (t ++ x :: s)
      have hcls : inClass true [(48, 57), (65, 90), (97, 122)]
          (decodeRune (b :: (t ++ x :: s))).1 = true := by
        rcases decodeRune_ascii_or b (t ++ x :: s) with e | e
        · rw [e]
          exact filler_class b (hf b (List.mem_cons_self _ _))
        · apply filler_class
          simp only [isAlnumByte, inRange, Bool.or_eq_false_iff, Bool.and_eq_false_iff,
            decide_eq_false_iff_not]
          omega
      have d1 := Derives.cls true [(48, 57), (65, 90), (97, 122)] pv b (t ++ x :: s) hcls
      have e2 : b :: (t ++ x :: s) = (b :: t) ++ x :: s := rfl
      rw [e2] at hw hpos d1
      rw [List.drop_append_of_le_length hw] at d1
      obtain ⟨pv', d2⟩ := ih ((b :: t).drop (decodeRune ((b :: t) ++ x :: s)).2)
        (by
          rw [List.length_drop]
          simp only [List.length_cons] at hu hw ⊢
          omega)
        (fun y hy => hf y (List.mem_of_mem_drop hy)) _ x s hx
      exact ⟨pv', Derives.starCons _ _ _ _ _ d1 d2⟩

theorem derives_letter (b : Nat) (hb : b < 128) (pv : Option Nat) (s : Str) :
    Derives (Re.byte b) (pv, b :: s) (some b, s) := by
  have := spans_byte hb pv s
  simpa [prevAfter] using this

theorem nospamToken_derives (w : Str) (h : NospamToken w) (pv : Option Nat) (r : Str) :
    ∃ c', Derives nospamRegex (pv, w ++ r) c' := by
  obtain ⟨u0, u1, u2, u3, u4, u5, u6, o, s, rfl, ho, hs, f0, f1, f2, f3, f4, f5, _⟩ := h
  have ho' : o < 128 := by rcases ho with rfl | rfl <;> decide
  have hs' : s < 128 := by rcases hs with rfl | rfl <;> decide
  simp only [List.append_assoc, List.cons_append]
  obtain ⟨p0, d0⟩ := derives_fillers_intro _ u0 (le_refl _) f0 pv 110
    (u1 ++ o :: (u2 ++ s :: (u3 ++ 112 :: (u4 ++ 97 :: (u5 ++ 109 :: (u6 ++ r)))))) (by decide)
  have d1 := derives_letter 110 (by decide) p0
    (u1 ++ o :: (u2 ++ s :: (u3 ++ 112 :: (u4 ++ 97 :: (u5 ++ 109 :: (u6 ++ r))))))
  obtain ⟨p2, d2⟩ := derives_fillers_intro _ u1 (le_refl _) f1 (some 110) o
    (u2 ++ s :: (u3 ++ 112 :: (u4 ++ 97 :: (u5 ++ 109 :: (u6 ++ r))))) ho'
  have d3 : Derives (.group 1 (Re.any [Re.word "o", Re.word "0"]))
      (p2, o :: (u2 ++ s :: (u3 ++ 112 :: (u4 ++ 97 :: (u5 ++ 109 :: (u6 ++ r))))))
      (some o, u2 ++ s :: (u3 ++ 112 :: (u4 ++ 97 :: (u5 ++ 109 :: (u6 ++ r))))) := by
    apply Derives.group
    rcases ho with rfl | rfl
    · exact Derives.altL _ _ _ _ (derives_letter 111 (by decide) _ _)
    · exact Derives.altR _ _ _ _ (derives_letter 48 (by decide) _ _)
  obtain ⟨p4, d4⟩ := derives_fillers_intro _ u2 (le_refl _) f2 (some o) s
    (u3 ++ 112 :: (u4 ++ 97 :: (u5 ++ 109 :: (u6 ++ r)))) hs'
  have d5 : Derives (.group 2 (Re.any [Re.word "s", Re.word "5"]))
      (p4, s :: (u3 ++ 112 :: (u4 ++ 97 :: (u5 ++ 109 :: (u6 ++ r)))))
      (some s, u3 ++ 112 :: (u4 ++ 97 :: (u5 ++ 109 :: (u6 ++ r)))) := by
    apply Derives.group
    rcases hs with rfl | rfl
    · exact Derives.altL _ _ _ _ (derives_letter 115 (by decide) _ _)
    · exact Derives.altR _ _ _ _ (derives_letter 53 (by decide) _ _)
  obtain ⟨p6, d6⟩ := derives_fillers_intro _ u3 (le_refl _) f3 (some s) 112
    (u4 ++ 97 :: (u5 ++ 109 :: (u6 ++ r))) (by decide)
  have d7 := derives_letter 112 (by decide) p6 (u4 ++ 97 :: (u5 ++ 109 :: (u6 ++ r)))
  obtain ⟨p8, d8⟩ := derives_fillers_intro _ u4 (le_refl _) f4 (some 112) 97
    (u5 ++ 109 :: (u6 ++ r)) (by decide)
  have d9 := derives_letter 97 (by decide) p8 (u5 ++ 109 :: (u6 ++ r))
  obtain ⟨p10, d10⟩ := derives_fillers_intro _ u5 (le_refl _) f5 (some 97) 109 (u6 ++ r)
    (by decide)
  have d11 := derives_letter 109 (by decide) p10 (u6 ++ r)
  have d12 : Derives (Re.many Re.underscoreOrNonWord) (some 109, u6 ++ r) (some 109, u6 ++ r) :=
    Derives.starNil _ _ _
  refine ⟨(some 109, u6 ++ r), ?_⟩
  simp only [nospamRegex, Re.cat]
  exact Derives.seq _ _ _ _ _ d0 (Derives.seq _ _ _ _ _ d1 (Derives.seq _ _ _ _ _ d2
    (Derives.seq _ _ _ _ _ d3 (Derives.seq _ _ _ _ _ d4 (Derives.seq _ _ _ _ _ d5
    (Derives.seq _ _ _ _ _ d6 (Derives.seq _ _ _ _ _ d7 (Derives.seq _ _ _ _ _ d8
    (Derives.seq _ _ _ _ _ d9 (Derives.seq _ _ _ _ _ d10 (Derives.seq _ _ _ _ _ d11 d12)))))))))))

theorem nospamToken_prepend (a w : Str) (ha : ∀ x ∈ a, 128 ≤ x) (h : NospamToken w) :
    NospamToken (a ++ w) := by
  obtain ⟨u0, u1, u2, u3, u4, u5, u6, o, s, rfl, ho, hs, f0, f1, f2, f3, f4, f5, f6⟩ := h
  refine ⟨a ++ u0, u1, u2, u3, u4, u5, u6, o, s, by simp, ho, hs, ?_, f1, f2, f3, f4, f5, f6⟩
  intro x hx
  rcases List.mem_append.1 hx with hx | hx
  · have := ha x hx
    simp only [isAlnumByte, inRange, Bool.or_eq_false_iff, Bool.and_eq_false_iff,
      decide_eq_false_iff_not]
    omega
  · exact f0 x hx

/-- Where a text holds a nospam-family token, the search comes to a place at or before its
start at which `nospamRegex` has a match. -/
theorem nospamToken_visit : ∀ (n : Nat) (a : Str), a.length ≤ n →
    ∀ (pv : Option Nat) (w b : Str), NospamToken w →
      ∃ g c c', Visits (pv, a ++ (w ++ b)) g c ∧ g.length ≤ a.length
        ∧ Derives nospamRegex c c' := by
  intro n
  induction n with
  | zero =>
    intro a ha pv w b hw
    have : a = [] := List.length_eq_zero.1 (by omega)
    subst this
    obtain ⟨c', hd⟩ := nospamToken_derives w hw pv b
    exact ⟨[], _, c', Visits.here _, le_refl _, hd⟩
  | succ n ih =>
    intro a ha pv w b hw
    cases a with
    | nil =>
      obtain ⟨c', hd⟩ := nospamToken_derives w hw pv b
      exact ⟨[], _, c', Visits.here _, le_refl _, hd⟩
    | cons x a =>
      have hpos := decodeRune_width_pos x (a ++ (w ++ b))
      by_cases hle : (decodeRune (x :: (a ++ (w ++ b)))).2 ≤ (x :: a).length
      · have hdrop : (x :: (a ++ (w ++ b))).drop (decodeRune (x :: (a ++ (w ++ b)))).2
            = (x :: a).drop (decodeRune (x :: (a ++ (w ++ b)))).2 ++ (w ++ b) :=
          List.drop_append_of_le_length hle
        have htake : ((x :: (a ++ (w ++ b))).take (decodeRune (x :: (a ++ (w ++ b)))).2).length
            = (decodeRune (x :: (a ++ (w ++ b)))).2 := by
          rw [List.length_take]
          simp only [List.length_cons, List.length_append] at hle ⊢
          omega
        obtain ⟨g, c, c', hv, hg, hd⟩ := ih ((x :: a).drop (decodeRune (x :: (a ++ (w ++ b)))).2)
          (by
            rw [List.length_drop]
            simp only [List.length_cons] at ha ⊢
            omega)
          (((x :: (a ++ (w ++ b))).take (decodeRune (x :: (a ++ (w ++ b)))).2).getLast?)
          w b hw
        rw [← hdrop] at hv
        refine ⟨_, c, c', Visits.next pv x _ g c hv, ?_, hd⟩
        rw [List.length_drop] at hg
        rw [List.length_append]
        change ((x :: (a ++ (w ++ b))).take (decodeRune (x :: (a ++ (w ++ b)))).2).length
          + g.length ≤ (x :: a).length
        rw [htake]
        omega
      · rcases decodeRune_taken x (a ++ (w ++ b)) with e1 | ⟨_, e1⟩
        · rw [e1] at hle
          simp at hle
        · have hhigh : ∀ y ∈ x :: a, 128 ≤ y := by
            intro y hy
            apply e1
            have e2 : (x :: (a ++ (w ++ b))).take (decodeRune (x :: (a ++ (w ++ b)))).2
                = (x :: a).take (decodeRune (x :: (a ++ (w ++ b)))).2
                  ++ (w ++ b).take ((decodeRune (x :: (a ++ (w ++ b)))).2 - (x :: a).length) :=
              @List.take_append_eq_append_take Nat (x :: a) (w ++ b) _
            rw [e2]
            apply List.mem_append_left
            rw [List.take_of_length_le (by omega)]
            exact hy
          obtain ⟨c', hd⟩ := nospamToken_derives _ (nospamToken_prepend (x :: a) w hhigh hw) pv b
          refine ⟨[], _, c', Visits.here _, Nat.zero_le _, ?_⟩
          simpa using hd

theorem search_run (re : Re) : ∀ (n : Nat) (skipped : Str) (p : Pos) (m : Match),
    re.search n skipped p = some m → ∃ p' : Pos, re.run p' some = some m.stop := by
  intro n
  induction n with
  | zero => intro _ _ _ h; cases h
  | succ n ih =>
    intro skipped p m h
    unfold Re.search at h
    split at h
    · rename_i q hq
      cases h
      exact ⟨_, hq⟩
    · split at h
      · cases h
      · exact ih _ _ _ h

theorem run_seq_some {a b : Re} {p res : Pos} {k : Pos → Option Pos}
    (h : (Re.seq a b).run p k = some res) : ∃ q, b.run q k = some res := by
  unfold Re.run at h
  obtain ⟨q, hq, _⟩ := run_sound a _ _ _ h
  exact ⟨q, hq⟩

/-- A match of `nospamRegex` goes on as far as underscores and non-word characters go. -/
theorem nospam_run_max (p q : Pos) (h : nospamRegex.run p some = some q) :
    ∀ x, q.rest.head? = some x → isAlnumByte x = true := by
  simp only [nospamRegex, Re.cat] at h
  obtain ⟨q1, h⟩ := run_seq_some h
  obtain ⟨q2, h⟩ := run_seq_some h
  obtain ⟨q3, h⟩ := run_seq_some h
  obtain ⟨q4, h⟩ := run_seq_some h
  obtain ⟨q5, h⟩ := run_seq_some h
  obtain ⟨q6, h⟩ := run_seq_some h
  obtain ⟨q7, h⟩ := run_seq_some h
  obtain ⟨q8, h⟩ := run_seq_some h
  obtain ⟨q9, h⟩ := run_seq_some h
  obtain ⟨q10, h⟩ := run_seq_some h
  obtain ⟨q11, h⟩ := run_seq_some h
  obtain ⟨q12, h⟩ := run_seq_some h
  simp only [Re.many, Re.underscoreOrNonWord] at h
  rw [Re.run] at h
  rcases starLoop_greedy_max _ _ _ _ _ (le_refl _) h with e | ⟨b, t, e, hc⟩
  · intro x hx
    rw [e] at hx
    cases hx
  · intro x hx
    rw [e] at hx
    simp only [List.head?_cons, Option.some.injEq] at hx
    subst hx
    rcases decodeRune_ascii_or b t with e1 | e1
    · rw [e1] at hc
      by_contra hne
      have := filler_class b (by simpa using hne)
      rw [this] at hc
      cases hc
    · have := filler_class (decodeRune (b :: t)).1 (by
        simp only [isAlnumByte, inRange, Bool.or_eq_false_iff, Bool.and_eq_false_iff,
          decide_eq_false_iff_not]
        omega)
      rw [this] at hc
      cases hc

theorem nospam_none (n : Nat) (p : Pos) (hn : p.rest.length < n)
    (h : nospamRegex.search n [] p = none) :
    ∀ a w b, p.rest = a ++ w ++ b → ¬ NospamToken w := by
  intro a w b e hw
  obtain ⟨g, c, c', hv, _, hd⟩ := nospamToken_visit _ a (le_refl _) p.prev w b hw
  rw [← List.append_assoc, ← e] at hv
  exact search_none_visits nospamRegex n [] p hn h g c hv c' hd

/-- The replacement of `nospamRegex` does what `NospamRewrite` says. -/
theorem replaceAllLoop_nospam : ∀ (n : Nat) (first : Bool) (p : Pos), p.rest.length < n →
    NospamRewrite p.rest
      (nospamRegex.replaceAllLoop (fun m => nospamReplacement m.text) n first [] p) := by
  intro n
  induction n with
  | zero => intro _ p h; omega
  | succ n ih =>
    intro first p hlen
    cases hs : nospamRegex.search (p.rest.length + 1) [] p with
    | none =>
      have : nospamRegex.replaceAllLoop (fun m => nospamReplacement m.text) (n + 1) first [] p
          = p.rest := by
        simp only [Re.replaceAllLoop, hs, List.nil_append]
      rw [this]
      exact NospamRewrite.rest _ (nospam_none _ p (Nat.lt_succ_self _) hs)
    | some m =>
      obtain ⟨pre, pv, h1, h2, h3, _⟩ := search_some nospamRegex _ _ _ m hs
      obtain ⟨pre', h1', hleft⟩ := search_leftmost nospamRegex _ _ _ m hs
      have hpre : pre' = pre := by
        rw [h1] at h1'
        simpa using h1'.symm
      subst hpre
      obtain ⟨w, e, hw⟩ := derives_nospam h3
      have ew : w = m.text := by
        have : m.text ++ m.stop.rest = w ++ m.stop.rest := e
        exact (List.append_cancel_right this).symm
      subst ew
      have hne' := nospamToken_ne_nil _ hw
      have hpos : 0 < m.text.length := List.length_pos.2 hne'
      have hlt : m.stop.rest.length < p.rest.length := by
        rw [h2]; simp only [List.length_append]; omega
      obtain ⟨p', hrun⟩ := search_run nospamRegex _ _ _ m hs
      have hmax := nospam_run_max p' m.stop hrun
      have hemp : m.text.isEmpty = false := by
        cases hm : m.text with
        | nil => exact absurd hm hne'
        | cons _ _ => rfl
      have hres : nospamRegex.replaceAllLoop (fun m => nospamReplacement m.text) (n + 1) first
          [] p = pre' ++ nospamReplacement m.text
            ++ nospamRegex.replaceAllLoop (fun m => nospamReplacement m.text) n false [] m.stop := by
        simp only [Re.replaceAllLoop, hs, hemp, hlt, if_true, Bool.and_false, Bool.not_false,
          Bool.or_true, List.nil_append, h1]
      have hp : p.rest = pre' ++ m.text ++ m.stop.rest := by rw [h2, List.append_assoc]
      rw [hres, hp]
      refine NospamRewrite.token pre' m.text m.stop.rest _ hw ?_ hmax (ih false m.stop (by omega))
      intro a w b e hwt
      by_contra hlt'
      obtain ⟨g, c, c', hv, hg, hd⟩ := nospamToken_visit _ a (le_refl _) p.prev w b hwt
      rw [← List.append_assoc, ← e, ← hp] at hv
      exact hleft g c hv (by omega) c' hd

theorem split_alnum : ∀ (u u' : Str) (x x' : Nat) (s s' : Str), IsFiller u → IsFiller u' →
    isAlnumByte x = true → isAlnumByte x' = true → u ++ x :: s = u' ++ x' :: s' →
    u = u' ∧ x = x' ∧ s = s' := by
  intro u
  induction u with
  | nil =>
    intro u' x x' s s' _ hu' hx _ e
    cases u' with
    | nil =>
      simp only [List.nil_append, List.cons.injEq] at e
      exact ⟨rfl, e.1, e.2⟩
    | cons y u' =>
      simp only [List.nil_append, List.cons_append, List.cons.injEq] at e
      have := hu' y (List.mem_cons_self _ _)
      rw [← e.1, hx] at this
      cases this
  | cons y u ih =>
    intro u' x x' s s' hu hu' hx hx' e
    cases u' with
    | nil =>
      simp only [List.nil_append, List.cons_append, List.cons.injEq] at e
      have := hu y (List.mem_cons_self _ _)
      rw [e.1, hx'] at this
      cases this
    | cons y' u' =>
      simp only [List.cons_append, List.cons.injEq] at e
      obtain ⟨e1, e2, e3⟩ := ih u' x x' s s' (fun z hz => hu z (List.mem_cons_of_mem _ hz))
        (fun z hz => hu' z (List.mem_cons_of_mem _ hz)) hx hx' e.2
      exact ⟨by rw [e.1, e1], e2, e3⟩

theorem split_alnum_end (u u' r r' : Str) (hu : IsFiller u) (hu' : IsFiller u')
    (hr : ∀ x, r.head? = some x → isAlnumByte x = true)
    (hr' : ∀ x, r'.head? = some x → isAlnumByte x = true) (e : u ++ r = u' ++ r') :
    u = u' ∧ r = r' := by
  cases r with
  | nil =>
    cases r' with
    | nil => simpa using e
    | cons x' s' =>
      exfalso
      have hx' := hr' x' rfl
      have hm : x' ∈ u := by
        rw [List.append_nil] at e
        rw [e]
        simp
      rw [hu x' hm] at hx'
      cases hx'
  | cons x s =>
    cases r' with
    | nil =>
      exfalso
      have hx := hr x rfl
      have hm : x ∈ u' := by
        rw [List.append_nil] at e
        rw [← e]
        simp
      rw [hu' x hm] at hx
      cases hx
    | cons x' s' =>
      obtain ⟨e1, e2, e3⟩ := split_alnum u u' x x' s s' hu hu' (hr x rfl) (hr' x' rfl) e
      exact ⟨e1, by rw [e2, e3]⟩

/-- From one place at most one nospam-family token goes on as far as it can. -/
theorem nospamToken_unique (m m' r r' : Str) (hm : NospamToken m) (hm' : NospamToken m')
    (hr : ∀ x, r.head? = some x → isAlnumByte x = true)
    (hr' : ∀ x, r'.head? = some x → isAlnumByte x = true) (e : m ++ r = m' ++ r') :
    m = m' ∧ r = r' := by
  obtain ⟨u0, u1, u2, u3, u4, u5, u6, o, s, rfl, ho, hs, f0, f1, f2, f3, f4, f5, f6⟩ := hm
  obtain ⟨v0, v1, v2, v3, v4, v5, v6, o', s', rfl, ho', hs', g0, g1, g2, g3, g4, g5, g6⟩ := hm'
  have ao : isAlnumByte o = true := by rcases ho with rfl | rfl <;> decide
  have ao' : isAlnumByte o' = true := by rcases ho' with rfl | rfl <;> decide
  have as : isAlnumByte s = true := by rcases hs with rfl | rfl <;> decide
  have as' : isAlnumByte s' = true := by rcases hs' with rfl | rfl <;> decide
  simp only [List.append_assoc, List.cons_append] at e
  obtain ⟨e0, _, e⟩ := split_alnum _ _ _ _ _ _ f0 g0 (by decide) (by decide) e
  obtain ⟨e1, eo, e⟩ := split_alnum _ _ _ _ _ _ f1 g1 ao ao' e
  obtain ⟨e2, es, e⟩ := split_alnum _ _ _ _ _ _ f2 g2 as as' e
  obtain ⟨e3, _, e⟩ := split_alnum _ _ _ _ _ _ f3 g3 (by decide) (by decide) e
  obtain ⟨e4, _, e⟩ := split_alnum _ _ _ _ _ _ f4 g4 (by decide) (by decide) e
  obtain ⟨e5, _, e⟩ := split_alnum _ _ _ _ _ _ f5 g5 (by decide) (by decide) e
  obtain ⟨e6, er⟩ := split_alnum_end _ _ _ _ f6 g6 hr hr' e
  subst e0 e1 e2 e3 e4 e5 e6 eo es
  exact ⟨rfl, er⟩

/-- The relation `NospamRewrite` leaves one result only. -/
theorem nospamRewrite_unique : ∀ (t o1 : Str), NospamRewrite t o1 →
    ∀ o2, NospamRewrite t o2 → o1 = o2 := by
  intro t o1 h
  induction h with
  | rest t hnone =>
    intro o2 h2
    generalize ht : t = t' at h2
    cases h2 with
    | rest _ _ => rfl
    | token g m r out hm _ _ _ => exact absurd hm (hnone g m r ht)
  | token g m r out hm hleft hmax _ ih =>
    intro o2 h2
    generalize ht : g ++ m ++ r = t' at h2
    cases h2 with
    | rest _ hnone => exact absurd hm (hnone g m r ht.symm)
    | token g' m' r' out' hm' hleft' hmax' hrest' =>
      have l1 := hleft g' m' r' ht hm'
      have l2 := hleft' g m r ht.symm hm
      have hl : g.length = g'.length := by omega
      rw [List.append_assoc, List.append_assoc] at ht
      obtain ⟨eg, er⟩ := List.append_inj ht hl
      obtain ⟨em, er'⟩ := nospamToken_unique m m' r r' hm hm' hmax hmax' er
      subst eg em er'
      rw [ih _ hrest']

/-- C17: the last step of `preProcessEmail` is the replacement of `nospamRegex` by
`nospamReplacement`, applied to what the eight rules before it leave. What it does is said by
`NospamRewrite`, and nothing else is: as long as the text holds a nospam-family token (`n`, `o`
or `0`, `s` or `5`, `p`, `a`, `m` in that order, with runs of underscores and non-word
characters between and around them), the token that starts first, taken with all the
underscores and non-word characters that follow it, is replaced and the text before it kept;
a text without a token is kept. The replacement is `.` when the match contains a `.`,
otherwise `@` when it contains an `@`, otherwise empty, so a match with both becomes `.`. -/
theorem nospam_rule (L : Stdlib) (text : Str) :
    preProcessEmail L text
        = nospamRegex.replaceAllStringFunc (rewriteWords (processHTML L text)) nospamReplacement
      ∧ (∀ out, NospamRewrite text out
          ↔ out = nospamRegex.replaceAllStringFunc text nospamReplacement)
      ∧ (∀ m, nospamReplacement m = if 46 ∈ m then [46] else if 64 ∈ m then [64] else [])
      ∧ nospamRegex.replaceAllStringFunc (bytes "a.nospam@b") nospamReplacement = bytes "a.b"
      ∧ nospamRegex.replaceAllStringFunc (bytes "a n-0_5 pam@b") nospamReplacement = bytes "a@b"
      ∧ nospamRegex.replaceAllStringFunc (bytes "x nospam y") nospamReplacement = bytes "xy"
      ∧ nospamRegex.replaceAllStringFunc (bytes "johnnospam@example.com") nospamReplacement
        = bytes "john@example.com" := by
  have key : NospamRewrite text (nospamRegex.replaceAllStringFunc text nospamReplacement) :=
    replaceAllLoop_nospam (text.length + 1) true (Pos.start text) (Nat.lt_succ_self _)
  refine ⟨rfl, ?_, ?_, by decide!, by decide!, by decide!, by decide!⟩
  · intro out
    constructor
    · intro h
      exact nospamRewrite_unique text out h _ key
    · intro h
      rw [h]
      exact key
  · intro m
    by_cases h1 : 46 ∈ m
    · simp [nospamReplacement, containsByte, bytes, h1, encodeRune]
    · by_cases h2 : 64 ∈ m <;> simp [nospamReplacement, containsByte, bytes, h1, h2, encodeRune]

/-! ## Reversed addresses -/

end EmailScraper
